import Mathlib

/-!
Verification of mseedrtstream: record index, time-order sort and redelivery

A shallow embedding of `src/mseedrtstream.c`.

* `Record` structures live in a heap (`Heap`), a list indexed by address; a
  pointer is an `Option Nat`, `none` being `NULL`.  Dereferencing `NULL` or an
  address outside the heap is undefined behaviour and makes the embedded
  function return `none`.
* `sortrecmap` is embedded loop by loop (`stepLoop`, `mergeLoop`, `passLoop`,
  `sortLoop`), with `int` overflow of `insize` and `nmerges` made explicit.
* `readfiles` and `writerecords` take the behaviour of the external
  collaborators (record decoder, allocator, file system, DataLink server,
  clock) as explicit environment parameters.  Times are unbounded integers;
  the sleep argument of the pacing step is computed as the code does it in
  `double`, each operation rounded to 53 significant bits (`roundDouble`).
* `processparam`, `readregexfile` and `main` work on the argument vector as a
  list of strings and on text files as lists of characters; a call of `exit`
  is the outcome `Outcome.exited`.
-/

namespace Mseedrtstream

/-! ## Data model -/

/-- Record information structure (`struct Record_s`).  `flp` is the position of
the owning `Filelink` in the input file list, `prev` and `next` are pointers
into the record heap. -/
structure Record where
  flp : Nat
  offset : Int
  reclen : Int
  starttime : Int
  endtime : Int
  prev : Option Nat
  next : Option Nat
deriving DecidableEq

/-- Record map (`struct RecordMap_s`). -/
structure RecordMap where
  recordcnt : Int
  first : Option Nat
  last : Option Nat
deriving DecidableEq

/-- The memory holding all allocated `Record` structures; address `a` is the
`a`-th element. -/
abbrev Heap := List Record

/-- Largest value of a C `int`. -/
def INT_MAX : Nat := 2147483647

/-- The assignment `a->next = v`; undefined when `a` is not an allocated
record. -/
def setNext (h : Heap) (a : Nat) (v : Option Nat) : Option Heap :=
  match h[a]? with
  | none => none
  | some r => some (h.set a { r with next := v })

/-- The assignment `a->prev = v`; undefined when `a` is not an allocated
record. -/
def setPrev (h : Heap) (a : Nat) (v : Option Nat) : Option Heap :=
  match h[a]? with
  | none => none
  | some r => some (h.set a { r with prev := v })

/-- Dereference of a possibly-`NULL` pointer. -/
def deref (h : Heap) (p : Option Nat) : Option Record :=
  match p with
  | none => none
  | some a => h[a]?

/-! ## sortrecmap -/

/-- `recordcmp`: `-1` when either argument is `NULL`, `1` when `rec1` ends
later than `rec2`, otherwise `0`. -/
def recordcmp (rec1 rec2 : Option Record) : Int :=
  match rec1, rec2 with
  | some r1, some r2 => if r1.endtime > r2.endtime then 1 else 0
  | _, _ => -1

/-- The loop `for (i = 0; i < insize; i++) { psize++; q = q->next; if (!q) break; }`
of `sortrecmap`.  The first argument is the number of iterations left
(`insize - i`); the result is the final `(q, psize)`. -/
def stepLoop (h : Heap) : Nat → Option Nat → Nat → Option (Option Nat × Nat)
  | 0, q, psize => some (q, psize)
  | n + 1, q, psize =>
    match deref h q with
    | none => none
    | some r =>
      match r.next with
      | none => some (none, psize + 1)
      | some b => stepLoop h n (some b) (psize + 1)

/-- The variables of the inner merge loop of `sortrecmap`. -/
structure MergeState where
  h : Heap
  p : Option Nat
  psize : Nat
  q : Option Nat
  qsize : Nat
  top : Option Nat
  tail : Option Nat
deriving DecidableEq

/-- The loop condition `psize > 0 || (qsize > 0 && q)`. -/
def MergeState.cond (s : MergeState) : Bool :=
  decide (s.psize > 0) || (decide (s.qsize > 0) && s.q.isSome)

/-- The choice of the next element `e` of the merge, from `p` or from `q`:
returns `(e, p, psize, q, qsize)` after the choice. -/
def pickNext (s : MergeState) : Option (Nat × Option Nat × Nat × Option Nat × Nat) :=
  if s.psize = 0 then
    -- p is empty; e must come from q
    match s.q, deref s.h s.q with
    | some e, some r => some (e, s.p, s.psize, r.next, s.qsize - 1)
    | _, _ => none
  else if s.qsize = 0 ∨ s.q = none then
    -- q is empty; e must come from p
    match s.p, deref s.h s.p with
    | some e, some r => some (e, r.next, s.psize - 1, s.q, s.qsize)
    | _, _ => none
  else if recordcmp (deref s.h s.p) (deref s.h s.q) ≤ 0 then
    -- first element of p is lower (or same); e must come from p
    match s.p, deref s.h s.p with
    | some e, some r => some (e, r.next, s.psize - 1, s.q, s.qsize)
    | _, _ => none
  else
    -- first element of q is lower; e must come from q
    match s.q, deref s.h s.q with
    | some e, some r => some (e, s.p, s.psize, r.next, s.qsize - 1)
    | _, _ => none

/-- Adding `e` to the merged list: `if (tail) tail->next = e; else top = e;`.
Returns the heap and `top` afterwards (the new `tail` is `e`). -/
def appendMerged (h : Heap) (top tail : Option Nat) (e : Nat) :
    Option (Heap × Option Nat) :=
  match tail with
  | some t =>
    match setNext h t (some e) with
    | none => none
    | some h1 => some (h1, top)
  | none => some (h, some e)

/-- One iteration of the merge loop: choose the next element `e` from `p` or
`q`, then append it to the merged list and make it the `tail`. -/
def mergeBody (s : MergeState) : Option MergeState :=
  match pickNext s with
  | none => none
  | some (e, p, psize, q, qsize) =>
    match appendMerged s.h s.top s.tail e with
    | none => none
    | some (h1, top) =>
      some { h := h1, p := p, psize := psize, q := q, qsize := qsize,
             top := top, tail := some e }

/-- The loop `while (psize > 0 || (qsize > 0 && q))`.  Every iteration
decrements `psize` or `qsize`, so `psize + qsize` iterations always suffice;
the first argument bounds the number of iterations. -/
def mergeLoop : Nat → MergeState → Option MergeState
  | 0, s => if s.cond then none else some s
  | fuel + 1, s =>
    if s.cond then
      match mergeBody s with
      | none => none
      | some s1 => mergeLoop fuel s1
    else some s

/-- The variables of the loop `while (p)` of `sortrecmap`. -/
structure PassState where
  h : Heap
  p : Option Nat
  top : Option Nat
  tail : Option Nat
  nmerges : Nat
deriving DecidableEq

/-- The loop `while (p)`: one pass over the list, merging consecutive pairs of
runs of length `insize`.  `nmerges++` on an `int` equal to `INT_MAX` is
undefined.  The first argument bounds the number of iterations. -/
def passLoop (insize : Nat) : Nat → PassState → Option PassState
  | 0, s => if s.p.isSome then none else some s
  | fuel + 1, s =>
    match s.p with
    | none => some s
    | some pa =>
      if s.nmerges + 1 > INT_MAX then none
      else
        match stepLoop s.h insize (some pa) 0 with
        | none => none
        | some (q, psize) =>
          match mergeLoop (psize + insize)
              { h := s.h, p := some pa, psize := psize, q := q, qsize := insize,
                top := s.top, tail := s.tail } with
          | none => none
          | some m =>
            passLoop insize fuel
              { h := m.h, p := m.q, top := m.top, tail := m.tail,
                nmerges := s.nmerges + 1 }

/-- The loop `for (;;)` of `sortrecmap`: passes with doubling `insize` until a
pass does at most one merge.  `insize *= 2` beyond `INT_MAX` is undefined.  The
walk of a pass is bounded by the number of allocated records; the first
argument bounds the number of passes.  Returns the heap and the final
`(top, tail)`. -/
def sortLoop : Nat → Heap → Option Nat → Nat → Option (Heap × Option Nat × Option Nat)
  | 0, _, _, _ => none
  | fuel + 1, h, top, insize =>
    match passLoop insize h.length
        { h := h, p := top, top := none, tail := none, nmerges := 0 } with
    | none => none
    | some s =>
      -- tail->next = NULL
      match s.tail with
      | none => none
      | some t =>
        match setNext s.h t none with
        | none => none
        | some h1 =>
          if s.nmerges ≤ 1 then some (h1, s.top, s.tail)
          else if insize * 2 > INT_MAX then none
          else sortLoop fuel h1 s.top (insize * 2)

/-- `sortrecmap`: returns the status, the heap and the record map afterwards.
`recmap = none` is the `NULL` argument.  At most 31 passes run before `insize`
would overflow. -/
def sortrecmap (h : Heap) (recmap : Option RecordMap) :
    Option (Int × Heap × Option RecordMap) :=
  match recmap with
  | none => some (-1, h, none)
  | some m =>
    if m.first = none ∨ m.last = none then some (0, h, some m)
    else
      match sortLoop 32 h m.first 1 with
      | none => none
      | some (h1, top, tail) =>
        some (0, h1, some { m with first := top, last := tail })

/-! ## Chains of records in the heap -/

/-- `Seg h p xs q`: following `next` from pointer `p` visits exactly the
records at the addresses `xs`, in this order, and arrives at pointer `q`. -/
def Seg (h : Heap) : Option Nat → List Nat → Option Nat → Prop
  | p, [], q => p = q
  | p, a :: xs, q =>
    p = some a ∧
      match h[a]? with
      | none => False
      | some r => Seg h r.next xs q

instance Seg.decide (h : Heap) : (p : Option Nat) → (xs : List Nat) → (q : Option Nat) →
    Decidable (Seg h p xs q)
  | p, [], q => inferInstanceAs (Decidable (p = q))
  | p, a :: xs, q =>
    match hr : h[a]? with
    | none => isFalse (by simp [Seg, hr])
    | some r =>
      match Seg.decide h r.next xs q with
      | isTrue ht => if hp : p = some a then isTrue (by simp [Seg, hr, hp, ht])
                     else isFalse (by simp [Seg, hp])
      | isFalse hf => isFalse (by simp [Seg, hr, hf])

/-- The `next`-chain from `p` is finite: it visits `xs` and ends in `NULL`. -/
def IsList (h : Heap) (p : Option Nat) (xs : List Nat) : Prop := Seg h p xs none

instance (h : Heap) (p : Option Nat) (xs : List Nat) : Decidable (IsList h p xs) :=
  Seg.decide h p xs none

/-- A well-formed record map: the `next`-chain from `first` is finite, visits
the addresses `xs` and ends at `last`. -/
def WellFormed (h : Heap) (m : RecordMap) (xs : List Nat) : Prop :=
  IsList h m.first xs ∧ m.last = xs.getLast?

instance (h : Heap) (m : RecordMap) (xs : List Nat) : Decidable (WellFormed h m xs) :=
  inferInstanceAs (Decidable (_ ∧ _))

/-- End time of the record at address `a`. -/
def endtimeOf (h : Heap) (a : Nat) : Int :=
  match h[a]? with
  | some r => r.endtime
  | none => 0

/-- A record with its `next` pointer blanked: everything `sortrecmap` must
leave alone. -/
def eraseNext (r : Record) : Record := { r with next := none }

/-- Two heaps hold the same records up to `next` pointers. -/
def SameData (h h1 : Heap) : Prop := h1.map eraseNext = h.map eraseNext

/-- The merged list under construction: `top` leads through `out` to its last
element `tail`, whose own `next` is not yet meaningful. -/
def Out (h : Heap) (top tail : Option Nat) (out : List Nat) : Prop :=
  (out = [] ∧ top = none ∧ tail = none) ∨
    ∃ init t, out = init ++ [t] ∧ tail = some t ∧ Seg h top init (some t) ∧ t < h.length

/-- List-level merge of two runs of addresses, by end time, the left run first
on ties. -/
def mergeRuns (key : Nat → Int) (l r : List Nat) : List Nat :=
  List.merge l r (fun a b => decide (key a ≤ key b))

/-- List-level effect of one pass of `sortrecmap` with run length `insize`:
consecutive pairs of runs are merged. -/
def mergePass (key : Nat → Int) (insize : Nat) (xs : List Nat) : List Nat :=
  if _h : xs = [] ∨ insize = 0 then xs
  else
    mergeRuns key (xs.take insize) ((xs.drop insize).take insize) ++
      mergePass key insize (xs.drop (2 * insize))
termination_by xs.length
decreasing_by
  have hx : xs.length ≠ 0 := fun h0 => _h (Or.inl (List.length_eq_zero.mp h0))
  simp only [List.length_drop]
  omega

/-- Number of merges one pass with run length `insize` performs on `xs`. -/
def numMerges (insize : Nat) (xs : List Nat) : Nat :=
  if _h : xs = [] ∨ insize = 0 then 0
  else 1 + numMerges insize (xs.drop (2 * insize))
termination_by xs.length
decreasing_by
  have hx : xs.length ≠ 0 := fun h0 => _h (Or.inl (List.length_eq_zero.mp h0))
  simp only [List.length_drop]
  omega

/-- A list of addresses is in non-decreasing order of `key`. -/
def SortedBy (key : Nat → Int) (xs : List Nat) : Prop :=
  xs.Pairwise (fun a b => key a ≤ key b)

/-- Every aligned run of length `k` of `xs` is in non-decreasing order of
`key`: the invariant of the bottom-up merge sort. -/
def RunsSorted (key : Nat → Int) (k : Nat) (xs : List Nat) : Prop :=
  ∀ i, SortedBy key ((xs.drop (i * k)).take k)

/-- What a run of `sortLoop` establishes, relative to the chain `xs` it
started from. -/
def SortResult (h : Heap) (xs : List Nat) (h1 : Heap) (top tail : Option Nat) : Prop :=
  ∃ ys, IsList h1 top ys ∧ tail = ys.getLast? ∧ ys.Perm xs ∧ SortedBy (endtimeOf h) ys ∧
    (∀ t, ys.filter (fun a => decide (endtimeOf h a = t)) =
      xs.filter (fun a => decide (endtimeOf h a = t))) ∧
    SameData h h1

/-! ## Example heaps -/

/-- Two records of one file in a doubly linked index, the later-ending one
first. -/
def exHeap2 : Heap :=
  [ { flp := 0, offset := 0, reclen := 512, starttime := 0, endtime := 2,
      prev := none, next := some 1 },
    { flp := 0, offset := 512, reclen := 512, starttime := 0, endtime := 1,
      prev := some 0, next := none } ]

/-- The record map over `exHeap2`. -/
def exMap2 : RecordMap := { recordcnt := 2, first := some 0, last := some 1 }

/-- Five records with end times 5, 3, 4, 3, 1 in a doubly linked index. -/
def exHeap5 : Heap :=
  [ { flp := 0, offset := 0, reclen := 512, starttime := 0, endtime := 5,
      prev := none, next := some 1 },
    { flp := 0, offset := 512, reclen := 512, starttime := 1, endtime := 3,
      prev := some 0, next := some 2 },
    { flp := 1, offset := 0, reclen := 512, starttime := 2, endtime := 4,
      prev := some 1, next := some 3 },
    { flp := 1, offset := 512, reclen := 512, starttime := 2, endtime := 3,
      prev := some 2, next := some 4 },
    { flp := 1, offset := 1024, reclen := 512, starttime := 0, endtime := 1,
      prev := some 3, next := none } ]

/-- The record map over `exHeap5`. -/
def exMap5 : RecordMap := { recordcnt := 5, first := some 0, last := some 4 }

/-! ## Configuration and external collaborators -/

/-- `HPTERROR` of libmseed (`libmseed.h`): the time value that marks an unset
bound. -/
def HPTERROR : Int := -2145916800000000

/-- The delay factor (`static double delayfactor`): the value that the `double`
holds, as the ratio `num / den`. -/
structure DelayFactor where
  num : Int
  den : Nat
deriving DecidableEq

/-- The global settings made by `processparam`.  A compiled regular expression
is represented by what `regexec` answers: `re s = true` when `s` matches. -/
structure Config where
  starttime : Int
  endtime : Int
  matchRegex : Option (String → Bool)
  rejectRegex : Option (String → Bool)
  streamdelay : Bool
  delayfactor : DelayFactor
  outputfile : Option String
  dlconn : Bool

/-- Input file information container (`struct Filelink_s`).  The list of
`Filelink`s is a Lean list in list order; `infp` is the read position of the
open input stream, `none` when the file is not open. -/
structure Filelink where
  infilename : String
  infp : Option Nat
deriving DecidableEq

/-- What `readfiles` takes from one record decoded by `ms_readmsr_main`: the
start time, `msr_endtime (msr)`, the record length, the source name with
quality code, the sample count, and the file position `fpos` of the record. -/
structure MSRecord where
  starttime : Int
  endtime : Int
  reclen : Int
  srcname : String
  samplecnt : Int
  fpos : Int
deriving DecidableEq

/-- The status that ends the decoding of a file: `MS_ENDOFFILE` or any other
status than `MS_NOERROR`. -/
inductive FinalStatus where
  | endoffile
  | error (retcode : Int)
deriving DecidableEq

/-- What the decoder yields for one file: the records returned with
`MS_NOERROR`, in order, then the status that ends the loop. -/
structure DecodedFile where
  records : List MSRecord
  final : FinalStatus
deriving DecidableEq

/-- External collaborators of `readfiles`: the record decoder, by file name,
and the allocator (`malloc n = true` when allocating a `Record` succeeds with
`n` records already allocated). -/
structure ReadEnv where
  decode : String → DecodedFile
  malloc : Nat → Bool

/-! ## readfiles -/

/-- The start-time test of `readfiles`; `true` means the record is skipped. -/
def skipStarttime (cfg : Config) (recstarttime recendtime : Int) : Bool :=
  decide (cfg.starttime ≠ HPTERROR) &&
    (decide (recstarttime < cfg.starttime) &&
      !(decide (recstarttime ≤ cfg.starttime) && decide (recendtime ≥ cfg.starttime)))

/-- The end-time test of `readfiles`; `true` means the record is skipped. -/
def skipEndtime (cfg : Config) (recstarttime recendtime : Int) : Bool :=
  decide (cfg.endtime ≠ HPTERROR) &&
    (decide (recendtime > cfg.endtime) &&
      !(decide (recstarttime ≤ cfg.endtime) && decide (recendtime ≥ cfg.endtime)))

/-- The match test: skipped when a match expression is set and `regexec` does
not return 0. -/
def skipMatch (cfg : Config) (srcname : String) : Bool :=
  match cfg.matchRegex with
  | some re => !(re srcname)
  | none => false

/-- The reject test: skipped when a reject expression is set and `regexec`
returns 0. -/
def skipReject (cfg : Config) (srcname : String) : Bool :=
  match cfg.rejectRegex with
  | some re => re srcname
  | none => false

/-- A record passes the four tests of `readfiles`, in their order. -/
def accepts (cfg : Config) (msr : MSRecord) : Bool :=
  !skipStarttime cfg msr.starttime msr.endtime &&
    !skipEndtime cfg msr.starttime msr.endtime &&
    !skipMatch cfg msr.srcname && !skipReject cfg msr.srcname

/-- Creating a `Record` at the fresh address `h.length` and adding it to the
end of the record map. -/
def appendRecord (h : Heap) (recmap : RecordMap) (flp : Nat) (msr : MSRecord) :
    Option (Heap × RecordMap) :=
  let a := h.length
  let h1 : Heap := h ++ [{ flp := flp, offset := msr.fpos, reclen := msr.reclen,
                           starttime := msr.starttime, endtime := msr.endtime,
                           prev := none, next := none }]
  -- if (!recmap->first) recmap->first = rec
  let first := if recmap.first = none then some a else recmap.first
  -- if (recmap->last) recmap->last->next = rec
  let linked : Option Heap :=
    match recmap.last with
    | some l => setNext h1 l (some a)
    | none => some h1
  match linked with
  | none => none
  | some h2 =>
    -- rec->prev = recmap->last; recmap->last = rec; recmap->recordcnt++
    match setPrev h2 a recmap.last with
    | none => none
    | some h3 =>
      some (h3, { recordcnt := recmap.recordcnt + 1, first := first, last := some a })

/-- The loop over the records of one input file.  The flag of the result is
`false` when `malloc` failed (`return -1`). -/
def readRecords (cfg : Config) (env : ReadEnv) (flp : Nat) :
    List MSRecord → Heap → RecordMap → Option (Bool × Heap × RecordMap)
  | [], h, m => some (true, h, m)
  | msr :: rest, h, m =>
    if skipStarttime cfg msr.starttime msr.endtime then readRecords cfg env flp rest h m
    else if skipEndtime cfg msr.starttime msr.endtime then readRecords cfg env flp rest h m
    else if skipMatch cfg msr.srcname then readRecords cfg env flp rest h m
    else if skipReject cfg msr.srcname then readRecords cfg env flp rest h m
    else if env.malloc h.length then
      match appendRecord h m flp msr with
      | none => none
      | some (h1, m1) => readRecords cfg env flp rest h1 m1
    else some (false, h, m)

/-- The loop over the file list; `flp` is the position of the first file of the
list in the whole file list. -/
def readFilesFrom (cfg : Config) (env : ReadEnv) :
    List Filelink → Nat → Heap → RecordMap → Option (Int × Heap × RecordMap)
  | [], _, h, m => some (0, h, m)
  | f :: fs, flp, h, m =>
    match readRecords cfg env flp (env.decode f.infilename).records h m with
    | none => none
    | some (false, h1, m1) => some (-1, h1, m1)
    | some (true, h1, m1) =>
      -- critical error if file was not read properly
      match (env.decode f.infilename).final with
      | FinalStatus.error _ => some (-1, h1, m1)
      | FinalStatus.endoffile => readFilesFrom cfg env fs (flp + 1) h1 m1

/-- `readfiles`: returns the status, the heap and the record map.  The summary
counters (`totalrecs`, `totalsamps`, `totalfiles`) only feed the log and the
open-file limit and are left out. -/
def readfiles (cfg : Config) (env : ReadEnv) (filelist : List Filelink)
    (h : Heap) (recmap : RecordMap) : Option (Int × Heap × RecordMap) :=
  readFilesFrom cfg env filelist 0 h recmap

/-- The record map as `main` initialises it. -/
def emptyMap : RecordMap := { recordcnt := 0, first := none, last := none }

/-- The records of the file list that pass the four tests, in file-list order
and then in-file order, each with the position of its file. -/
def acceptedFrom (cfg : Config) (env : ReadEnv) : List Filelink → Nat → List (Nat × MSRecord)
  | [], _ => []
  | f :: fs, flp =>
    (((env.decode f.infilename).records.filter (accepts cfg)).map (fun msr => (flp, msr))) ++
      acceptedFrom cfg env fs (flp + 1)

/-- The data of an index entry: file, byte offset, record length, start time
and end time. -/
def entryData (r : Record) : Nat × Int × Int × Int × Int :=
  (r.flp, r.offset, r.reclen, r.starttime, r.endtime)

/-- The entry data `readfiles` stores for an accepted record. -/
def msrData (x : Nat × MSRecord) : Nat × Int × Int × Int × Int :=
  (x.1, x.2.fpos, x.2.reclen, x.2.starttime, x.2.endtime)

/-- The record stored at address `i` for the accepted record `x`, in an index
of `n` entries at the addresses `0, 1, ...`. -/
def linkedRecord (n i : Nat) (x : Nat × MSRecord) : Record :=
  { flp := x.1, offset := x.2.fpos, reclen := x.2.reclen, starttime := x.2.starttime,
    endtime := x.2.endtime,
    prev := if i = 0 then none else some (i - 1),
    next := if i + 1 < n then some (i + 1) else none }

/-- The doubly linked heap that holds the entries `acc` at the addresses
`0, 1, ...` in this order. -/
def linkedHeap (acc : List (Nat × MSRecord)) : Heap :=
  List.zipWith (linkedRecord acc.length) (List.range acc.length) acc

/-- The record map over `linkedHeap acc`, counting from `cnt0`. -/
def linkedMap (cnt0 : Int) (n : Nat) : RecordMap :=
  { recordcnt := cnt0 + n,
    first := if n = 0 then none else some 0,
    last := if n = 0 then none else some (n - 1) }

/-! ## Example inputs of `readfiles` -/

/-- A configuration with a start bound of 15, no end bound, a reject expression
for the source name `XX_BAD`, and an output file. -/
def exConfig : Config :=
  { starttime := 15, endtime := HPTERROR, matchRegex := none,
    rejectRegex := some (fun s => s == "XX_BAD"), streamdelay := false,
    delayfactor := { num := 1, den := 1 }, outputfile := some "out.mseed", dlconn := false }

/-- Two input files. -/
def exFiles : List Filelink :=
  [ { infilename := "a.mseed", infp := none }, { infilename := "b.mseed", infp := none } ]

/-- File `a.mseed` holds three records (the second ends before the start bound),
file `b.mseed` holds two (the first is rejected by name); both end with
end-of-file. -/
def exDecode (name : String) : DecodedFile :=
  if name = "a.mseed" then
    { records :=
        [ { starttime := 10, endtime := 20, reclen := 2, srcname := "XX_STA", samplecnt := 5,
            fpos := 0 },
          { starttime := 10, endtime := 14, reclen := 2, srcname := "XX_STA", samplecnt := 5,
            fpos := 2 },
          { starttime := 30, endtime := 40, reclen := 3, srcname := "XX_STA", samplecnt := 5,
            fpos := 4 } ],
      final := FinalStatus.endoffile }
  else
    { records :=
        [ { starttime := 16, endtime := 18, reclen := 2, srcname := "XX_BAD", samplecnt := 5,
            fpos := 0 },
          { starttime := 16, endtime := 18, reclen := 2, srcname := "XX_STB", samplecnt := 5,
            fpos := 2 } ],
      final := FinalStatus.endoffile }

/-- The example files with an allocator that never fails. -/
def exReadEnv : ReadEnv := { decode := exDecode, malloc := fun _ => true }

/-- The example files with an allocator that always fails. -/
def exReadEnvNoMem : ReadEnv := { decode := exDecode, malloc := fun _ => false }

/-- The example files with an allocator that fails once two records are
allocated. -/
def exReadEnvLowMem : ReadEnv := { decode := exDecode, malloc := fun n => decide (n < 2) }

/-- As `exDecode`, but the decoder reports the error status `-2` at the end of
`a.mseed`. -/
def exDecodeBad (name : String) : DecodedFile :=
  if name = "a.mseed" then { exDecode name with final := FinalStatus.error (-2) }
  else exDecode name

/-- The example files with the failing decoder and an allocator that never
fails. -/
def exReadEnvBad : ReadEnv := { decode := exDecodeBad, malloc := fun _ => true }

/-! ## writerecords -/

/-- Outcome of one `dl_write`: success, or failure (`< 0`) after which the
connection is still marked live (`link ≠ -1`) or not. -/
inductive DlResult where
  | ok
  | failed (linkUp : Bool)
deriving DecidableEq

/-- External collaborators of `writerecords`.  `content name` is the byte
content of an input file, `none` when `fopen (name, "rb")` fails;
`seekable name` says whether `lmp_fseeko` to a non-negative offset succeeds;
`fopenOut`, `fwriteOk`, `gethptime`, `dlwrite` and `dlconnect` answer the
opening of the output file and, by call number from 0, the calls of `fwrite`,
`gethptime`, `dl_write` and `dl_connect`. -/
structure WriteEnv where
  fopenOut : String → Bool
  content : String → Option (List Nat)
  seekable : String → Bool
  fwriteOk : Nat → Bool
  gethptime : Nat → Int
  dlwrite : Nat → DlResult
  dlconnect : Nat → Bool

/-- What `writerecords` does to the outside world, in order. -/
inductive Event where
  | fwrite (bytes : List Nat)
  | send (bytes : List Nat) (starttime endtime : Int) (ok : Bool)
  | disconnect
  | connect (ok : Bool)
  | sleep (seconds : Nat)
  | usleep (micros : Nat)
deriving DecidableEq

/-- The state `writerecords` works on besides the record heap: the file list
with its input streams, the log of events, whether the output stream is open,
whether the DataLink connection is live, the numbers of calls made so far, and
the static counters. -/
structure World where
  filelist : List Filelink
  log : List Event
  sinkOpen : Bool
  link : Bool
  clockReads : Nat
  fwrites : Nat
  dlwrites : Nat
  dlconnects : Nat
  totalrecsout : Nat
  totalbytesout : Nat
deriving DecidableEq

/-- The test `rec->reclen > sizeof (recordbuf)`: the comparison is made in
`size_t`, so a negative `reclen` is larger than the buffer too. -/
def bufferTooSmall (r : Record) : Bool :=
  decide (r.reclen % 18446744073709551616 > 16384)

/-- `fread (recordbuf, reclen, 1, fp)` at position `pos` of a file with content
`bytes`: the `reclen` bytes, or `none` when `fread` does not return 1. -/
def readAt (bytes : List Nat) (pos : Nat) (reclen : Int) : Option (List Nat) :=
  if 0 < reclen ∧ ((bytes.drop pos).take reclen.toNat).length = reclen.toNat then
    some ((bytes.drop pos).take reclen.toNat)
  else none

/-- Replace the input stream of the file at position `i`. -/
def setInfp (files : List Filelink) (i : Nat) (infp : Option Nat) : List Filelink :=
  match files[i]? with
  | none => files
  | some f => files.set i { f with infp := infp }

/-- The first steps of the loop of `writerecords` for one record: buffer
check, opening the file if needed, seek, read.  The result is the file list
afterwards and the record buffer, `none` in its place when a fatal condition
sets `errflag`; the outer `none` is a record whose `flp` is not in the file
list. -/
def fetch (env : WriteEnv) (r : Record) (files : List Filelink) :
    Option (List Filelink × Option (List Nat)) :=
  if bufferTooSmall r then some (files, none)
  else
    match files[r.flp]? with
    | none => none
    | some f =>
      -- open file for reading if not already done
      if f.infp = none ∧ env.content f.infilename = none then some (files, none)
      else
        -- seek to record offset
        if env.seekable f.infilename = false ∨ r.offset < 0 then
          some (setInfp files r.flp (some (f.infp.getD 0)), none)
        else
          -- read record into buffer
          match (env.content f.infilename).bind (fun bytes => readAt bytes r.offset.toNat r.reclen) with
          | none => some (setInfp files r.flp (some r.offset.toNat), none)
          | some buf =>
            some (setInfp files r.flp (some (r.offset.toNat + r.reclen.toNat)), some buf)

/-- Rounding of the quotient `n / d` (`d > 0`) to the nearest integer, a tie
going to the even one. -/
def roundHalfEven (n d : Nat) : Nat :=
  if 2 * (n % d) < d then n / d
  else if d < 2 * (n % d) then n / d + 1
  else if (n / d) % 2 = 0 then n / d
  else n / d + 1

/-- Auxiliary of `floorLog2`, by halving, with fuel. -/
def floorLog2Aux : Nat → Nat → Nat
  | 0, _ => 0
  | fuel + 1, n => if n < 2 then 0 else floorLog2Aux fuel (n / 2) + 1

/-- The position of the leading bit of `n`: the `k` with `2 ^ k ≤ n < 2 ^ (k + 1)`
for `n > 0`. -/
def floorLog2 (n : Nat) : Nat := floorLog2Aux n n

/-- The `double` nearest to the positive rational `p / q`, as numerator and
denominator: `p / q` rounded to 53 significant bits, a tie going to the even
significand (the default rounding of IEEE 754 binary64).  The exponent range is
taken as unbounded, so there is no overflow to infinity and no loss of
precision near zero. -/
def roundDouble (p q : Nat) : Nat × Nat :=
  if p = 0 ∨ q = 0 then (0, 1)
  else
    -- `p / q * 2 ^ up / 2 ^ down` lies between `2 ^ 52` and `2 ^ 54`
    let up := (floorLog2 q + 53) - floorLog2 p
    let down := floorLog2 p - (floorLog2 q + 53)
    let n := p * 2 ^ up
    let d := q * 2 ^ down
    -- the significand is the scaled value when that is below `2 ^ 53`, and
    -- half of it otherwise
    if n / d < 2 ^ 53 then (roundHalfEven n d * 2 ^ down, 2 ^ up)
    else (roundHalfEven n (2 * d) * 2 ^ (down + 1), 2 ^ up)

/-- `(unsigned long)(snooze / delayfactor + 0.5)` for `snooze > 0`, computed as
the code does in `double`: `snooze` is converted to `double`, the quotient and
the sum are each rounded to `double`, and the conversion truncates.  The delay
factor is the ratio `num / den` that the `double` holds.  The result is taken
to fit `unsigned long`; it is left undefined when the delay factor is not
positive (a zero factor divides by zero, a negative one gives a negative value
to convert). -/
def usleepArg (df : DelayFactor) (snooze : Int) : Option Nat :=
  if df.num ≤ 0 ∨ df.den = 0 then none
  else
    -- (double) snooze
    let a := roundDouble snooze.toNat 1
    -- snooze / delayfactor
    let q := roundDouble (a.1 * df.den) (a.2 * df.num.toNat)
    -- ... + 0.5
    let s := roundDouble (2 * q.1 + q.2) (2 * q.2)
    some (s.1 / s.2)

/-- The pacing step: read the clock, fix the offset at the first record, sleep
when the record is ahead of the clock.  Returns the world and the offset. -/
def pace (cfg : Config) (env : WriteEnv) (r : Record) (w : World) (offset : Int) :
    Option (World × Int) :=
  if cfg.streamdelay then
    let now := env.gethptime w.clockReads
    let w1 := { w with clockReads := w.clockReads + 1 }
    let offset1 := if offset = HPTERROR then now - r.endtime else offset
    let snooze := offset1 - (now - r.endtime)
    if snooze > 0 then
      match usleepArg cfg.delayfactor snooze with
      | none => none
      | some us => some ({ w1 with log := w1.log ++ [Event.usleep us] }, offset1)
    else some (w1, offset1)
  else some (w, offset)

/-- The body of the loop `while (sendrecord (recordbuf, rec))`, run after a
failed send: disconnect when the connection is still marked live, reconnect,
and sleep 10 seconds when that fails. -/
def reconnect (env : WriteEnv) (w : World) : World :=
  -- if (dlconn->link != -1) dl_disconnect (dlconn)
  let w2 : World :=
    if w.link then { w with link := false, log := w.log ++ [Event.disconnect] } else w
  -- if (dl_connect (dlconn) < 0) sleep (10)
  if env.dlconnect w2.dlconnects then
    { w2 with dlconnects := w2.dlconnects + 1, link := true,
              log := w2.log ++ [Event.connect true] }
  else
    { w2 with dlconnects := w2.dlconnects + 1,
              log := w2.log ++ [Event.connect false, Event.sleep 10] }

/-- The loop `while (sendrecord (recordbuf, rec))` with its reconnection; the
first argument bounds the number of `sendrecord` calls. -/
def sendLoop (env : WriteEnv) (buf : List Nat) (r : Record) : Nat → World → Option World
  | 0, _ => none
  | fuel + 1, w =>
    match env.dlwrite w.dlwrites with
    | DlResult.ok =>
      some { w with dlwrites := w.dlwrites + 1,
                    log := w.log ++ [Event.send buf r.starttime r.endtime true] }
    | DlResult.failed linkUp =>
      sendLoop env buf r fuel
        (reconnect env
          { w with dlwrites := w.dlwrites + 1, link := w.link && linkUp,
                   log := w.log ++ [Event.send buf r.starttime r.endtime false] })

/-- The body of the loop of `writerecords` for one record.  `ofp` says whether
an output file is in use.  The flag of the result is `false` when a fatal
condition set `errflag` and left the loop. -/
def deliver (fuel : Nat) (cfg : Config) (env : WriteEnv) (ofp : Bool) (r : Record)
    (w : World) (offset : Int) : Option (Bool × World × Int) :=
  match fetch env r w.filelist with
  | none => none
  | some (files, none) => some (false, { w with filelist := files }, offset)
  | some (files, some buf) =>
    match pace cfg env r { w with filelist := files } offset with
    | none => none
    | some (w1, offset1) =>
      -- write to a single output file if specified
      if ofp = true ∧ env.fwriteOk w1.fwrites = false then
        some (false, { w1 with fwrites := w1.fwrites + 1 }, offset1)
      else
        let w2 : World :=
          if ofp then { w1 with fwrites := w1.fwrites + 1, log := w1.log ++ [Event.fwrite buf] }
          else w1
        -- send to DataLink server if specified
        let sent : Option World := if cfg.dlconn then sendLoop env buf r fuel w2 else some w2
        match sent with
        | none => none
        | some w3 =>
          some (true,
            { w3 with totalrecsout := (w3.totalrecsout + 1) % 18446744073709551616,
                      totalbytesout :=
                        (((w3.totalbytesout : Int) + r.reclen) % 18446744073709551616).toNat },
            offset1)

/-- The loop `while (rec && errflag != 1)` of `writerecords`; the second
argument bounds the number of iterations.  Returns whether `errflag` is set,
and the world. -/
def writeLoop (fuel : Nat) (cfg : Config) (env : WriteEnv) (h : Heap) (ofp : Bool) :
    Nat → Option Nat → World → Int → Option (Bool × World)
  | 0, rec, w, _ =>
    match rec with
    | none => some (false, w)
    | some _ => none
  | n + 1, rec, w, offset =>
    match rec with
    | none => some (false, w)
    | some a =>
      match h[a]? with
      | none => none
      | some r =>
        match deliver fuel cfg env ofp r w offset with
        | none => none
        | some (false, w1, _) => some (true, w1)
        | some (true, w1, offset1) => writeLoop fuel cfg env h ofp n r.next w1 offset1

/-- Closing all input files and, if used, the output file. -/
def closeAll (ofp : Bool) (w : World) : World :=
  { w with filelist := w.filelist.map (fun f => { f with infp := none }),
           sinkOpen := if ofp then false else w.sinkOpen }

/-- `writerecords`: returns the status and the world afterwards.  `fuel` bounds
the `sendrecord` calls per record; the walk along the list is bounded by the
number of allocated records. -/
def writerecords (fuel : Nat) (cfg : Config) (env : WriteEnv) (h : Heap)
    (recmap : Option RecordMap) (w : World) : Option (Int × World) :=
  match recmap with
  | none => some (1, w)
  | some m =>
    -- open the output file if specified
    let opened : Option (Bool × World) :=
      match cfg.outputfile with
      | none => some (false, w)
      | some name =>
        if name = "-" then some (true, { w with sinkOpen := true })
        else if env.fopenOut name then some (true, { w with sinkOpen := true })
        else none
    match opened with
    | none => some (1, w)
    | some (ofp, w0) =>
      match writeLoop fuel cfg env h ofp h.length m.first w0 HPTERROR with
      | none => none
      | some (errflag, w1) => some (if errflag then 1 else 0, closeAll ofp w1)

/-- The records written to the output file, in order. -/
def fileRecords : List Event → List (List Nat)
  | [] => []
  | Event.fwrite b :: l => b :: fileRecords l
  | _ :: l => fileRecords l

/-- The bytes appended to the output file. -/
def fileSink (log : List Event) : List Nat := (fileRecords log).flatten

/-- The records delivered to the DataLink server, in order. -/
def sentRecords : List Event → List (List Nat)
  | [] => []
  | Event.send b _ _ true :: l => b :: sentRecords l
  | _ :: l => sentRecords l

/-- The bytes of a record in its source file: the `reclen` bytes at its offset,
when the record fits the buffer and its file can be opened, sought and read;
`names` are the names of the file list. -/
def sourceBytes (env : WriteEnv) (names : List String) (r : Record) : Option (List Nat) :=
  if bufferTooSmall r then none
  else
    match names[r.flp]? with
    | none => none
    | some name =>
      if env.seekable name = false ∨ r.offset < 0 then none
      else (env.content name).bind (fun bytes => readAt bytes r.offset.toNat r.reclen)

/-- The start of a run of `writerecords`: nothing logged, no call made. -/
def initWorld (files : List Filelink) : World :=
  { filelist := files, log := [], sinkOpen := false, link := true, clockReads := 0,
    fwrites := 0, dlwrites := 0, dlconnects := 0, totalrecsout := 0, totalbytesout := 0 }

/-- Every `sendrecord` retry loop ends within `fuel` calls: from any call
number on, one of the next `fuel` calls of `dl_write` succeeds. -/
def SendsSucceed (env : WriteEnv) (fuel : Nat) : Prop :=
  ∀ k, ∃ j, j < fuel ∧ env.dlwrite (k + j) = DlResult.ok

/-- The pacing sleep is defined: with pacing enabled the delay factor is
positive. -/
def PacingDefined (cfg : Config) : Prop :=
  cfg.streamdelay = true → 0 < cfg.delayfactor.num ∧ 0 < cfg.delayfactor.den

/-- The bytes of the record at address `a` in its source file, when it can be
fetched. -/
def recordBytes (env : WriteEnv) (names : List String) (h : Heap) (a : Nat) :
    Option (List Nat) :=
  (h[a]?).bind (sourceBytes env names)

/-- The buffers of the records at the addresses `xs`, in order. -/
def buffersOf (env : WriteEnv) (names : List String) (h : Heap) (xs : List Nat) :
    List (List Nat) :=
  xs.filterMap (recordBytes env names h)

/-- The names of a file list. -/
def namesOf (files : List Filelink) : List String := files.map (fun f => f.infilename)

/-- A step from `w` to `w1` that leaves the file list, the output stream and
the `fwrite` count alone and appends events that write nothing to the output
file and deliver the records `sent` to the DataLink server. -/
def Quiet (w w1 : World) (sent : List (List Nat)) : Prop :=
  ∃ evs, w1.log = w.log ++ evs ∧ fileRecords evs = [] ∧ sentRecords evs = sent ∧
    w1.filelist = w.filelist ∧ w1.sinkOpen = w.sinkOpen ∧ w1.fwrites = w.fwrites

/-- The world after a failed `sendrecord`, before the reconnection. -/
def afterFailedSend (buf : List Nat) (r : Record) (linkUp : Bool) (w : World) : World :=
  { w with dlwrites := w.dlwrites + 1, link := w.link && linkUp,
           log := w.log ++ [Event.send buf r.starttime r.endtime false] }

/-- A stretch of a run of `writerecords` from `w` to `w1`: the file list keeps
the names `names`, the records `files` were written to the output file and the
records `sent` delivered to the DataLink server, in this order, with one
`fwrite` call each, and the output stream was not opened or closed. -/
def Delivered (names : List String) (w w1 : World) (files sent : List (List Nat)) : Prop :=
  w1.filelist.map (fun f => f.infilename) = names ∧
    fileRecords w1.log = fileRecords w.log ++ files ∧
    sentRecords w1.log = sentRecords w.log ++ sent ∧
    w1.fwrites = w.fwrites + files.length ∧ w1.sinkOpen = w.sinkOpen

/-- The world in which the loop of `writerecords` starts: the output stream is
open when an output file is configured. -/
def openedWorld (cfg : Config) (w : World) : World :=
  if cfg.outputfile.isSome then { w with sinkOpen := true } else w

/-- Opening the configured output file fails. -/
def OpenFails (cfg : Config) (env : WriteEnv) : Prop :=
  ∃ name, cfg.outputfile = some name ∧ name ≠ "-" ∧ env.fopenOut name = false

/-! ## Example inputs of `writerecords` -/

/-- The index `readfiles` builds from the example files: three records of the
files at positions 0, 0 and 1, with end times 20, 40 and 18. -/
def exIndex : Heap :=
  [ { flp := 0, offset := 0, reclen := 2, starttime := 10, endtime := 20,
      prev := none, next := some 1 },
    { flp := 0, offset := 4, reclen := 3, starttime := 30, endtime := 40,
      prev := some 0, next := some 2 },
    { flp := 1, offset := 2, reclen := 2, starttime := 16, endtime := 18,
      prev := some 1, next := none } ]

/-- The record map over `exIndex`. -/
def exIndexMap : RecordMap := { recordcnt := 3, first := some 0, last := some 2 }

/-- The byte contents of the example files. -/
def exContent (name : String) : Option (List Nat) :=
  if name = "a.mseed" then some [1, 2, 3, 4, 5, 6, 7]
  else if name = "b.mseed" then some [10, 11, 12, 13]
  else none

/-- A world in which every call succeeds. -/
def exWriteEnv : WriteEnv :=
  { fopenOut := fun _ => true, content := exContent, seekable := fun _ => true,
    fwriteOk := fun _ => true, gethptime := fun _ => 0, dlwrite := fun _ => DlResult.ok,
    dlconnect := fun _ => true }

/-- A world in which the second `fwrite` fails. -/
def exWriteEnvFull : WriteEnv := { exWriteEnv with fwriteOk := fun n => decide (n < 1) }

/-- The example index as `sortrecmap` leaves it: the chain is 2, 0, 1. -/
def exSortedIndex : Heap :=
  [ { flp := 0, offset := 0, reclen := 2, starttime := 10, endtime := 20,
      prev := none, next := some 1 },
    { flp := 0, offset := 4, reclen := 3, starttime := 30, endtime := 40,
      prev := some 0, next := none },
    { flp := 1, offset := 2, reclen := 2, starttime := 16, endtime := 18,
      prev := some 1, next := some 0 } ]

/-- The record map over `exSortedIndex`. -/
def exSortedMap : RecordMap := { recordcnt := 3, first := some 2, last := some 1 }

/-! ## Observations on the event log -/

/-- The `sendrecord` calls of a log, in order: the buffer handed to `dl_write`
and whether the call returned 0. -/
def sendCalls : List Event → List (List Nat × Bool)
  | [] => []
  | Event.send b _ _ ok :: l => (b, ok) :: sendCalls l
  | _ :: l => sendCalls l

/-- The arguments of the `dlp_usleep` calls of a log, in order. -/
def usleeps : List Event → List Nat
  | [] => []
  | Event.usleep us :: l => us :: usleeps l
  | _ :: l => usleeps l

/-- The example configuration with a DataLink server besides the output
file. -/
def exConfigDl : Config := { exConfig with dlconn := true }

/-- A world in which the first `dl_write` fails, leaving the connection marked
down, and every later call succeeds. -/
def exWriteEnvRetry : WriteEnv :=
  { exWriteEnv with dlwrite := fun n => if n = 0 then DlResult.failed false else DlResult.ok }

/-! ## The pacing rule, as specified -/

/-- Specified intended wait of a record with end time `endtime` read at clock
value `now`, the first record having end time `firstEnd` and clock value
`now0`: `(endtime - firstEnd) - (now - now0)`. -/
def specWait (firstEnd now0 endtime now : Int) : Int :=
  (endtime - firstEnd) - (now - now0)

/-- The `double` that `strtod` returns for `4.4`, as a ratio: the nearest
`double` to 4.4 is `2476979795053773 / 2 ^ 49`. -/
def exDelay44 : DelayFactor := { num := 2476979795053773, den := 562949953421312 }

/-- The example configuration with pacing at delay factor `num / 1`. -/
def exConfigPaced (num : Int) : Config :=
  { exConfig with streamdelay := true, delayfactor := { num := num, den := 1 } }

/-- Two records of `a.mseed` whose end times are `e0` and `e0 + 2000000`. -/
def exPair (e0 : Int) : Heap :=
  [ { flp := 0, offset := 0, reclen := 2, starttime := e0 - 10, endtime := e0,
      prev := none, next := some 1 },
    { flp := 0, offset := 4, reclen := 3, starttime := e0 + 10, endtime := e0 + 2000000,
      prev := some 0, next := none } ]

/-- The record map over `exPair`. -/
def exPairMap : RecordMap := { recordcnt := 2, first := some 0, last := some 1 }

/-! ## The invariant of the record index -/

/-- The append step of `readfiles` (`appendRecord`), run for each of the
records `recs` in turn. -/
def appendRecords : List (Nat × MSRecord) → Heap → RecordMap → Option (Heap × RecordMap)
  | [], h, m => some (h, m)
  | x :: xs, h, m =>
    match appendRecord h m x.1 x.2 with
    | none => none
    | some (h1, m1) => appendRecords xs h1 m1

/-- The invariant of the record index, as specified: with a count of 0 the
head and the tail are empty; otherwise `first.prev` and `last.next` are empty,
the chain from `first` ends at `last` and has `recordcnt` entries, and every
entry of it whose `next` is `b` is the `prev` of `b`. -/
def IndexInvariant (h : Heap) (m : RecordMap) : Prop :=
  (m.recordcnt = 0 → m.first = none ∧ m.last = none) ∧
  (m.recordcnt ≠ 0 →
    ∃ (xs : List Nat) (a l : Nat) (ra rl : Record),
      m.first = some a ∧ m.last = some l ∧
      h[a]? = some ra ∧ ra.prev = none ∧ h[l]? = some rl ∧ rl.next = none ∧
      IsList h m.first xs ∧ xs.getLast? = some l ∧ (xs.length : Int) = m.recordcnt ∧
      ∀ i ∈ xs, ∀ (ri : Record) (j : Nat), h[i]? = some ri → ri.next = some j →
        ∃ rj : Record, h[j]? = some rj ∧ rj.prev = some i)

/-! ## Text files -/

/-- The newline character. -/
def newline : Char := Char.ofNat 10

/-- The character that ends a C string. -/
def NUL : Char := Char.ofNat 0

/-- `isspace` in the C locale: space, tab, newline, vertical tab, form feed and
carriage return. -/
def isspace (c : Char) : Bool :=
  c.toNat = 32 || (9 ≤ c.toNat && c.toNat ≤ 13)

/-- A character buffer read as a C string: the characters before the first
`NUL`. -/
def cstr (buf : List Char) : List Char := buf.takeWhile (fun c => c != NUL)

/-- One call `fgets (buf, n + 1, fp)` on a stream that is not at its end: the
characters stored, at most `n` and ending after the first newline, and the
rest of the stream. -/
def fgetsAux : Nat → List Char → List Char × List Char
  | 0, s => ([], s)
  | _ + 1, [] => ([], [])
  | n + 1, c :: s =>
    if c = newline then ([c], s)
    else (c :: (fgetsAux n s).1, (fgetsAux n s).2)

/-- The buffers that the loop `while (fgets (buf, size, fp))` sees, in order;
the second argument bounds the number of calls. -/
def fgetsLines (size : Nat) : Nat → List Char → List (List Char)
  | 0, _ => []
  | fuel + 1, s =>
    if s = [] then []
    else (fgetsAux (size - 1) s).1 :: fgetsLines size fuel (fgetsAux (size - 1) s).2

/-- `sscanf (line, " %s ", linepattern)`: the first run of characters that are
not white space, `none` when the call does not return 1. -/
def scanToken (line : List Char) : Option (List Char) :=
  let tok := ((cstr line).dropWhile isspace).takeWhile (fun c => !isspace c)
  if tok = [] then none else some tok

/-- The lines of a text: the runs of characters between newlines, a newline at
the end of the text ending the last line. -/
def textLines : List Char → List (List Char)
  | [] => []
  | c :: s =>
    if c = newline then [] :: textLines s
    else
      match textLines s with
      | [] => [[c]]
      | l :: ls => (c :: l) :: ls

/-- Specified pattern of a line: its first white-space-delimited token, `none`
for a blank line. -/
def specToken (line : List Char) : Option (List Char) :=
  match line.dropWhile isspace with
  | [] => none
  | c :: t => some (c :: t.takeWhile (fun d => !isspace d))

/-- Specified patterns of a pattern file: the tokens of its lines, without the
blank lines and the lines whose token starts with `#`. -/
def specPatterns (content : List Char) : List (List Char) :=
  ((textLines content).filterMap specToken).filter (fun t => t.head? != some '#')

/-- A line cut into consecutive pieces of `n` characters, the last piece
holding what is left, at most `n` characters; the first argument bounds the
number of cuts. -/
def pieces (n : Nat) : Nat → List Char → List (List Char)
  | 0, l => [l]
  | fuel + 1, l =>
    if l.length ≤ n then [l] else l.take n :: pieces n fuel (l.drop n)

/-- The pieces of at most 1023 characters of a line; a line of at most 1023
characters is its only piece. -/
def linePieces (l : List Char) : List (List Char) := pieces 1023 l.length l

/-- The patterns of a pattern file whose lines are cut into pieces of at most
1023 characters: the tokens of the pieces, without the blank pieces and the
pieces whose token starts with `#`. -/
def piecePatterns (content : List Char) : List (List Char) :=
  ((((textLines content).map linePieces).flatten).filterMap specToken).filter
    (fun t => t.head? != some '#')

/-- Specified compound pattern: `(p1)|(p2)|...|(pn)`. -/
def specCompound (ps : List (List Char)) : List Char :=
  List.intercalate ['|'] (ps.map (fun p => '(' :: p ++ [')']))

/-! ## Command line processing -/

/-- What a function that may call `exit` does: it returns a value or ends the
process with an exit status. -/
inductive Outcome (α : Type) where
  | returned (a : α)
  | exited (status : Int)
deriving DecidableEq

/-- Applying a function to the value returned. -/
def Outcome.map {α β : Type} (f : α → β) : Outcome α → Outcome β
  | Outcome.returned a => Outcome.returned (f a)
  | Outcome.exited status => Outcome.exited status

/-- External collaborators of `processparam`: the time string parser, `strtod`,
the text files that can be opened (by name, with their content), the
allocations in `addfile` (by number of files already listed) and in
`readregexfile` (by number of patterns already combined), `dl_newdlcp`, the
allocation of the two `regex_t`, and the answer of `regexec` for the
`regex_t` that `regcomp` fills from a pattern. -/
structure ParamEnv where
  seedtimestr2hptime : String → Int
  strtod : String → DelayFactor
  fopen : String → Option (List Char)
  allocFile : Nat → Bool
  allocPattern : Nat → Bool
  newdlcp : String → Bool
  allocMatch : Bool
  allocReject : Bool
  regexec : String → String → Bool

/-- The loop of `readregexfile` over the buffers read by `fgets`, with the
pattern built so far and `regexcnt`.  The lengths `lengthbase` and `lengthadd`
are `int`s; their sum beyond `INT_MAX` is undefined. -/
def regexLoop (alloc : Nat → Bool) :
    List (List Char) → Option (List Char) → Nat → Option (Int × Option (List Char))
  | [], pat, cnt => some (cnt, pat)
  | line :: rest, pat, cnt =>
    -- trim spaces and skip if empty lines
    match scanToken line with
    | none => regexLoop alloc rest pat cnt
    | some tok =>
      -- skip comment lines
      if tok.head? = some '#' then regexLoop alloc rest pat cnt
      else
        -- add regex to compound regex
        match pat with
        | some p =>
          if p.length + (tok.length + 4) > INT_MAX then none
          else if alloc cnt then
            regexLoop alloc rest (some (p ++ ('|' :: '(' :: tok ++ [')']))) (cnt + 1)
          else some (-1, none)
        | none =>
          if alloc cnt then regexLoop alloc rest (some ('(' :: tok ++ [')'])) (cnt + 1)
          else some (-1, none)

/-- `readregexfile`, called as its contract asks with `*pppattern` not pointing
to memory: the return value and `*pppattern` afterwards (`none` is `NULL`). -/
def readregexfile (env : ParamEnv) (regexfile : Option String) :
    Option (Int × Option (List Char)) :=
  match regexfile with
  | none => some (-1, none)
  | some name =>
    -- open the regex list file
    match env.fopen name with
    | none => some (-1, none)
    | some content =>
      regexLoop env.allocPattern (fgetsLines 1024 content.length content) none 0

/-- `addfile`: the file list with the new file at its end, `none` when it
returns -1. -/
def addfile (env : ParamEnv) (filename : String) (files : List Filelink) :
    Option (List Filelink) :=
  if env.allocFile files.length then
    some (files ++ [{ infilename := filename, infp := none }])
  else none

/-- The loop of `addlistfile` over the buffers read by `fgets`: the file list
afterwards and whether every `addfile` succeeded. -/
def addlistLoop (env : ParamEnv) : List (List Char) → List Filelink → Bool × List Filelink
  | [], files => (true, files)
  | line :: rest, files =>
    -- end string at first newline character
    let ent := (cstr line).takeWhile (fun c => c != newline)
    -- skip empty lines and comment lines
    if ent = [] then addlistLoop env rest files
    else if ent.head? = some '#' then addlistLoop env rest files
    else
      match addfile env (String.mk ent) files with
      | none => (false, files)
      | some files1 => addlistLoop env rest files1

/-- `addlistfile`: whether it succeeded (returned a count, not -1) and the file
list afterwards. -/
def addlistfile (env : ParamEnv) (filename : String) (files : List Filelink) :
    Bool × List Filelink :=
  match env.fopen filename with
  | none => (false, files)
  | some content => addlistLoop env (fgetsLines 1024 content.length content) files

/-- `getoptval`, given the option and the arguments after it: the value, or
`none` when it calls `exit (1)`. -/
def getoptval (opt : String) (rest : List String) : Option String :=
  match rest with
  | [] => none
  | v :: _ =>
    -- special cases of '-o -' and '-s -' usage
    if (opt = "-o" ∨ opt = "-s") ∧ v = "-" then some v
    else if v.data.head? ≠ some '-' then some v
    else none

/-- The variables that `processparam` sets: the globals, with their initial
values in `ParamState.init`, and its locals.  `verbose` and `basicsum` only
feed the log. -/
structure ParamState where
  verbose : Nat
  basicsum : Bool
  starttime : Int
  endtime : Int
  streamdelay : Bool
  delayfactor : DelayFactor
  outputfile : Option String
  filelist : List Filelink
  selectfile : Option String
  matchpattern : Option String
  rejectpattern : Option String
  dladdress : Option String
deriving DecidableEq

/-- The state in which `processparam` starts. -/
def ParamState.init : ParamState :=
  { verbose := 0, basicsum := false, starttime := HPTERROR, endtime := HPTERROR,
    streamdelay := false, delayfactor := { num := 1, den := 1 }, outputfile := none,
    filelist := [], selectfile := none, matchpattern := none, rejectpattern := none,
    dladdress := none }

/-- What one iteration of the argument loop of `processparam` does: it calls
`exit`, returns -1 from `processparam`, or goes on to the next argument, after
the value of the option when one was taken (`optind++` in the call of
`getoptval`). -/
inductive ArgStep where
  | exit (status : Int)
  | fail (s : ParamState)
  | next (s : ParamState)
  | next2 (s : ParamState)
deriving DecidableEq

/-- The body of the argument loop of `processparam` for the argument `arg`,
`rest` being the arguments after it. -/
def parseStep (env : ParamEnv) (arg : String) (rest : List String) (s : ParamState) :
    ArgStep :=
  if arg = "-V" then ArgStep.exit 0
  else if arg = "-h" then ArgStep.exit 0
  else if arg.data.take 2 = ['-', 'v'] then
    ArgStep.next
      { s with verbose := s.verbose + ((arg.data.drop 1).takeWhile (fun c => c = 'v')).length }
  else if arg = "-sum" then ArgStep.next { s with basicsum := true }
  else if arg = "-s" then
    match getoptval arg rest with
    | none => ArgStep.exit 1
    | some v => ArgStep.next2 { s with selectfile := some v }
  else if arg = "-ts" then
    match getoptval arg rest with
    | none => ArgStep.exit 1
    | some v =>
      if env.seedtimestr2hptime v = HPTERROR then
        ArgStep.fail { s with starttime := env.seedtimestr2hptime v }
      else ArgStep.next2 { s with starttime := env.seedtimestr2hptime v }
  else if arg = "-te" then
    match getoptval arg rest with
    | none => ArgStep.exit 1
    | some v =>
      if env.seedtimestr2hptime v = HPTERROR then
        ArgStep.fail { s with endtime := env.seedtimestr2hptime v }
      else ArgStep.next2 { s with endtime := env.seedtimestr2hptime v }
  else if arg = "-M" then
    match getoptval arg rest with
    | none => ArgStep.exit 1
    | some v => ArgStep.next2 { s with matchpattern := some v }
  else if arg = "-R" then
    match getoptval arg rest with
    | none => ArgStep.exit 1
    | some v => ArgStep.next2 { s with rejectpattern := some v }
  else if arg = "-sd" then ArgStep.next { s with streamdelay := true }
  else if arg = "-df" then
    match getoptval arg rest with
    | none => ArgStep.exit 1
    | some v => ArgStep.next2 { s with streamdelay := true, delayfactor := env.strtod v }
  else if arg = "-o" then
    match getoptval arg rest with
    | none => ArgStep.exit 1
    | some v => ArgStep.next2 { s with outputfile := some v }
  else if arg = "-dl" then
    match getoptval arg rest with
    | none => ArgStep.exit 1
    | some v => ArgStep.next2 { s with dladdress := some v }
  else if arg.data.head? = some '-' ∧ arg.data.length > 1 then ArgStep.exit 1
  else if arg.data.head? = some '@' then
    -- an input file list
    match addlistfile env (String.mk (arg.data.drop 1)) s.filelist with
    | (false, _) => ArgStep.exit 1
    | (true, files) => ArgStep.next { s with filelist := files }
  else
    -- an input file
    match addfile env arg s.filelist with
    | none => ArgStep.exit 1
    | some files => ArgStep.next { s with filelist := files }

/-- The loop of `processparam` over the arguments after `argv[0]`: the return
value so far (0, or -1 from a `return` inside the loop) and the state. -/
def parseArgs (env : ParamEnv) : List String → ParamState → Outcome (Int × ParamState)
  | [], s => Outcome.returned (0, s)
  | arg :: rest, s =>
    match parseStep env arg rest s with
    | ArgStep.exit status => Outcome.exited status
    | ArgStep.fail s1 => Outcome.returned (-1, s1)
    | ArgStep.next s1 => parseArgs env rest s1
    | ArgStep.next2 s1 =>
      match rest with
      | [] => Outcome.returned (0, s1)
      | _ :: rest1 => parseArgs env rest1 s1

/-- The expansion of a match or reject pattern from a file when it is prefixed
by `@`: the pattern afterwards, `none` when `processparam` calls `exit (1)`. -/
def expandPattern (env : ParamEnv) (pattern : Option String) : Option (Option String) :=
  match pattern with
  | none => some none
  | some p =>
    if p.data.head? = some '@' then
      match readregexfile env (some (String.mk (p.data.drop 1))) with
      | none => none
      | some (cnt, pat) => if cnt ≤ 0 then none else some (pat.map String.mk)
    else some (some p)

/-- `processparam`: the return value and the variables it has set, or the exit
status. -/
def processparam (env : ParamEnv) (argv : List String) : Outcome (Int × ParamState) :=
  match parseArgs env (argv.drop 1) ParamState.init with
  | Outcome.exited status => Outcome.exited status
  | Outcome.returned (ret, s) =>
    if ret ≠ 0 then Outcome.returned (ret, s)
    -- make sure input file(s) were specified
    else if s.filelist = [] then Outcome.exited 0
    -- make sure output file or server was specified
    else if s.outputfile = none ∧ s.dladdress = none then Outcome.exited 0
    -- allocate and initialize DataLink connection description
    else if s.dladdress.map env.newdlcp = some false then Outcome.exited 1
    else
      -- expand match and reject patterns from a file if prefixed by '@'
      match expandPattern env s.matchpattern with
      | none => Outcome.exited 1
      | some mp =>
        match expandPattern env s.rejectpattern with
        | none => Outcome.exited 1
        | some rp =>
          -- compile match and reject patterns
          if mp.isSome ∧ env.allocMatch = false then Outcome.exited 1
          else if rp.isSome ∧ env.allocReject = false then Outcome.exited 1
          else Outcome.returned (0, { s with matchpattern := mp, rejectpattern := rp })

/-- The settings `readfiles` and `writerecords` work with, after a successful
`processparam`.  A compiled expression answers as `regexec` does for its
pattern (after a failed `regcomp` the code only logs, so the answer is then
what `regexec` makes of the `regex_t` left behind). -/
def configOf (env : ParamEnv) (s : ParamState) : Config :=
  { starttime := s.starttime, endtime := s.endtime,
    matchRegex := s.matchpattern.map env.regexec,
    rejectRegex := s.rejectpattern.map env.regexec,
    streamdelay := s.streamdelay, delayfactor := s.delayfactor,
    outputfile := s.outputfile, dlconn := s.dladdress.isSome }

/-! ## main -/

/-- External collaborators of the whole program. -/
structure MainEnv where
  param : ParamEnv
  read : ReadEnv
  write : WriteEnv

/-- `main`: its return value and the world afterwards, or the exit status of a
call of `exit` in `processparam`.  The first argument bounds the `sendrecord`
calls per record.  The first `dl_connect` call of the run is the one made
here. -/
def main (fuel : Nat) (env : MainEnv) (argv : List String) : Option (Outcome (Int × World)) :=
  -- process input parameters
  match processparam env.param argv with
  | Outcome.exited status => some (Outcome.exited status)
  | Outcome.returned (ret, s) =>
    let w0 : World := { initWorld s.filelist with link := false }
    if ret < 0 then some (Outcome.returned (1, w0))
    else
      let cfg := configOf env.param s
      -- connect to DataLink server
      if cfg.dlconn = true ∧ env.write.dlconnect 0 = false then
        some (Outcome.returned
          (-1, { w0 with dlconnects := 1, log := [Event.connect false] }))
      else
        let w1 : World :=
          if cfg.dlconn then
            { w0 with dlconnects := 1, link := true, log := [Event.connect true] }
          else w0
        -- read and process all files specified on the command line
        match readfiles cfg env.read s.filelist [] emptyMap with
        | none => none
        | some (rret, h, m) =>
          if rret ≠ 0 then some (Outcome.returned (1, w1))
          else
            -- sort the record map into time order
            match sortrecmap h (some m) with
            | none => none
            | some (sret, h1, om) =>
              if sret ≠ 0 then some (Outcome.returned (1, w1))
              else
                -- write records
                match writerecords fuel cfg env.write h1 om w1 with
                | none => none
                | some (wret, w2) =>
                  if wret ≠ 0 then some (Outcome.returned (1, w2))
                  else
                    -- shut down the connection to DataLink server
                    some (Outcome.returned
                      (0, if cfg.dlconn = true ∧ w2.link = true then
                            { w2 with link := false, log := w2.log ++ [Event.disconnect] }
                          else w2))

/-! ## Example command lines -/

/-- A pattern file with a comment line, an indented pattern, a blank line and
a pattern followed by more text. -/
def exPatternFile : List Char :=
  "# channels\n  ^XX_STA\n\nYY_.*  second\n".data

/-- A pattern file that is one line of 1024 letters. -/
def exLongLine : List Char := List.replicate 1023 'a' ++ ['a']

/-- The collaborators of `processparam` in the examples: every allocation
succeeds, `patterns.re` is the pattern file above, `long.re` is one line of
1024 letters, `empty.list` is an empty list file; `strtod` is given for the
strings the examples use, and an expression matches the names equal to it. -/
def exParamEnv : ParamEnv :=
  { seedtimestr2hptime := fun s => if s = "1970,001" then 0 else HPTERROR,
    strtod := fun s =>
      if s = "2" then { num := 2, den := 1 }
      else if s = "1" then { num := 1, den := 1 }
      else { num := 0, den := 1 },
    fopen := fun name =>
      if name = "patterns.re" then some exPatternFile
      else if name = "long.re" then some exLongLine
      else if name = "empty.list" then some []
      else none,
    allocFile := fun _ => true,
    allocPattern := fun _ => true,
    newdlcp := fun _ => true,
    allocMatch := true,
    allocReject := true,
    regexec := fun p s => p == s }

/-- The collaborators of the whole program in the examples, with a DataLink
server that refuses every connection. -/
def exMainEnvDown : MainEnv :=
  { param := exParamEnv, read := exReadEnv,
    write := { exWriteEnv with dlconnect := fun _ => false } }

/-- The collaborators of the whole program in the examples, every call
succeeding. -/
def exMainEnv : MainEnv := { param := exParamEnv, read := exReadEnv, write := exWriteEnv }

/-! ## Lemmas on chains -/

theorem seg_nil {h : Heap} {p q : Option Nat} : Seg h p [] q ↔ p = q := Iff.rfl

theorem seg_cons {h : Heap} {p q : Option Nat} {a : Nat} {xs : List Nat} :
    Seg h p (a :: xs) q ↔ p = some a ∧ ∃ r, h[a]? = some r ∧ Seg h r.next xs q := by
  simp only [Seg]
  cases hr : h[a]? with
  | none => simp
  | some r => simp

theorem seg_frame {h h1 : Heap} {xs : List Nat} :
    ∀ {p q : Option Nat}, (∀ a ∈ xs, h1[a]? = h[a]?) → Seg h p xs q → Seg h1 p xs q := by
  induction xs with
  | nil => intro p q _ hs; exact hs
  | cons a xs ih =>
    intro p q hfr hs
    rw [seg_cons] at hs ⊢
    obtain ⟨hp, r, hr, hrest⟩ := hs
    refine ⟨hp, r, ?_, ih (fun b hb => hfr b (List.mem_cons_of_mem _ hb)) hrest⟩
    rw [hfr a (List.mem_cons_self _ _)]; exact hr

theorem seg_append {h : Heap} {xs ys : List Nat} :
    ∀ {p q r : Option Nat}, Seg h p xs q → Seg h q ys r → Seg h p (xs ++ ys) r := by
  induction xs with
  | nil => intro p q r h1 h2; rw [seg_nil] at h1; subst h1; simpa using h2
  | cons a xs ih =>
    intro p q r h1 h2
    rw [seg_cons] at h1
    obtain ⟨hp, ra, hra, hrest⟩ := h1
    rw [List.cons_append, seg_cons]
    exact ⟨hp, ra, hra, ih hrest h2⟩

theorem seg_split {h : Heap} {xs ys : List Nat} :
    ∀ {p r : Option Nat}, Seg h p (xs ++ ys) r → ∃ q, Seg h p xs q ∧ Seg h q ys r := by
  induction xs with
  | nil => intro p r hs; exact ⟨p, rfl, by simpa using hs⟩
  | cons a xs ih =>
    intro p r hs
    rw [List.cons_append, seg_cons] at hs
    obtain ⟨hp, ra, hra, hrest⟩ := hs
    obtain ⟨q, h1, h2⟩ := ih hrest
    exact ⟨q, seg_cons.mpr ⟨hp, ra, hra, h1⟩, h2⟩

theorem seg_valid {h : Heap} {xs : List Nat} :
    ∀ {p q : Option Nat}, Seg h p xs q → ∀ a ∈ xs, a < h.length := by
  induction xs with
  | nil => intro p q _ a ha; simp at ha
  | cons b xs ih =>
    intro p q hs a ha
    rw [seg_cons] at hs
    obtain ⟨_, r, hr, hrest⟩ := hs
    rcases List.mem_cons.mp ha with rfl | ha
    · by_contra hlt
      rw [List.getElem?_eq_none (by omega)] at hr
      cases hr
    · exact ih hrest a ha

theorem isList_unique {h : Heap} {xs : List Nat} :
    ∀ {ys : List Nat} {p : Option Nat}, IsList h p xs → IsList h p ys → xs = ys := by
  induction xs with
  | nil =>
    intro ys p h1 h2
    cases ys with
    | nil => rfl
    | cons b ys =>
      have h1 : p = none := h1
      have h2 := (seg_cons.mp h2).1
      rw [h1] at h2; cases h2
  | cons a xs ih =>
    intro ys p h1 h2
    obtain ⟨hp, ra, hra, hrest⟩ := seg_cons.mp h1
    cases ys with
    | nil =>
      have h2 : p = none := h2
      rw [h2] at hp; cases hp
    | cons b ys =>
      obtain ⟨hp2, rb, hrb, hrest2⟩ := seg_cons.mp h2
      rw [hp] at hp2
      cases hp2
      rw [hra] at hrb
      cases hrb
      rw [ih hrest hrest2]

theorem isList_nodup {h : Heap} {xs : List Nat} :
    ∀ {p : Option Nat}, IsList h p xs → xs.Nodup := by
  induction xs with
  | nil => intro _ _; exact List.nodup_nil
  | cons a xs ih =>
    intro p hl
    obtain ⟨hp, ra, hra, hrest⟩ := seg_cons.mp hl
    refine List.nodup_cons.mpr ⟨?_, ih hrest⟩
    intro hmem
    obtain ⟨l1, l2, hx⟩ := List.append_of_mem hmem
    have hrest2 : Seg h ra.next (l1 ++ a :: l2) none := by rw [← hx]; exact hrest
    obtain ⟨q, _, hq⟩ := seg_split hrest2
    obtain ⟨_, ra2, hra2, htail⟩ := seg_cons.mp hq
    rw [hra] at hra2
    cases hra2
    have := isList_unique hrest htail
    have hlen := congrArg List.length this
    rw [hx] at hlen
    simp at hlen
    omega

/-! ## Heap updates and the first loops of `sortrecmap` -/

theorem setNext_eq {h : Heap} {a : Nat} {r : Record} (v : Option Nat) (hr : h[a]? = some r) :
    setNext h a v = some (h.set a { r with next := v }) := by
  simp [setNext, hr]

theorem setNext_inv {h h1 : Heap} {a : Nat} {v : Option Nat} (hs : setNext h a v = some h1) :
    ∃ r, h[a]? = some r ∧ h1 = h.set a { r with next := v } := by
  unfold setNext at hs
  cases hr : h[a]? with
  | none => rw [hr] at hs; cases hs
  | some r => rw [hr] at hs; exact ⟨r, rfl, (Option.some.inj hs).symm⟩

theorem setNext_ne {h h1 : Heap} {a b : Nat} {v : Option Nat}
    (hs : setNext h a v = some h1) (hne : b ≠ a) : h1[b]? = h[b]? := by
  obtain ⟨r, _, rfl⟩ := setNext_inv hs
  exact List.getElem?_set_ne (Ne.symm hne)

theorem setNext_self {h h1 : Heap} {a : Nat} {v : Option Nat} {r : Record}
    (hs : setNext h a v = some h1) (hr : h[a]? = some r) :
    h1[a]? = some { r with next := v } := by
  obtain ⟨r1, hr1, rfl⟩ := setNext_inv hs
  rw [hr] at hr1
  cases hr1
  have hlt : a < h.length := by
    by_contra hge
    rw [List.getElem?_eq_none (by omega)] at hr
    cases hr
  simp [List.getElem?_set, hlt]

theorem setNext_length {h h1 : Heap} {a : Nat} {v : Option Nat}
    (hs : setNext h a v = some h1) : h1.length = h.length := by
  obtain ⟨r, _, rfl⟩ := setNext_inv hs
  simp

theorem setNext_of_lt {h : Heap} {a : Nat} (v : Option Nat) (ha : a < h.length) :
    ∃ h1, setNext h a v = some h1 := by
  have : h[a]? = some h[a] := List.getElem?_eq_getElem ha
  exact ⟨_, setNext_eq v this⟩

theorem SameData.refl (h : Heap) : SameData h h := rfl

theorem SameData.trans {h h1 h2 : Heap} (a : SameData h h1) (b : SameData h1 h2) :
    SameData h h2 := by
  unfold SameData at *
  rw [b, a]

theorem SameData.length {h h1 : Heap} (s : SameData h h1) : h1.length = h.length := by
  have := congrArg List.length s
  simpa using this

theorem SameData.getElem? {h h1 : Heap} (s : SameData h h1) (a : Nat) :
    (h1[a]?).map eraseNext = (h[a]?).map eraseNext := by
  have := congrArg (fun l => l[a]?) s
  simpa [List.getElem?_map] using this

theorem sameData_endtimeOf {h h1 : Heap} (s : SameData h h1) (a : Nat) :
    endtimeOf h1 a = endtimeOf h a := by
  have := s.getElem? a
  unfold endtimeOf
  cases h1a : h1[a]? with
  | none =>
    cases ha : h[a]? with
    | none => rfl
    | some r => rw [h1a, ha] at this; cases this
  | some r1 =>
    cases ha : h[a]? with
    | none => rw [h1a, ha] at this; cases this
    | some r =>
      rw [h1a, ha] at this
      have := congrArg Record.endtime (Option.some.inj this)
      simpa [eraseNext] using this

theorem sameData_setNext {h h1 : Heap} {a : Nat} {v : Option Nat}
    (hs : setNext h a v = some h1) : SameData h h1 := by
  obtain ⟨r, hr, rfl⟩ := setNext_inv hs
  unfold SameData
  apply List.ext_getElem?
  intro i
  rw [List.getElem?_map, List.getElem?_map]
  by_cases hi : i = a
  · subst hi
    have hlt : i < h.length := by
      by_contra hge
      rw [List.getElem?_eq_none (by omega)] at hr
      cases hr
    simp [List.getElem?_set, hlt, hr, eraseNext]
  · rw [List.getElem?_set_ne (Ne.symm hi)]

theorem out_nil (h : Heap) : Out h none none [] := Or.inl ⟨rfl, rfl, rfl⟩

theorem appendMerged_spec {h : Heap} {top tail : Option Nat} {out : List Nat} (e : Nat)
    (ho : Out h top tail out) (hnd : out.Nodup) (hv : e < h.length) :
    ∃ h1 top1, appendMerged h top tail e = some (h1, top1) ∧
      Out h1 top1 (some e) (out ++ [e]) ∧ SameData h h1 ∧
      ∀ a, a ∉ out → h1[a]? = h[a]? := by
  rcases ho with ⟨rfl, rfl, rfl⟩ | ⟨init, t, rfl, rfl, hseg, ht⟩
  · refine ⟨h, some e, rfl, Or.inr ⟨[], e, rfl, rfl, rfl, hv⟩, SameData.refl h, fun _ _ => rfl⟩
  · obtain ⟨h1, hs⟩ := setNext_of_lt (some e) ht
    have hr : h[t]? = some h[t] := List.getElem?_eq_getElem ht
    have htn : t ∉ init := by
      intro hmem
      have := List.nodup_append.mp hnd
      exact this.2.2 hmem (List.mem_singleton_self t)
    refine ⟨h1, top, by simp [appendMerged, hs], Or.inr ⟨init ++ [t], e, rfl, rfl, ?_, ?_⟩,
      sameData_setNext hs, ?_⟩
    · refine seg_append (seg_frame (fun a ha => setNext_ne hs ?_) hseg) ?_
      · rintro rfl; exact htn ha
      · rw [seg_cons]
        exact ⟨rfl, _, setNext_self hs hr, rfl⟩
    · rw [setNext_length hs]; exact hv
    · intro a ha
      refine setNext_ne hs ?_
      rintro rfl
      exact ha (List.mem_append_right _ (List.mem_singleton_self a))

theorem stepLoop_spec {h : Heap} :
    ∀ (n : Nat) (xs : List Nat) (p : Option Nat) (psize : Nat),
      IsList h p xs → (n = 0 ∨ xs ≠ []) →
      ∃ q, stepLoop h n p psize = some (q, psize + min n xs.length) ∧
        IsList h q (xs.drop n) := by
  intro n
  induction n with
  | zero => intro xs p psize hl _; exact ⟨p, by simp [stepLoop], by simpa using hl⟩
  | succ k ih =>
    intro xs p psize hl hne
    cases xs with
    | nil => simp at hne
    | cons a xs1 =>
      obtain ⟨hp, r, hr, hrest⟩ := seg_cons.mp hl
      subst hp
      cases xs1 with
      | nil =>
        have hn : r.next = none := hrest
        refine ⟨none, ?_, ?_⟩
        · simp [stepLoop, deref, hr, hn]
        · simp [IsList, Seg]
      | cons b xs2 =>
        have hn : r.next = some b := (seg_cons.mp hrest).1
        rw [hn] at hrest
        obtain ⟨q, hq, hql⟩ := ih (b :: xs2) (some b) (psize + 1) hrest
          (Or.inr (List.cons_ne_nil _ _))
        refine ⟨q, ?_, ?_⟩
        · simp only [stepLoop, deref, hr, hn, hq]
          simp only [List.length_cons]
          congr 2
          omega
        · simpa using hql

/-! ## The merge loop refines the list-level merge -/

theorem sameData_endtimeOf_eq {h h1 : Heap} (s : SameData h h1) :
    endtimeOf h1 = endtimeOf h := funext (sameData_endtimeOf s)

theorem mergeLoop_step (fuel : Nat) {s : MergeState} {out : List Nat} {e : Nat}
    {p1 q1 : Option Nat} {ps1 qs1 : Nat}
    (hc : s.cond = true) (hp : pickNext s = some (e, p1, ps1, q1, qs1))
    (ho : Out s.h s.top s.tail out) (hnd : out.Nodup) (hv : e < s.h.length) :
    ∃ h1 top1,
      mergeLoop (fuel + 1) s = mergeLoop fuel
        { h := h1, p := p1, psize := ps1, q := q1, qsize := qs1, top := top1, tail := some e } ∧
      Out h1 top1 (some e) (out ++ [e]) ∧ SameData s.h h1 ∧
      ∀ a, a ∉ out → h1[a]? = s.h[a]? := by
  obtain ⟨h1, top1, happ, hout, hsd, hfr⟩ := appendMerged_spec e ho hnd hv
  refine ⟨h1, top1, ?_, hout, hsd, hfr⟩
  simp [mergeLoop, hc, mergeBody, hp, happ]

theorem mergeLoop_spec : ∀ (fuel : Nat) (s : MergeState) (out P Q : List Nat),
    (out ++ (P ++ Q)).Nodup →
    Out s.h s.top s.tail out →
    (∃ e, Seg s.h s.p P e) → s.psize = P.length →
    IsList s.h s.q Q →
    P.length + s.qsize ≤ fuel →
    ∃ s1, mergeLoop fuel s = some s1 ∧
      Out s1.h s1.top s1.tail (out ++ mergeRuns (endtimeOf s.h) P (Q.take s.qsize)) ∧
      IsList s1.h s1.q (Q.drop s.qsize) ∧ SameData s.h s1.h := by
  intro fuel
  induction fuel with
  | zero =>
    intro s out P Q _ ho _ hps hq hfuel
    have hP : P = [] := List.length_eq_zero.mp (by omega)
    have hqs : s.qsize = 0 := by omega
    subst hP
    refine ⟨s, ?_, ?_, ?_, SameData.refl _⟩
    · simp only [List.length_nil] at hps
      simp [mergeLoop, MergeState.cond, hps, hqs]
    · simpa [mergeRuns, hqs] using ho
    · simpa [hqs] using hq
  | succ f ih =>
    intro s out P Q hnd ho hp hps hq hfuel
    have hndo : out.Nodup := (List.nodup_append.mp hnd).1
    have hdisj : ∀ a, a ∈ P ++ Q → a ∉ out := fun a ha hao =>
      (List.nodup_append.mp hnd).2.2 hao ha
    cases P with
    | nil =>
      simp only [List.length_nil] at hps
      by_cases hcond : s.qsize = 0 ∨ Q = []
      · -- nothing left to merge
        have hc : s.cond = false := by
          rcases hcond with h0 | h0
          · simp [MergeState.cond, hps, h0]
          · subst h0
            have : s.q = none := hq
            simp [MergeState.cond, hps, this]
        refine ⟨s, by simp [mergeLoop, hc], ?_, ?_, SameData.refl _⟩
        · rcases hcond with h0 | h0
          · simpa [mergeRuns, h0] using ho
          · subst h0; simpa [mergeRuns] using ho
        · rcases hcond with h0 | h0
          · simpa [h0] using hq
          · subst h0; simpa using hq
      · -- the next element comes from q
        push_neg at hcond
        obtain ⟨hqs, hQ⟩ := hcond
        obtain ⟨qa, Q1, rfl⟩ := List.exists_cons_of_ne_nil hQ
        obtain ⟨k, hk⟩ := Nat.exists_eq_succ_of_ne_zero hqs
        obtain ⟨hqp, rq, hrq, hrest⟩ := seg_cons.mp hq
        have hc : s.cond = true := by simp [MergeState.cond, hk, hqp]
        have hpick : pickNext s = some (qa, s.p, s.psize, rq.next, s.qsize - 1) := by
          simp [pickNext, hps, hqp, deref, hrq]
        obtain ⟨h1, top1, hstep, hout, hsd, hfr⟩ :=
          mergeLoop_step f hc hpick ho hndo (seg_valid hq qa (List.mem_cons_self _ _))
        have hfrQ : ∀ a ∈ Q1, h1[a]? = s.h[a]? := fun a ha =>
          hfr a (hdisj a (by simp [ha]))
        obtain ⟨s1, hs1, hout1, hq1, hsd1⟩ :=
          ih { h := h1, p := s.p, psize := s.psize, q := rq.next, qsize := s.qsize - 1,
               top := top1, tail := some qa } (out ++ [qa]) [] Q1
            (by simpa [List.append_assoc] using hnd) hout ⟨s.p, rfl⟩ (by simpa using hps)
            (seg_frame hfrQ hrest) (by simp only [List.length_nil]; omega)
        refine ⟨s1, by rw [hstep, hs1], ?_, ?_, hsd.trans hsd1⟩
        · simp only [mergeRuns, List.nil_merge] at hout1 ⊢
          rw [hk]
          simpa [hk, List.append_assoc] using hout1
        · rw [hk]
          simpa [hk] using hq1
    | cons pa P1 =>
      obtain ⟨e, hpseg⟩ := hp
      obtain ⟨hpp, rp, hrp, hprest⟩ := seg_cons.mp hpseg
      have hc : s.cond = true := by simp [MergeState.cond, hps]
      have hpv : pa < s.h.length := seg_valid hpseg pa (List.mem_cons_self _ _)
      have hps0 : s.psize ≠ 0 := by rw [hps]; simp
      -- taking the next element from p
      have fromP : ∀ (rest : List Nat),
          pickNext s = some (pa, rp.next, s.psize - 1, s.q, s.qsize) →
          mergeRuns (endtimeOf s.h) (pa :: P1) (Q.take s.qsize) = pa :: rest →
          rest = mergeRuns (endtimeOf s.h) P1 (Q.take s.qsize) →
          ∃ s1, mergeLoop (f + 1) s = some s1 ∧
            Out s1.h s1.top s1.tail (out ++ mergeRuns (endtimeOf s.h) (pa :: P1) (Q.take s.qsize)) ∧
            IsList s1.h s1.q (Q.drop s.qsize) ∧ SameData s.h s1.h := by
        intro rest hpick hm hrest
        obtain ⟨h1, top1, hstep, hout, hsd, hfr⟩ :=
          mergeLoop_step f hc hpick ho hndo hpv
        have hnd1 : (out ++ [pa] ++ (P1 ++ Q)).Nodup := by
          simpa [List.append_assoc] using hnd
        obtain ⟨s1, hs1, hout1, hq1, hsd1⟩ :=
          ih { h := h1, p := rp.next, psize := s.psize - 1, q := s.q, qsize := s.qsize,
               top := top1, tail := some pa } (out ++ [pa]) P1 Q hnd1 hout
            ⟨e, seg_frame (fun a ha => hfr a (hdisj a (by simp [ha]))) hprest⟩
            (by simp [hps])
            (seg_frame (fun a ha => hfr a (hdisj a (by simp [ha]))) hq)
            (by
              show P1.length + s.qsize ≤ f
              simp only [List.length_cons] at hfuel
              omega)
        refine ⟨s1, by rw [hstep, hs1], ?_, hq1, hsd.trans hsd1⟩
        rw [hm, hrest]
        rw [show endtimeOf h1 = endtimeOf s.h from sameData_endtimeOf_eq hsd] at hout1
        simpa [List.append_assoc] using hout1
      by_cases hcond : s.qsize = 0 ∨ Q = []
      · -- q is empty
        have hq0 : s.qsize = 0 ∨ s.q = none := by
          rcases hcond with h0 | h0
          · exact Or.inl h0
          · subst h0; exact Or.inr hq
        have htake : Q.take s.qsize = [] := by
          rcases hcond with h0 | h0
          · simp [h0]
          · subst h0; simp
        refine fromP P1 ?_ ?_ ?_
        · simp [pickNext, hps0, hq0, hpp, deref, hrp]
        · simp [htake, mergeRuns]
        · simp [htake, mergeRuns]
      · push_neg at hcond
        obtain ⟨hqs, hQ⟩ := hcond
        obtain ⟨qa, Q1, rfl⟩ := List.exists_cons_of_ne_nil hQ
        obtain ⟨k, hk⟩ := Nat.exists_eq_succ_of_ne_zero hqs
        obtain ⟨hqp, rq, hrq, hqrest⟩ := seg_cons.mp hq
        have hq0 : ¬ (s.qsize = 0 ∨ s.q = none) := by simp [hk, hqp]
        have hep : endtimeOf s.h pa = rp.endtime := by simp [endtimeOf, hrp]
        have heq : endtimeOf s.h qa = rq.endtime := by simp [endtimeOf, hrq]
        by_cases hle : rp.endtime ≤ rq.endtime
        · -- first element of p is lower or same
          have hcmp : recordcmp (deref s.h s.p) (deref s.h s.q) ≤ 0 := by
            simp [recordcmp, hpp, hqp, deref, hrp, hrq, not_lt.mpr hle]
          refine fromP (mergeRuns (endtimeOf s.h) P1 (List.take s.qsize (qa :: Q1))) ?_ ?_ rfl
          · unfold pickNext
            rw [if_neg hps0, if_neg hq0, if_pos hcmp]
            simp [hpp, deref, hrp]
          · rw [hk]
            simp only [List.take_succ_cons, mergeRuns]
            rw [List.cons_merge_cons_pos]
            rw [decide_eq_true_eq, hep, heq]
            exact hle
        · -- first element of q is lower
          have hcmp : ¬ recordcmp (deref s.h s.p) (deref s.h s.q) ≤ 0 := by
            simp [recordcmp, hpp, hqp, deref, hrp, hrq, not_le.mp hle]
          have hpick : pickNext s = some (qa, s.p, s.psize, rq.next, s.qsize - 1) := by
            unfold pickNext
            rw [if_neg hps0, if_neg hq0, if_neg hcmp]
            simp [hqp, deref, hrq]
          obtain ⟨h1, top1, hstep, hout, hsd, hfr⟩ :=
            mergeLoop_step f hc hpick ho hndo
              (seg_valid hq qa (List.mem_cons_self _ _))
          have hnd1 : (out ++ [qa] ++ (pa :: P1 ++ Q1)).Nodup := by
            have : (out ++ (pa :: P1 ++ qa :: Q1)).Perm (out ++ [qa] ++ (pa :: P1 ++ Q1)) := by
              rw [List.append_assoc]
              refine List.Perm.append_left out ?_
              simpa using (List.perm_middle : List.Perm ((pa :: P1) ++ qa :: Q1) (qa :: ((pa :: P1) ++ Q1)))
            exact this.nodup_iff.mp hnd
          obtain ⟨s1, hs1, hout1, hq1, hsd1⟩ :=
            ih { h := h1, p := s.p, psize := s.psize, q := rq.next, qsize := s.qsize - 1,
                 top := top1, tail := some qa } (out ++ [qa]) (pa :: P1) Q1 hnd1 hout
              ⟨e, seg_frame (fun a ha => hfr a (hdisj a (by
                  rcases List.mem_cons.mp ha with rfl | ha
                  · simp
                  · simp [ha]))) hpseg⟩
              hps
              (seg_frame (fun a ha => hfr a (hdisj a (by simp [ha]))) hqrest)
              (by
                show (pa :: P1).length + (s.qsize - 1) ≤ f
                simp only [List.length_cons] at hfuel ⊢
                omega)
          refine ⟨s1, by rw [hstep, hs1], ?_, ?_, hsd.trans hsd1⟩
          · rw [show endtimeOf h1 = endtimeOf s.h from sameData_endtimeOf_eq hsd] at hout1
            have hm : mergeRuns (endtimeOf s.h) (pa :: P1) (List.take s.qsize (qa :: Q1)) =
                qa :: mergeRuns (endtimeOf s.h) (pa :: P1) (List.take (s.qsize - 1) Q1) := by
              have hneg : ¬ (decide (endtimeOf s.h pa ≤ endtimeOf s.h qa) = true) := by
                rw [decide_eq_true_eq, hep, heq]
                exact hle
              rw [hk]
              simp only [List.take_succ_cons, mergeRuns, Nat.succ_sub_one]
              rw [List.cons_merge_cons_neg _ _ _ hneg]
            rw [hm]
            simpa [List.append_assoc] using hout1
          · rw [hk]
            simpa [hk] using hq1

/-! ## One pass refines the list-level pass -/

theorem mergePass_nil (key : Nat → Int) (insize : Nat) : mergePass key insize [] = [] := by
  rw [mergePass]; simp

theorem mergePass_of_ne {key : Nat → Int} {insize : Nat} {xs : List Nat}
    (hx : xs ≠ []) (hi : 0 < insize) :
    mergePass key insize xs =
      mergeRuns key (xs.take insize) ((xs.drop insize).take insize) ++
        mergePass key insize (xs.drop (2 * insize)) := by
  rw [mergePass]
  have : ¬ (xs = [] ∨ insize = 0) := by
    push_neg; exact ⟨hx, by omega⟩
  rw [dif_neg this]

theorem numMerges_nil (insize : Nat) : numMerges insize [] = 0 := by
  rw [numMerges]; simp

theorem numMerges_of_ne {insize : Nat} {xs : List Nat} (hx : xs ≠ []) (hi : 0 < insize) :
    numMerges insize xs = 1 + numMerges insize (xs.drop (2 * insize)) := by
  rw [numMerges]
  have : ¬ (xs = [] ∨ insize = 0) := by
    push_neg; exact ⟨hx, by omega⟩
  rw [dif_neg this]

theorem mergeRuns_perm (key : Nat → Int) (l r : List Nat) :
    (mergeRuns key l r).Perm (l ++ r) :=
  List.merge_perm_append _

theorem passLoop_spec {insize : Nat} (hi : 0 < insize) :
    ∀ (fuel : Nat) (s : PassState) (out rest : List Nat),
      (out ++ rest).Nodup → Out s.h s.top s.tail out → IsList s.h s.p rest →
      rest.length ≤ fuel →
      (INT_MAX < s.nmerges + numMerges insize rest ∧ passLoop insize fuel s = none) ∨
      ∃ s1, passLoop insize fuel s = some s1 ∧
        Out s1.h s1.top s1.tail (out ++ mergePass (endtimeOf s.h) insize rest) ∧
        s1.nmerges = s.nmerges + numMerges insize rest ∧ SameData s.h s1.h := by
  intro fuel
  induction fuel with
  | zero =>
    intro s out rest _ ho hl hlen
    have hr : rest = [] := List.length_eq_zero.mp (by omega)
    subst hr
    have hp : s.p = none := hl
    refine Or.inr ⟨s, by simp [passLoop, hp], ?_, ?_, SameData.refl _⟩
    · simpa [mergePass_nil] using ho
    · simp [numMerges_nil]
  | succ f ih =>
    intro s out rest hnd ho hl hlen
    cases rest with
    | nil =>
      have hp : s.p = none := hl
      refine Or.inr ⟨s, by simp [passLoop, hp], ?_, ?_, SameData.refl _⟩
      · simpa [mergePass_nil] using ho
      · simp [numMerges_nil]
    | cons a r =>
      have hne : (a :: r) ≠ [] := List.cons_ne_nil _ _
      have hp : s.p = some a := (seg_cons.mp hl).1
      rw [numMerges_of_ne hne hi]
      by_cases hov : s.nmerges + 1 > INT_MAX
      · left
        refine ⟨by omega, ?_⟩
        simp [passLoop, hp, hov]
      · obtain ⟨q, hstep, hql⟩ := stepLoop_spec insize (a :: r) s.p 0 hl (Or.inr hne)
        rw [hp] at hstep
        -- the two runs
        have hsplit : Seg s.h s.p ((a :: r).take insize ++ (a :: r).drop insize) none := by
          rw [List.take_append_drop]; exact hl
        obtain ⟨e, hP, _⟩ := seg_split hsplit
        obtain ⟨m, hm, hmo, hmq, hmsd⟩ :=
          mergeLoop_spec (0 + min insize (a :: r).length + insize)
            { h := s.h, p := some a, psize := 0 + min insize (a :: r).length, q := q,
              qsize := insize, top := s.top, tail := s.tail }
            out ((a :: r).take insize) ((a :: r).drop insize)
            (by rw [List.take_append_drop]; exact hnd) ho ⟨e, by rw [← hp]; exact hP⟩
            (by simp) hql (by simp)
        have hm' : mergeLoop (0 + min insize (a :: r).length + insize)
            { h := s.h, p := some a, psize := 0 + min insize (a :: r).length, q := q,
              qsize := insize, top := s.top, tail := s.tail } = some m := hm
        have hmo' : Out m.h m.top m.tail (out ++ mergeRuns (endtimeOf s.h)
            ((a :: r).take insize) (((a :: r).drop insize).take insize)) := hmo
        have hmq' : IsList m.h m.q ((a :: r).drop (2 * insize)) := by
          have : IsList m.h m.q (((a :: r).drop insize).drop insize) := hmq
          rw [List.drop_drop] at this
          rw [two_mul]; exact this
        have hmsd' : SameData s.h m.h := hmsd
        have hnd' : (out ++ mergeRuns (endtimeOf s.h) ((a :: r).take insize)
            (((a :: r).drop insize).take insize) ++ (a :: r).drop (2 * insize)).Nodup := by
          have hperm : (out ++ mergeRuns (endtimeOf s.h) ((a :: r).take insize)
              (((a :: r).drop insize).take insize) ++ (a :: r).drop (2 * insize)).Perm
              (out ++ (a :: r)) := by
            rw [List.append_assoc]
            refine List.Perm.append_left out ?_
            refine ((mergeRuns_perm _ _ _).append_right _).trans ?_
            rw [List.append_assoc, two_mul, ← List.drop_drop, List.take_append_drop,
              List.take_append_drop]
          exact hperm.nodup_iff.mpr hnd
        have hlen' : ((a :: r).drop (2 * insize)).length ≤ f := by
          simp only [List.length_drop, List.length_cons] at hlen ⊢
          omega
        have hpass : passLoop insize (f + 1) s = passLoop insize f
            { h := m.h, p := m.q, top := m.top, tail := m.tail, nmerges := s.nmerges + 1 } := by
          simp only [passLoop, hp, hov, if_false, hstep, hm']
        rcases ih { h := m.h, p := m.q, top := m.top, tail := m.tail, nmerges := s.nmerges + 1 }
            _ _ hnd' hmo' hmq' hlen' with ⟨hbig, hnone⟩ | ⟨s1, hs1, ho1, hn1, hsd1⟩
        · left
          refine ⟨?_, by rw [hpass, hnone]⟩
          have : INT_MAX < s.nmerges + 1 + numMerges insize ((a :: r).drop (2 * insize)) := hbig
          omega
        · right
          refine ⟨s1, by rw [hpass, hs1], ?_, ?_, hmsd'.trans hsd1⟩
          · rw [mergePass_of_ne hne hi, ← List.append_assoc]
            have : endtimeOf m.h = endtimeOf s.h := sameData_endtimeOf_eq hmsd'
            have ho1' : Out s1.h s1.top s1.tail (out ++ mergeRuns (endtimeOf s.h)
              ((a :: r).take insize) (((a :: r).drop insize).take insize) ++
              mergePass (endtimeOf m.h) insize ((a :: r).drop (2 * insize))) := ho1
            rw [this] at ho1'
            exact ho1'
          · have : s1.nmerges = s.nmerges + 1 + numMerges insize ((a :: r).drop (2 * insize)) := hn1
            omega

/-! ## List-level properties of the bottom-up merge sort -/

theorem mergeRuns_sorted {key : Nat → Int} {l r : List Nat}
    (hl : SortedBy key l) (hr : SortedBy key r) : SortedBy key (mergeRuns key l r) := by
  unfold SortedBy mergeRuns at *
  have h := @List.sorted_merge Nat (fun a b => decide (key a ≤ key b))
    (fun a b c hab hbc => by
      simp only [decide_eq_true_eq] at *; exact le_trans hab hbc)
    (fun a b => by
      simp only [Bool.or_eq_true, decide_eq_true_eq]; exact le_total _ _)
    l r (by simpa using hl) (by simpa using hr)
  simpa using h

theorem mergeRuns_filter {key : Nat → Int} (t : Int) :
    ∀ (l r : List Nat), SortedBy key l →
      (mergeRuns key l r).filter (fun a => decide (key a = t)) =
        l.filter (fun a => decide (key a = t)) ++ r.filter (fun a => decide (key a = t)) := by
  intro l
  induction l with
  | nil => intro r _; simp [mergeRuns]
  | cons a l ihl =>
    intro r
    induction r with
    | nil => intro _; simp [mergeRuns]
    | cons b r ihr =>
      intro hs
      have hs' : SortedBy key l := (List.pairwise_cons.mp hs).2
      by_cases hab : key a ≤ key b
      · have hm : mergeRuns key (a :: l) (b :: r) = a :: mergeRuns key l (b :: r) := by
          unfold mergeRuns
          rw [List.cons_merge_cons_pos _ _ _ (by simpa using hab)]
        rw [hm, List.filter_cons, ihl (b :: r) hs', List.filter_cons (x := a)]
        split <;> simp
      · have hm : mergeRuns key (a :: l) (b :: r) = b :: mergeRuns key (a :: l) r := by
          unfold mergeRuns
          rw [List.cons_merge_cons_neg _ _ _ (by simpa using hab)]
        rw [hm, List.filter_cons, ihr hs, List.filter_cons (x := b)]
        by_cases hb : key b = t
        · have hnone : (a :: l).filter (fun a => decide (key a = t)) = [] := by
            rw [List.filter_eq_nil_iff]
            intro x hx
            have hax : key a ≤ key x := by
              rcases List.mem_cons.mp hx with rfl | hx
              · exact le_refl _
              · exact (List.pairwise_cons.mp hs).1 x hx
            simp only [decide_eq_true_eq]
            omega
          simp [hb, hnone]
        · simp [hb]

theorem mergePass_perm (key : Nat → Int) (insize : Nat) :
    ∀ (n : Nat) (xs : List Nat), xs.length ≤ n → (mergePass key insize xs).Perm xs := by
  intro n
  induction n with
  | zero =>
    intro xs hx
    have : xs = [] := List.length_eq_zero.mp (by omega)
    subst this
    rw [mergePass_nil]
  | succ n ih =>
    intro xs hx
    by_cases hc : xs = [] ∨ insize = 0
    · rw [mergePass, dif_pos hc]
    · push_neg at hc
      have hi : 0 < insize := by omega
      rw [mergePass_of_ne hc.1 hi]
      have hlen : (xs.drop (2 * insize)).length ≤ n := by
        have := List.length_pos.mpr hc.1
        simp only [List.length_drop]; omega
      refine ((mergeRuns_perm _ _ _).append (ih _ hlen)).trans ?_
      rw [List.append_assoc, two_mul, ← List.drop_drop, List.take_append_drop,
        List.take_append_drop]

theorem mergePass_length (key : Nat → Int) (insize : Nat) (xs : List Nat) :
    (mergePass key insize xs).length = xs.length :=
  (mergePass_perm key insize xs.length xs (le_refl _)).length_eq

theorem mergePass_filter (key : Nat → Int) (insize : Nat) (t : Int) :
    ∀ (n : Nat) (xs : List Nat), xs.length ≤ n → RunsSorted key insize xs →
      (mergePass key insize xs).filter (fun a => decide (key a = t)) =
        xs.filter (fun a => decide (key a = t)) := by
  intro n
  induction n with
  | zero =>
    intro xs hx _
    have : xs = [] := List.length_eq_zero.mp (by omega)
    subst this
    rw [mergePass_nil]
  | succ n ih =>
    intro xs hx hrs
    by_cases hc : xs = [] ∨ insize = 0
    · rw [mergePass, dif_pos hc]
    · push_neg at hc
      have hi : 0 < insize := by omega
      rw [mergePass_of_ne hc.1 hi]
      have hlen : (xs.drop (2 * insize)).length ≤ n := by
        have := List.length_pos.mpr hc.1
        simp only [List.length_drop]; omega
      have hrs' : RunsSorted key insize (xs.drop (2 * insize)) := by
        intro i
        have := hrs (i + 2)
        rw [List.drop_drop]
        have e : 2 * insize + i * insize = (i + 2) * insize := by ring
        rw [e]; exact this
      have h0 : SortedBy key (xs.take insize) := by
        have := hrs 0
        simpa using this
      rw [List.filter_append, mergeRuns_filter t _ _ h0, ih _ hlen hrs',
        ← List.filter_append, ← List.filter_append]
      congr 1
      rw [List.append_assoc, two_mul, ← List.drop_drop, List.take_append_drop,
        List.take_append_drop]

theorem runsSorted_one (key : Nat → Int) (xs : List Nat) : RunsSorted key 1 xs := by
  intro i
  unfold SortedBy
  have hlen : ((xs.drop (i * 1)).take 1).length ≤ 1 := by
    rw [List.length_take]; omega
  match hl : (xs.drop (i * 1)).take 1 with
  | [] => exact List.Pairwise.nil
  | [a] => exact List.pairwise_singleton _ _
  | a :: b :: l => rw [hl] at hlen; simp at hlen

theorem mergePass_runsSorted (key : Nat → Int) {insize : Nat} (hi : 0 < insize) :
    ∀ (n : Nat) (xs : List Nat), xs.length ≤ n → RunsSorted key insize xs →
      RunsSorted key (2 * insize) (mergePass key insize xs) := by
  intro n
  induction n with
  | zero =>
    intro xs hx _
    have : xs = [] := List.length_eq_zero.mp (by omega)
    subst this
    rw [mergePass_nil]
    intro i
    simp [SortedBy]
  | succ n ih =>
    intro xs hx hrs
    by_cases hc : xs = []
    · subst hc
      rw [mergePass_nil]
      intro i
      simp [SortedBy]
    · rw [mergePass_of_ne hc hi]
      have hlen : (xs.drop (2 * insize)).length ≤ n := by
        have := List.length_pos.mpr hc
        simp only [List.length_drop]; omega
      have hrs' : RunsSorted key insize (xs.drop (2 * insize)) := by
        intro i
        have := hrs (i + 2)
        rw [List.drop_drop]
        have e : 2 * insize + i * insize = (i + 2) * insize := by ring
        rw [e]; exact this
      have h0 : SortedBy key (xs.take insize) := by
        have := hrs 0
        simpa using this
      have h1 : SortedBy key ((xs.drop insize).take insize) := by
        have := hrs 1
        simpa using this
      have hM := mergeRuns_sorted h0 h1
      have hR := ih _ hlen hrs'
      have hMlen : (mergeRuns key (xs.take insize) ((xs.drop insize).take insize)).length =
          min (2 * insize) xs.length := by
        rw [(mergeRuns_perm _ _ _).length_eq]
        simp only [List.length_append, List.length_take, List.length_drop]
        omega
      intro i
      by_cases hfull : 2 * insize ≤ xs.length
      · -- the first merged run has full length
        have hMlen' : (mergeRuns key (xs.take insize) ((xs.drop insize).take insize)).length =
            2 * insize := by rw [hMlen]; omega
        cases i with
        | zero =>
          simp only [Nat.zero_mul, List.drop_zero]
          rw [List.take_append_of_le_length (by omega), List.take_of_length_le (by omega)]
          exact hM
        | succ j =>
          have e : (j + 1) * (2 * insize) =
              (mergeRuns key (xs.take insize) ((xs.drop insize).take insize)).length +
                j * (2 * insize) := by rw [hMlen']; ring
          rw [e, List.drop_append]
          exact hR j
      · -- the list ends inside the first merged run
        have hd : xs.drop (2 * insize) = [] := List.drop_eq_nil_of_le (by omega)
        rw [hd, mergePass_nil, List.append_nil]
        cases i with
        | zero =>
          simp only [Nat.zero_mul, List.drop_zero]
          rw [List.take_of_length_le (by omega)]
          exact hM
        | succ j =>
          have : (mergeRuns key (xs.take insize) ((xs.drop insize).take insize)).drop
              ((j + 1) * (2 * insize)) = [] := by
            apply List.drop_eq_nil_of_le
            rw [hMlen]
            have : 2 * insize ≤ (j + 1) * (2 * insize) := Nat.le_mul_of_pos_left _ (by omega)
            omega
          rw [this]
          simp [SortedBy]

theorem sortedBy_of_runsSorted {key : Nat → Int} {k : Nat} {xs : List Nat}
    (hrs : RunsSorted key k xs) (hlen : xs.length ≤ k) : SortedBy key xs := by
  have := hrs 0
  simp only [Nat.zero_mul, List.drop_zero] at this
  rwa [List.take_of_length_le hlen] at this

theorem numMerges_le_one {insize : Nat} {xs : List Nat} (hi : 0 < insize)
    (h : numMerges insize xs ≤ 1) : xs.length ≤ 2 * insize := by
  by_cases hc : xs = []
  · subst hc; simp
  · rw [numMerges_of_ne hc hi] at h
    by_contra hlt
    have hne : xs.drop (2 * insize) ≠ [] := by
      intro h0
      have := congrArg List.length h0
      simp only [List.length_drop, List.length_nil] at this
      omega
    rw [numMerges_of_ne hne hi] at h
    omega

theorem numMerges_of_le {insize : Nat} {xs : List Nat}
    (h : xs.length ≤ 2 * insize) : numMerges insize xs ≤ 1 := by
  by_cases hc : xs = [] ∨ insize = 0
  · rw [numMerges, dif_pos hc]; omega
  · push_neg at hc
    rw [numMerges_of_ne hc.1 (by omega), List.drop_eq_nil_of_le h, numMerges_nil]

theorem two_numMerges_le {insize : Nat} (hi : 0 < insize) :
    ∀ (n : Nat) (xs : List Nat), xs.length ≤ n → 2 * numMerges insize xs ≤ xs.length + 1 := by
  intro n
  induction n with
  | zero =>
    intro xs hx
    have : xs = [] := List.length_eq_zero.mp (by omega)
    subst this
    rw [numMerges_nil]; omega
  | succ n ih =>
    intro xs hx
    by_cases hc : xs = []
    · subst hc; rw [numMerges_nil]; omega
    · rw [numMerges_of_ne hc hi]
      have hpos := List.length_pos.mpr hc
      by_cases hfull : 2 * insize ≤ xs.length
      · have := ih (xs.drop (2 * insize)) (by simp only [List.length_drop]; omega)
        simp only [List.length_drop] at this
        omega
      · rw [List.drop_eq_nil_of_le (by omega), numMerges_nil]
        omega

theorem length_le_of_nodup_of_lt {xs : List Nat} {n : Nat} (hnd : xs.Nodup)
    (hlt : ∀ a ∈ xs, a < n) : xs.length ≤ n := by
  have hsub : xs ⊆ List.range n := fun a ha => List.mem_range.mpr (hlt a ha)
  have := (List.subperm_of_subset hnd hsub).length_le
  simpa using this

/-! ## The outer loop of `sortrecmap` -/

theorem out_close {h : Heap} {top tail : Option Nat} {out : List Nat}
    (ho : Out h top tail out) (hne : out ≠ []) (hnd : out.Nodup) :
    ∃ t h1, tail = some t ∧ setNext h t none = some h1 ∧ IsList h1 top out ∧
      out.getLast? = some t ∧ SameData h h1 := by
  rcases ho with ⟨rfl, _, _⟩ | ⟨init, t, rfl, rfl, hseg, ht⟩
  · exact absurd rfl hne
  · obtain ⟨h1, hs⟩ := setNext_of_lt none ht
    have hr : h[t]? = some h[t] := List.getElem?_eq_getElem ht
    have htn : t ∉ init := by
      intro hmem
      exact (List.nodup_append.mp hnd).2.2 hmem (List.mem_singleton_self t)
    refine ⟨t, h1, rfl, hs, ?_, by simp, sameData_setNext hs⟩
    refine seg_append (seg_frame (fun a ha => setNext_ne hs ?_) hseg) ?_
    · rintro rfl; exact htn ha
    · rw [seg_cons]
      exact ⟨rfl, _, setNext_self hs hr, rfl⟩

theorem sortLoop_spec : ∀ (fuel : Nat) (h : Heap) (top : Option Nat) (insize : Nat)
    (xs : List Nat), 0 < insize → IsList h top xs → xs ≠ [] →
    RunsSorted (endtimeOf h) insize xs →
    ∀ h1 top1 tail1, sortLoop fuel h top insize = some (h1, top1, tail1) →
      SortResult h xs h1 top1 tail1 := by
  intro fuel
  induction fuel with
  | zero => intro h top insize xs _ _ _ _ h1 top1 tail1 hr; simp [sortLoop] at hr
  | succ f ih =>
    intro h top insize xs hi hl hne hrs h1 top1 tail1 hr
    have hnd : xs.Nodup := isList_nodup hl
    have hlen : xs.length ≤ h.length := length_le_of_nodup_of_lt hnd (seg_valid hl)
    rcases passLoop_spec hi h.length
        { h := h, p := top, top := none, tail := none, nmerges := 0 } [] xs
        (by simpa using hnd) (out_nil h) hl hlen with ⟨_, hnone⟩ | ⟨s, hs, ho, hn, hsd⟩
    · simp [sortLoop, hnone] at hr
    · have ho' : Out s.h s.top s.tail (mergePass (endtimeOf h) insize xs) := by
        simpa using ho
      have hn' : s.nmerges = numMerges insize xs := by simpa using hn
      have hsd' : SameData h s.h := hsd
      have hperm := mergePass_perm (endtimeOf h) insize xs.length xs (le_refl _)
      have hne' : mergePass (endtimeOf h) insize xs ≠ [] := by
        intro h0
        rw [h0] at hperm
        exact hne (List.Perm.nil_eq hperm).symm
      obtain ⟨t, h2, ht, hset, hl2, hlast, hsd2⟩ :=
        out_close ho' hne' (hperm.nodup_iff.mpr hnd)
      have hfil := fun t => mergePass_filter (endtimeOf h) insize t
        xs.length xs (le_refl _) hrs
      have hrs2 := mergePass_runsSorted (endtimeOf h) hi xs.length xs (le_refl _) hrs
      simp only [sortLoop, hs, ht, hset] at hr
      by_cases hm : s.nmerges ≤ 1
      · rw [if_pos hm] at hr
        have hr' := Option.some.inj hr
        simp only [Prod.mk.injEq] at hr'
        obtain ⟨rfl, rfl, rfl⟩ := hr'
        refine ⟨_, hl2, hlast.symm, hperm, ?_, hfil, hsd'.trans hsd2⟩
        refine sortedBy_of_runsSorted hrs2 ?_
        rw [mergePass_length]
        exact numMerges_le_one hi (by rw [← hn']; exact hm)
      · rw [if_neg hm] at hr
        by_cases hov : insize * 2 > INT_MAX
        · rw [if_pos hov] at hr; cases hr
        · rw [if_neg hov] at hr
          have hkey : endtimeOf h2 = endtimeOf h := sameData_endtimeOf_eq (hsd'.trans hsd2)
          obtain ⟨ys, hys, hlastys, hpermys, hsorted, hfilys, hsdys⟩ :=
            ih h2 s.top (insize * 2) _ (by omega) hl2 hne'
              (by rw [hkey, Nat.mul_comm]; exact hrs2) h1 top1 tail1 hr
          rw [hkey] at hsorted hfilys
          exact ⟨ys, hys, hlastys, hpermys.trans hperm, hsorted,
            fun t => (hfilys t).trans (hfil t), (hsd'.trans hsd2).trans hsdys⟩

theorem sortLoop_total : ∀ (fuel : Nat) (h : Heap) (top : Option Nat) (insize : Nat)
    (xs : List Nat), 0 < insize → IsList h top xs → xs ≠ [] →
    xs.length ≤ 2 ^ 31 → xs.length ≤ insize * 2 ^ fuel → 0 < fuel →
    ∃ r, sortLoop fuel h top insize = some r := by
  intro fuel
  induction fuel with
  | zero => intro h top insize xs _ _ _ _ _ hf; omega
  | succ f ih =>
    intro h top insize xs hi hl hne hbig hlenf _
    have hnd : xs.Nodup := isList_nodup hl
    have hlen : xs.length ≤ h.length := length_le_of_nodup_of_lt hnd (seg_valid hl)
    have h2n := two_numMerges_le hi xs.length xs (le_refl _)
    rcases passLoop_spec hi h.length
        { h := h, p := top, top := none, tail := none, nmerges := 0 } [] xs
        (by simpa using hnd) (out_nil h) hl hlen with ⟨hov, _⟩ | ⟨s, hs, ho, hn, hsd⟩
    · exfalso
      have : INT_MAX < 0 + numMerges insize xs := hov
      have e : (2:Nat) ^ 31 = 2147483648 := by norm_num
      unfold INT_MAX at this
      omega
    · have ho' : Out s.h s.top s.tail (mergePass (endtimeOf h) insize xs) := by
        simpa using ho
      have hn' : s.nmerges = numMerges insize xs := by simpa using hn
      have hperm := mergePass_perm (endtimeOf h) insize xs.length xs (le_refl _)
      have hne' : mergePass (endtimeOf h) insize xs ≠ [] := by
        intro h0
        rw [h0] at hperm
        exact hne (List.Perm.nil_eq hperm).symm
      obtain ⟨t, h2, ht, hset, hl2, _, _⟩ :=
        out_close ho' hne' (hperm.nodup_iff.mpr hnd)
      simp only [sortLoop, hs, ht, hset]
      by_cases hm : s.nmerges ≤ 1
      · rw [if_pos hm]; exact ⟨_, rfl⟩
      · rw [if_neg hm]
        have hgt : 2 * insize < xs.length := by
          by_contra hle
          exact hm (by rw [hn']; exact numMerges_of_le (by omega))
        have hov : ¬ insize * 2 > INT_MAX := by
          have e : (2:Nat) ^ 31 = 2147483648 := by norm_num
          unfold INT_MAX
          omega
        rw [if_neg hov]
        have hf : 0 < f := by
          rcases Nat.eq_zero_or_pos f with h0 | h0
          · subst h0; simp at hlenf; omega
          · exact h0
        refine ih h2 s.top (insize * 2) _ (by omega) hl2 hne' ?_ ?_ hf
        · rw [mergePass_length]; exact hbig
        · rw [mergePass_length]
          calc xs.length ≤ insize * 2 ^ (f + 1) := hlenf
            _ = insize * 2 * 2 ^ f := by ring

/-! ## `sortrecmap`: order, stability, frame -/

theorem sortrecmap_spec {h : Heap} {m : RecordMap} {xs : List Nat} (hwf : WellFormed h m xs)
    {ret : Int} {h1 : Heap} {om1 : Option RecordMap}
    (hs : sortrecmap h (some m) = some (ret, h1, om1)) :
    ret = 0 ∧ ∃ m1, om1 = some m1 ∧ m1.recordcnt = m.recordcnt ∧
      SortResult h xs h1 m1.first m1.last := by
  obtain ⟨hl, hlast⟩ := hwf
  unfold sortrecmap at hs
  simp only at hs
  cases xs with
  | nil =>
    have hf : m.first = none := hl
    rw [if_pos (Or.inl hf)] at hs
    have hs' := Option.some.inj hs
    simp only [Prod.mk.injEq] at hs'
    obtain ⟨rfl, rfl, rfl⟩ := hs'
    refine ⟨rfl, m, rfl, rfl, [], hl, by simpa using hlast, List.Perm.refl _, ?_, fun _ => rfl,
      SameData.refl _⟩
    exact List.Pairwise.nil
  | cons a r =>
    have hf : m.first = some a := (seg_cons.mp hl).1
    have hla : m.last ≠ none := by
      rw [hlast]
      intro h0
      rw [List.getLast?_eq_none_iff] at h0
      cases h0
    have hc : ¬ (m.first = none ∨ m.last = none) := by
      rw [hf]; simp [hla]
    rw [if_neg hc] at hs
    cases hloop : sortLoop 32 h m.first 1 with
    | none => rw [hloop] at hs; cases hs
    | some res =>
      obtain ⟨h2, top, tail⟩ := res
      rw [hloop] at hs
      have hs' := Option.some.inj hs
      simp only [Prod.mk.injEq] at hs'
      obtain ⟨rfl, rfl, rfl⟩ := hs'
      exact ⟨rfl, _, rfl, rfl, sortLoop_spec 32 h m.first 1 (a :: r) (by omega) hl
        (List.cons_ne_nil _ _) (runsSorted_one _ _) _ _ _ hloop⟩

theorem sortrecmap_total {h : Heap} {m : RecordMap} {xs : List Nat} (hwf : WellFormed h m xs)
    (hlen : xs.length ≤ 2 ^ 31) :
    ∃ h1 m1, sortrecmap h (some m) = some (0, h1, some m1) := by
  have hl := hwf.1
  by_cases hc : m.first = none ∨ m.last = none
  · exact ⟨h, m, by simp [sortrecmap, hc]⟩
  · have hne : xs ≠ [] := by
      rintro rfl
      exact hc (Or.inl hl)
    obtain ⟨⟨h2, top, tail⟩, hr⟩ := sortLoop_total 32 h m.first 1 xs (by omega) hl hne hlen
      (by
        have : (2:Nat) ^ 31 ≤ 1 * 2 ^ 32 := by norm_num
        omega) (by omega)
    exact ⟨h2, { m with first := top, last := tail }, by simp [sortrecmap, hc, hr]⟩

theorem sortedBy_chain' {key : Nat → Int} {xs : List Nat} (hs : SortedBy key xs) :
    List.Chain' (fun a b => key a ≤ key b) xs :=
  List.Pairwise.chain' hs

theorem isList_getLast {h : Heap} {xs : List Nat} :
    ∀ {p : Option Nat} {t : Nat}, IsList h p xs → xs.getLast? = some t →
      ∃ r, h[t]? = some r ∧ r.next = none := by
  induction xs with
  | nil => intro p t _ ht; simp at ht
  | cons a xs ih =>
    intro p t hl ht
    obtain ⟨_, r, hr, hrest⟩ := seg_cons.mp hl
    cases xs with
    | nil =>
      simp at ht
      subst ht
      exact ⟨r, hr, hrest⟩
    | cons b ys =>
      rw [List.getLast?_cons_cons] at ht
      exact ih hrest ht

theorem sameData_fields {h h1 : Heap} (s : SameData h h1) {a : Nat} {r : Record}
    (hr : h[a]? = some r) :
    ∃ r1, h1[a]? = some r1 ∧ r1.flp = r.flp ∧ r1.offset = r.offset ∧ r1.reclen = r.reclen ∧
      r1.starttime = r.starttime ∧ r1.endtime = r.endtime ∧ r1.prev = r.prev := by
  have := s.getElem? a
  rw [hr] at this
  cases h1a : h1[a]? with
  | none => rw [h1a] at this; cases this
  | some r1 =>
    rw [h1a] at this
    have e := Option.some.inj this
    simp only [Option.map_some', eraseNext] at e
    refine ⟨r1, rfl, ?_⟩
    have := congrArg Record.flp e
    have := congrArg Record.offset e
    have := congrArg Record.reclen e
    have := congrArg Record.starttime e
    have := congrArg Record.endtime e
    have := congrArg Record.prev e
    simp_all

/-- C1: for every well-formed record map (a finite `next`-chain from `first`
ending at `last`), once `sortrecmap` has returned 0 every two adjacent entries
`a`, `b` of the chain from `first` satisfy `a.endtime ≤ b.endtime`; and it does
return 0 whenever the chain has at most `2^31` entries. -/
theorem sortrecmap_sorted (h : Heap) (m : RecordMap) (xs : List Nat)
    (hwf : WellFormed h m xs) :
    (xs.length ≤ 2 ^ 31 → ∃ h1 m1, sortrecmap h (some m) = some (0, h1, some m1)) ∧
    ∀ h1 m1, sortrecmap h (some m) = some (0, h1, some m1) →
      ∃ ys, WellFormed h1 m1 ys ∧
        List.Chain' (fun a b => endtimeOf h1 a ≤ endtimeOf h1 b) ys := by
  refine ⟨sortrecmap_total hwf, ?_⟩
  intro h1 m1 hs
  obtain ⟨_, m2, hm2, _, ys, hl, hlast, _, hsorted, _, hsd⟩ := sortrecmap_spec hwf hs
  cases hm2
  refine ⟨ys, ⟨hl, hlast⟩, ?_⟩
  rw [sameData_endtimeOf_eq hsd]
  exact sortedBy_chain' hsorted

/-- Witness of C1 on a five-record index. -/
theorem sortrecmap_sorted_witness :
    WellFormed exHeap5 exMap5 [0, 1, 2, 3, 4] ∧
    ((([0, 1, 2, 3, 4] : List Nat).length ≤ 2 ^ 31 →
        ∃ h1 m1, sortrecmap exHeap5 (some exMap5) = some (0, h1, some m1)) ∧
      ∀ h1 m1, sortrecmap exHeap5 (some exMap5) = some (0, h1, some m1) →
        ∃ ys, WellFormed h1 m1 ys ∧
          List.Chain' (fun a b => endtimeOf h1 a ≤ endtimeOf h1 b) ys) :=
  ⟨by decide, sortrecmap_sorted exHeap5 exMap5 [0, 1, 2, 3, 4] (by decide)⟩

/-- C2: `sortrecmap` is stable.  For a well-formed record map with chain `xs`,
after `sortrecmap` has returned 0 with chain `ys`: whenever `x` precedes `y` in
`xs` and both have the same end time, `x` precedes `y` in `ys`; in particular
when all end times are equal the chain keeps its order.  It does return 0
whenever the chain has at most `2^31` entries. -/
theorem sortrecmap_stable (h : Heap) (m : RecordMap) (xs : List Nat)
    (hwf : WellFormed h m xs) :
    (xs.length ≤ 2 ^ 31 → ∃ h1 m1, sortrecmap h (some m) = some (0, h1, some m1)) ∧
    ∀ h1 m1, sortrecmap h (some m) = some (0, h1, some m1) →
      ∃ ys, WellFormed h1 m1 ys ∧
        (∀ x y, endtimeOf h x = endtimeOf h y → List.Sublist [x, y] xs →
          List.Sublist [x, y] ys) ∧
        ((∀ x ∈ xs, ∀ y ∈ xs, endtimeOf h x = endtimeOf h y) → ys = xs) := by
  refine ⟨sortrecmap_total hwf, ?_⟩
  intro h1 m1 hs
  obtain ⟨_, m2, hm2, _, ys, hl, hlast, hperm, _, hfil, _⟩ := sortrecmap_spec hwf hs
  cases hm2
  refine ⟨ys, ⟨hl, hlast⟩, ?_, ?_⟩
  · intro x y hxy hsub
    have h1 := hsub.filter (fun a => decide (endtimeOf h a = endtimeOf h x))
    have h2 : [x, y].filter (fun a => decide (endtimeOf h a = endtimeOf h x)) = [x, y] := by
      simp [hxy]
    rw [h2, ← hfil] at h1
    exact h1.trans (List.filter_sublist _)
  · intro hall
    cases xs with
    | nil => exact List.Perm.eq_nil hperm
    | cons a r =>
      have hx : (a :: r).filter (fun b => decide (endtimeOf h b = endtimeOf h a)) = a :: r := by
        rw [List.filter_eq_self]
        intro b hb
        simpa using hall b hb a (List.mem_cons_self _ _)
      have hy : ys.filter (fun b => decide (endtimeOf h b = endtimeOf h a)) = ys := by
        rw [List.filter_eq_self]
        intro b hb
        simpa using hall b (hperm.mem_iff.mp hb) a (List.mem_cons_self _ _)
      rw [← hy, hfil, hx]

/-- Witness of C2 on a five-record index with two equal end times. -/
theorem sortrecmap_stable_witness :
    WellFormed exHeap5 exMap5 [0, 1, 2, 3, 4] ∧
    ((([0, 1, 2, 3, 4] : List Nat).length ≤ 2 ^ 31 →
        ∃ h1 m1, sortrecmap exHeap5 (some exMap5) = some (0, h1, some m1)) ∧
      ∀ h1 m1, sortrecmap exHeap5 (some exMap5) = some (0, h1, some m1) →
        ∃ ys, WellFormed h1 m1 ys ∧
          (∀ x y, endtimeOf exHeap5 x = endtimeOf exHeap5 y →
            List.Sublist [x, y] [0, 1, 2, 3, 4] → List.Sublist [x, y] ys) ∧
          ((∀ x ∈ ([0, 1, 2, 3, 4] : List Nat), ∀ y ∈ ([0, 1, 2, 3, 4] : List Nat),
            endtimeOf exHeap5 x = endtimeOf exHeap5 y) → ys = [0, 1, 2, 3, 4])) :=
  ⟨by decide, sortrecmap_stable exHeap5 exMap5 [0, 1, 2, 3, 4] (by decide)⟩

/-- C3: `sortrecmap` only re-links entries.  For a well-formed record map with
chain `xs`, after `sortrecmap` has returned 0 the chain `ys` from `first` is a
permutation of `xs` of the same length, it ends at `last` whose `next` is
empty, `recordcnt` is unchanged (so it still equals the length when it did
before), and every record keeps its file reference, offset, reclen, starttime
and endtime (and `prev`).  It does return 0 whenever the chain has at most
`2^31` entries. -/
theorem sortrecmap_relinks (h : Heap) (m : RecordMap) (xs : List Nat)
    (hwf : WellFormed h m xs) :
    (xs.length ≤ 2 ^ 31 → ∃ h1 m1, sortrecmap h (some m) = some (0, h1, some m1)) ∧
    ∀ h1 m1, sortrecmap h (some m) = some (0, h1, some m1) →
      ∃ ys, WellFormed h1 m1 ys ∧ ys.Perm xs ∧ ys.length = xs.length ∧
        (∀ t, m1.last = some t → ∃ r : Record, h1[t]? = some r ∧ r.next = none) ∧
        m1.recordcnt = m.recordcnt ∧
        (m.recordcnt = xs.length → m1.recordcnt = ys.length) ∧
        h1.length = h.length ∧
        ∀ (a : Nat) (r : Record), h[a]? = some r →
          ∃ r1 : Record, h1[a]? = some r1 ∧ r1.flp = r.flp ∧ r1.offset = r.offset ∧
            r1.reclen = r.reclen ∧ r1.starttime = r.starttime ∧ r1.endtime = r.endtime ∧
            r1.prev = r.prev := by
  refine ⟨sortrecmap_total hwf, ?_⟩
  intro h1 m1 hs
  obtain ⟨_, m2, hm2, hcnt, ys, hl, hlast, hperm, _, _, hsd⟩ := sortrecmap_spec hwf hs
  cases hm2
  refine ⟨ys, ⟨hl, hlast⟩, hperm, hperm.length_eq, ?_, hcnt, ?_, hsd.length, ?_⟩
  · intro t ht
    exact isList_getLast hl (by rw [← hlast]; exact ht)
  · intro hc
    rw [hcnt, hc, hperm.length_eq]
  · intro a r hr
    exact sameData_fields hsd hr

/-- Witness of C3 on a five-record index. -/
theorem sortrecmap_relinks_witness :
    WellFormed exHeap5 exMap5 [0, 1, 2, 3, 4] ∧
    ((([0, 1, 2, 3, 4] : List Nat).length ≤ 2 ^ 31 →
        ∃ h1 m1, sortrecmap exHeap5 (some exMap5) = some (0, h1, some m1)) ∧
      ∀ h1 m1, sortrecmap exHeap5 (some exMap5) = some (0, h1, some m1) →
        ∃ ys, WellFormed h1 m1 ys ∧ ys.Perm [0, 1, 2, 3, 4] ∧
          ys.length = ([0, 1, 2, 3, 4] : List Nat).length ∧
          (∀ t, m1.last = some t → ∃ r : Record, h1[t]? = some r ∧ r.next = none) ∧
          m1.recordcnt = exMap5.recordcnt ∧
          (exMap5.recordcnt = ([0, 1, 2, 3, 4] : List Nat).length →
            m1.recordcnt = ys.length) ∧
          h1.length = exHeap5.length ∧
          ∀ (a : Nat) (r : Record), exHeap5[a]? = some r →
            ∃ r1 : Record, h1[a]? = some r1 ∧ r1.flp = r.flp ∧ r1.offset = r.offset ∧
              r1.reclen = r.reclen ∧ r1.starttime = r.starttime ∧
              r1.endtime = r.endtime ∧ r1.prev = r.prev) :=
  ⟨by decide, sortrecmap_relinks exHeap5 exMap5 [0, 1, 2, 3, 4] (by decide)⟩

/-- C8 (failing input): on the two-record index `exHeap2`, whose `prev` links
are correct before the sort, `sortrecmap` returns 0 with `first` the record at
address 1, whose `prev` still points to address 0, and that record's `next` is
address 0 whose `prev` is still empty: `prev` is never re-linked. -/
theorem sortrecmap_prev_stale :
    ∃ h1 m1, sortrecmap exHeap2 (some exMap2) = some (0, h1, some m1) ∧
      m1.first = some 1 ∧ m1.last = some 0 ∧
      (h1[1]?).map (fun r => r.prev) = some (some 0) ∧
      (h1[1]?).map (fun r => r.next) = some (some 0) ∧
      (h1[0]?).map (fun r => r.prev) = some none :=
  ⟨[ { flp := 0, offset := 0, reclen := 512, starttime := 0, endtime := 2,
       prev := none, next := none },
     { flp := 0, offset := 512, reclen := 512, starttime := 0, endtime := 1,
       prev := some 0, next := some 0 } ],
   { recordcnt := 2, first := some 1, last := some 0 }, by decide, rfl, rfl, rfl, rfl, rfl⟩

/-! ## `readfiles` -/

theorem linkedHeap_length (acc : List (Nat × MSRecord)) :
    (linkedHeap acc).length = acc.length := by
  simp [linkedHeap]

theorem linkedHeap_getElem? (acc : List (Nat × MSRecord)) (i : Nat) :
    (linkedHeap acc)[i]? = (acc[i]?).map (linkedRecord acc.length i) := by
  unfold linkedHeap
  rw [List.getElem?_zipWith]
  by_cases hi : i < acc.length
  · rw [List.getElem?_range hi, List.getElem?_eq_getElem hi]
    rfl
  · rw [List.getElem?_eq_none (l := acc) (by omega)]
    cases (List.range acc.length)[i]? <;> rfl

theorem setPrev_eq {h : Heap} {a : Nat} {r : Record} (v : Option Nat) (hr : h[a]? = some r) :
    setPrev h a v = some (h.set a { r with prev := v }) := by
  simp [setPrev, hr]

theorem appendRecord_linked (acc : List (Nat × MSRecord)) (c : Int) (flp : Nat)
    (msr : MSRecord) :
    appendRecord (linkedHeap acc) (linkedMap c acc.length) flp msr =
      some (linkedHeap (acc ++ [(flp, msr)]), linkedMap c (acc ++ [(flp, msr)]).length) := by
  have hlen := linkedHeap_length acc
  unfold appendRecord
  simp only [hlen]
  rcases Nat.eq_zero_or_pos acc.length with h0 | hpos
  · -- first record
    have hacc : acc = [] := List.length_eq_zero.mp h0
    subst hacc
    simp [linkedMap, linkedHeap, linkedRecord, setPrev, List.range_succ]
  · -- the list has a last record
    have hlast : (linkedMap c acc.length).last = some (acc.length - 1) := by
      simp [linkedMap, Nat.pos_iff_ne_zero.mp hpos]
    have hfirst : (linkedMap c acc.length).first = some 0 := by
      simp [linkedMap, Nat.pos_iff_ne_zero.mp hpos]
    rw [hlast, hfirst]
    simp only [reduceCtorEq, if_false]
    have hl1 : (acc.length - 1) < acc.length := by omega
    have hr1 : (linkedHeap acc ++
        [({ flp := flp, offset := msr.fpos, reclen := msr.reclen,
            starttime := msr.starttime, endtime := msr.endtime,
            prev := none, next := none } : Record)])[acc.length - 1]? =
        some (linkedRecord acc.length (acc.length - 1) acc[acc.length - 1]) := by
      rw [List.getElem?_append_left (by rw [hlen]; exact hl1), linkedHeap_getElem?,
        List.getElem?_eq_getElem hl1]
      rfl
    rw [setNext_eq _ hr1]
    simp only
    have hr2 : ((linkedHeap acc ++
        [({ flp := flp, offset := msr.fpos, reclen := msr.reclen,
            starttime := msr.starttime, endtime := msr.endtime,
            prev := none, next := none } : Record)]).set (acc.length - 1)
          { linkedRecord acc.length (acc.length - 1) acc[acc.length - 1] with
            next := some acc.length })[acc.length]? =
        some { flp := flp, offset := msr.fpos, reclen := msr.reclen,
               starttime := msr.starttime, endtime := msr.endtime,
               prev := none, next := none } := by
      rw [List.getElem?_set_ne (by omega), List.getElem?_append_right (by rw [hlen])]
      simp [hlen]
    rw [setPrev_eq _ hr2]
    simp only [Option.some.injEq, Prod.mk.injEq]
    refine ⟨?_, ?_⟩
    · apply List.ext_getElem?
      intro i
      rw [linkedHeap_getElem?]
      simp only [List.length_append, List.length_singleton]
      by_cases hi : i = acc.length
      · subst hi
        rw [List.getElem?_set_eq_of_lt _ (by simp [hlen])]
        simp [linkedRecord]
        exact List.ne_nil_of_length_pos hpos
      · rw [List.getElem?_set_ne (by omega)]
        by_cases hi1 : i = acc.length - 1
        · subst hi1
          rw [List.getElem?_set_eq_of_lt _ (by simp [hlen]; omega)]
          rw [List.getElem?_append_left hl1, List.getElem?_eq_getElem hl1]
          simp only [Option.map_some', linkedRecord, Option.some.injEq]
          have e1 : acc.length - 1 + 1 = acc.length := by omega
          simp [e1]
        · rw [List.getElem?_set_ne (by omega)]
          by_cases hlt : i < acc.length
          · rw [List.getElem?_append_left (by rw [hlen]; exact hlt),
              List.getElem?_append_left hlt, linkedHeap_getElem?,
              List.getElem?_eq_getElem hlt]
            simp only [Option.map_some', linkedRecord, Option.some.injEq]
            have e1 : i + 1 < acc.length := by omega
            have e2 : i + 1 < acc.length + 1 := by omega
            simp [e1, e2]
          · rw [List.getElem?_eq_none (by simp [hlen]; omega),
              List.getElem?_eq_none (by simp; omega)]
            rfl
    · simp [linkedMap, Nat.pos_iff_ne_zero.mp hpos]
      ring

theorem accepts_eq_true {cfg : Config} {msr : MSRecord} :
    accepts cfg msr = true ↔
      skipStarttime cfg msr.starttime msr.endtime = false ∧
      skipEndtime cfg msr.starttime msr.endtime = false ∧
      skipMatch cfg msr.srcname = false ∧ skipReject cfg msr.srcname = false := by
  simp [accepts, and_assoc]

theorem readRecords_linked (cfg : Config) (env : ReadEnv) (flp : Nat) (c : Int) :
    ∀ (recs : List MSRecord) (acc : List (Nat × MSRecord)),
      ∃ ok new,
        readRecords cfg env flp recs (linkedHeap acc) (linkedMap c acc.length) =
          some (ok, linkedHeap (acc ++ new), linkedMap c (acc ++ new).length) ∧
        (ok = true → new = (recs.filter (accepts cfg)).map (fun msr => (flp, msr))) ∧
        ((∀ n, n < acc.length + (recs.filter (accepts cfg)).length → env.malloc n = true) →
          ok = true) := by
  intro recs
  induction recs with
  | nil =>
    intro acc
    exact ⟨true, [], by simp [readRecords], fun _ => rfl, fun _ => rfl⟩
  | cons msr rest ih =>
    intro acc
    by_cases hacc : accepts cfg msr = true
    · obtain ⟨h1, h2, h3, h4⟩ := accepts_eq_true.mp hacc
      by_cases hm : env.malloc acc.length = true
      · obtain ⟨ok, new, hr, hok, hmal⟩ := ih (acc ++ [(flp, msr)])
        refine ⟨ok, (flp, msr) :: new, ?_, ?_, ?_⟩
        · simp only [readRecords, h1, h2, h3, h4, linkedHeap_length, hm, if_true,
            appendRecord_linked, Bool.false_eq_true, if_false]
          simpa [List.append_assoc] using hr
        · intro hk
          rw [hok hk, List.filter_cons_of_pos hacc]
          rfl
        · intro hall
          apply hmal
          intro n hn
          apply hall
          rw [List.filter_cons_of_pos hacc]
          simp only [List.length_append, List.length_cons, List.length_nil] at hn ⊢
          omega
      · refine ⟨false, [], ?_, ?_, ?_⟩
        · simp [readRecords, h1, h2, h3, h4, linkedHeap_length, hm]
        · intro hk; cases hk
        · intro hall
          exfalso
          apply hm
          apply hall
          rw [List.filter_cons_of_pos hacc]
          simp
    · obtain ⟨ok, new, hr, hok, hmal⟩ := ih acc
      have hskip : readRecords cfg env flp (msr :: rest) (linkedHeap acc)
          (linkedMap c acc.length) =
          readRecords cfg env flp rest (linkedHeap acc) (linkedMap c acc.length) := by
        have hn : ¬ (skipStarttime cfg msr.starttime msr.endtime = false ∧
            skipEndtime cfg msr.starttime msr.endtime = false ∧
            skipMatch cfg msr.srcname = false ∧ skipReject cfg msr.srcname = false) :=
          fun h => hacc (accepts_eq_true.mpr h)
        simp only [readRecords]
        by_cases h1 : skipStarttime cfg msr.starttime msr.endtime = true
        · rw [if_pos h1]
        · rw [if_neg h1]
          by_cases h2 : skipEndtime cfg msr.starttime msr.endtime = true
          · rw [if_pos h2]
          · rw [if_neg h2]
            by_cases h3 : skipMatch cfg msr.srcname = true
            · rw [if_pos h3]
            · rw [if_neg h3]
              by_cases h4 : skipReject cfg msr.srcname = true
              · rw [if_pos h4]
              · exfalso
                exact hn ⟨by simpa using h1, by simpa using h2, by simpa using h3,
                  by simpa using h4⟩
      refine ⟨ok, new, by rw [hskip]; exact hr, ?_, ?_⟩
      · intro hk
        rw [hok hk, List.filter_cons_of_neg hacc]
      · intro hall
        apply hmal
        intro n hn
        apply hall
        rw [List.filter_cons_of_neg hacc]
        exact hn

theorem acceptedFrom_append (cfg : Config) (env : ReadEnv) :
    ∀ (l1 l2 : List Filelink) (flp : Nat),
      acceptedFrom cfg env (l1 ++ l2) flp =
        acceptedFrom cfg env l1 flp ++ acceptedFrom cfg env l2 (flp + l1.length) := by
  intro l1
  induction l1 with
  | nil => intro l2 flp; simp [acceptedFrom]
  | cons f fs ih =>
    intro l2 flp
    rw [List.cons_append]
    simp only [acceptedFrom, ih, List.append_assoc, List.length_cons]
    rw [show flp + (fs.length + 1) = flp + 1 + fs.length by omega]

theorem readFilesFrom_linked (cfg : Config) (env : ReadEnv) (c : Int) :
    ∀ (fs : List Filelink) (flp : Nat) (acc : List (Nat × MSRecord)),
      ∃ ret new,
        readFilesFrom cfg env fs flp (linkedHeap acc) (linkedMap c acc.length) =
          some (ret, linkedHeap (acc ++ new), linkedMap c (acc ++ new).length) ∧
        (ret = 0 ∨ ret = -1) ∧
        (ret = 0 → (∀ f ∈ fs, (env.decode f.infilename).final = FinalStatus.endoffile) ∧
          new = acceptedFrom cfg env fs flp) ∧
        ((∀ n, n < acc.length + (acceptedFrom cfg env fs flp).length → env.malloc n = true) →
          (∀ f ∈ fs, (env.decode f.infilename).final = FinalStatus.endoffile) → ret = 0) := by
  intro fs
  induction fs with
  | nil =>
    intro flp acc
    exact ⟨0, [], by simp [readFilesFrom], Or.inl rfl,
      fun _ => ⟨by simp, by simp [acceptedFrom]⟩, fun _ _ => rfl⟩
  | cons f fs ih =>
    intro flp acc
    obtain ⟨ok, new, hr, hok, hmal⟩ :=
      readRecords_linked cfg env flp c (env.decode f.infilename).records acc
    cases ok with
    | false =>
      refine ⟨-1, new, by simp [readFilesFrom, hr], Or.inr rfl, ?_, ?_⟩
      · intro h0; cases h0
      · intro hall _
        have : false = true := hmal (fun n hn => hall n (by
          simp only [acceptedFrom, List.length_append, List.length_map]
          omega))
        cases this
    | true =>
      have hnew := hok rfl
      cases hfin : (env.decode f.infilename).final with
      | error code =>
        refine ⟨-1, new, by simp [readFilesFrom, hr, hfin], Or.inr rfl, ?_, ?_⟩
        · intro h0; cases h0
        · intro _ heof
          have := heof f (List.mem_cons_self _ _)
          rw [hfin] at this
          cases this
      | endoffile =>
        obtain ⟨ret, new2, hr2, hret, hzero, hmal2⟩ := ih (flp + 1) (acc ++ new)
        refine ⟨ret, new ++ new2, ?_, hret, ?_, ?_⟩
        · simp only [readFilesFrom, hr, hfin]
          simpa [List.append_assoc] using hr2
        · intro h0
          obtain ⟨ha, hb⟩ := hzero h0
          refine ⟨?_, by simp only [acceptedFrom, hnew, hb]⟩
          intro g hg
          rcases List.mem_cons.mp hg with rfl | hg
          · exact hfin
          · exact ha g hg
        · intro hall heof
          apply hmal2
          · intro n hn
            apply hall
            simp only [acceptedFrom, List.length_append, List.length_map, hnew] at hn ⊢
            omega
          · intro g hg
            exact heof g (List.mem_cons_of_mem _ hg)

theorem readRecords_skip {cfg : Config} (env : ReadEnv) (flp : Nat) {msr : MSRecord}
    (rest : List MSRecord) (h : Heap) (m : RecordMap) (hacc : ¬ accepts cfg msr = true) :
    readRecords cfg env flp (msr :: rest) h m = readRecords cfg env flp rest h m := by
  have hn : ¬ (skipStarttime cfg msr.starttime msr.endtime = false ∧
      skipEndtime cfg msr.starttime msr.endtime = false ∧
      skipMatch cfg msr.srcname = false ∧ skipReject cfg msr.srcname = false) :=
    fun h => hacc (accepts_eq_true.mpr h)
  simp only [readRecords]
  by_cases h1 : skipStarttime cfg msr.starttime msr.endtime = true
  · rw [if_pos h1]
  · rw [if_neg h1]
    by_cases h2 : skipEndtime cfg msr.starttime msr.endtime = true
    · rw [if_pos h2]
    · rw [if_neg h2]
      by_cases h3 : skipMatch cfg msr.srcname = true
      · rw [if_pos h3]
      · rw [if_neg h3]
        by_cases h4 : skipReject cfg msr.srcname = true
        · rw [if_pos h4]
        · exfalso
          exact hn ⟨by simpa using h1, by simpa using h2, by simpa using h3,
            by simpa using h4⟩

theorem readRecords_accept {cfg : Config} (env : ReadEnv) (flp : Nat) {msr : MSRecord}
    (rest : List MSRecord) (h : Heap) (m : RecordMap) (hacc : accepts cfg msr = true) :
    readRecords cfg env flp (msr :: rest) h m =
      if env.malloc h.length then
        match appendRecord h m flp msr with
        | none => none
        | some (h1, m1) => readRecords cfg env flp rest h1 m1
      else some (false, h, m) := by
  obtain ⟨h1, h2, h3, h4⟩ := accepts_eq_true.mp hacc
  simp [readRecords, h1, h2, h3, h4]

theorem readRecords_malloc (cfg : Config) (env : ReadEnv) (flp : Nat) (c : Int) :
    ∀ (recs : List MSRecord) (acc : List (Nat × MSRecord)) (h1 : Heap) (m1 : RecordMap),
      readRecords cfg env flp recs (linkedHeap acc) (linkedMap c acc.length) =
        some (true, h1, m1) →
      ∀ n, acc.length ≤ n → n < acc.length + (recs.filter (accepts cfg)).length →
        env.malloc n = true := by
  intro recs
  induction recs with
  | nil => intro acc h1 m1 _ n h1 h2; simp at h2; omega
  | cons msr rest ih =>
    intro acc h1 m1 hr n hn1 hn2
    by_cases hacc : accepts cfg msr = true
    · rw [readRecords_accept env flp rest _ _ hacc, linkedHeap_length] at hr
      rw [List.filter_cons_of_pos hacc] at hn2
      simp only [List.length_cons] at hn2
      by_cases hm : env.malloc acc.length = true
      · rw [if_pos hm, appendRecord_linked] at hr
        simp only at hr
        by_cases hn : n = acc.length
        · rw [hn]; exact hm
        · refine ih (acc ++ [(flp, msr)]) h1 m1 hr n ?_ ?_
          · simp only [List.length_append, List.length_cons, List.length_nil]; omega
          · simp only [List.length_append, List.length_cons, List.length_nil]; omega
      · rw [if_neg hm] at hr
        simp at hr
    · rw [readRecords_skip env flp rest _ _ hacc] at hr
      rw [List.filter_cons_of_neg hacc] at hn2
      exact ih acc h1 m1 hr n hn1 hn2

theorem readFilesFrom_malloc (cfg : Config) (env : ReadEnv) (c : Int) :
    ∀ (fs : List Filelink) (flp : Nat) (acc : List (Nat × MSRecord)) (h1 : Heap)
      (m1 : RecordMap),
      readFilesFrom cfg env fs flp (linkedHeap acc) (linkedMap c acc.length) =
        some (0, h1, m1) →
      ∀ n, acc.length ≤ n → n < acc.length + (acceptedFrom cfg env fs flp).length →
        env.malloc n = true := by
  intro fs
  induction fs with
  | nil => intro flp acc h1 m1 _ n h1 h2; simp [acceptedFrom] at h2; omega
  | cons f fs ih =>
    intro flp acc h1 m1 hr n hn1 hn2
    obtain ⟨ok, new, hrec, hok, _⟩ :=
      readRecords_linked cfg env flp c (env.decode f.infilename).records acc
    simp only [readFilesFrom, hrec] at hr
    cases ok with
    | false => simp at hr
    | true =>
      simp only at hr
      have hnew := hok rfl
      cases hfin : (env.decode f.infilename).final with
      | error code => rw [hfin] at hr; simp at hr
      | endoffile =>
        rw [hfin] at hr
        simp only at hr
        simp only [acceptedFrom, List.length_append, List.length_map] at hn2
        by_cases hlt : n < acc.length +
            ((env.decode f.infilename).records.filter (accepts cfg)).length
        · exact readRecords_malloc cfg env flp c _ acc _ _ hrec n hn1 hlt
        · refine ih (flp + 1) (acc ++ new) h1 m1 hr n ?_ ?_
          · rw [hnew]; simp only [List.length_append, List.length_map]; omega
          · rw [hnew]; simp only [List.length_append, List.length_map]; omega

theorem readFilesFrom_error (cfg : Config) (env : ReadEnv) (c : Int) :
    ∀ (pre : List Filelink) (f : Filelink) (post : List Filelink) (code : Int) (flp : Nat)
      (acc : List (Nat × MSRecord)),
      (∀ g ∈ pre, (env.decode g.infilename).final = FinalStatus.endoffile) →
      (env.decode f.infilename).final = FinalStatus.error code →
      (∀ n, n < acc.length + (acceptedFrom cfg env (pre ++ [f]) flp).length →
        env.malloc n = true) →
      readFilesFrom cfg env (pre ++ f :: post) flp (linkedHeap acc) (linkedMap c acc.length) =
        some (-1, linkedHeap (acc ++ acceptedFrom cfg env (pre ++ [f]) flp),
          linkedMap c (acc ++ acceptedFrom cfg env (pre ++ [f]) flp).length) := by
  intro pre
  induction pre with
  | nil =>
    intro f post code flp acc _ hfin hall
    obtain ⟨ok, new, hr, hok, hmal⟩ :=
      readRecords_linked cfg env flp c (env.decode f.infilename).records acc
    have hokt : ok = true := hmal (fun n hn => hall n (by
      simp only [List.nil_append, acceptedFrom, List.length_append, List.length_map,
        List.length_nil]
      omega))
    subst hokt
    have hnew := hok rfl
    simp only [List.nil_append, readFilesFrom, hr, hfin, acceptedFrom, List.append_nil, hnew]
  | cons g pre ih =>
    intro f post code flp acc heof hfin hall
    rw [List.cons_append] at hall ⊢
    rw [List.cons_append]
    obtain ⟨ok, new, hr, hok, hmal⟩ :=
      readRecords_linked cfg env flp c (env.decode g.infilename).records acc
    have hokt : ok = true := hmal (fun n hn => hall n (by
      simp only [acceptedFrom, List.length_append, List.length_map]
      omega))
    subst hokt
    have hnew := hok rfl
    have hg := heof g (List.mem_cons_self _ _)
    have := ih f post code (flp + 1) (acc ++ new)
      (fun x hx => heof x (List.mem_cons_of_mem _ hx)) hfin (fun n hn => hall n (by
        simp only [acceptedFrom, List.length_append, List.length_map, hnew] at hn ⊢
        omega))
    subst hnew
    simp only [readFilesFrom, hr, hg, acceptedFrom]
    rw [this, List.append_assoc]

theorem seg_linkedHeap (acc : List (Nat × MSRecord)) :
    ∀ (k i : Nat), i + k = acc.length →
      Seg (linkedHeap acc) (if k = 0 then none else some i) (List.range' i k) none := by
  intro k
  induction k with
  | zero => intro i _; simp [Seg]
  | succ k ih =>
    intro i hik
    have hi : i < acc.length := by omega
    rw [List.range'_succ, seg_cons]
    refine ⟨by simp, linkedRecord acc.length i acc[i], ?_, ?_⟩
    · rw [linkedHeap_getElem?, List.getElem?_eq_getElem hi]; rfl
    · have := ih (i + 1) (by omega)
      by_cases hk : k = 0
      · subst hk
        have e : ¬ (i + 1 < acc.length) := by omega
        simpa [linkedRecord, e] using this
      · have e : i + 1 < acc.length := by omega
        simpa [linkedRecord, e, hk] using this

theorem wellFormed_linked (acc : List (Nat × MSRecord)) (c : Int) :
    WellFormed (linkedHeap acc) (linkedMap c acc.length) (List.range acc.length) := by
  constructor
  · have := seg_linkedHeap acc acc.length 0 (by omega)
    rw [List.range_eq_range']
    unfold IsList
    by_cases h0 : acc.length = 0
    · simpa [linkedMap, h0] using this
    · simpa [linkedMap, h0] using this
  · by_cases h0 : acc.length = 0
    · simp [linkedMap, h0]
    · obtain ⟨n, hn⟩ := Nat.exists_eq_succ_of_ne_zero h0
      rw [hn, List.range_succ]
      simp [linkedMap]

theorem linkedHeap_entryData (acc : List (Nat × MSRecord)) (i : Nat) (x : Nat × MSRecord)
    (hx : acc[i]? = some x) :
    ∃ r : Record, (linkedHeap acc)[i]? = some r ∧ entryData r = msrData x := by
  refine ⟨linkedRecord acc.length i x, ?_, rfl⟩
  rw [linkedHeap_getElem?, hx]
  rfl

theorem emptyMap_eq : emptyMap = linkedMap 0 ([] : List (Nat × MSRecord)).length := by
  simp [emptyMap, linkedMap]

theorem readfiles_linked (cfg : Config) (env : ReadEnv) (filelist : List Filelink) :
    ∃ ret new,
      readfiles cfg env filelist [] emptyMap =
        some (ret, linkedHeap new, linkedMap 0 new.length) ∧
      (ret = 0 ∨ ret = -1) ∧
      (ret = 0 → (∀ f ∈ filelist, (env.decode f.infilename).final = FinalStatus.endoffile) ∧
        new = acceptedFrom cfg env filelist 0) ∧
      ((∀ n, n < (acceptedFrom cfg env filelist 0).length → env.malloc n = true) →
        (∀ f ∈ filelist, (env.decode f.infilename).final = FinalStatus.endoffile) →
        ret = 0) := by
  obtain ⟨ret, new, hr, hret, hzero, hmal⟩ := readFilesFrom_linked cfg env 0 filelist 0 []
  refine ⟨ret, new, ?_, hret, hzero, ?_⟩
  · unfold readfiles
    rw [emptyMap_eq]
    simpa [linkedHeap] using hr
  · intro hall heof
    exact hmal (by simpa using hall) heof

/-- C4 (counterexample): every example file decodes to end-of-file and three
records pass the filters, but with an allocator that fails `readfiles` returns
-1 and the record map stays empty. -/
theorem readfiles_index_counterexample :
    (∀ f ∈ exFiles, (exReadEnvNoMem.decode f.infilename).final = FinalStatus.endoffile) ∧
    (acceptedFrom exConfig exReadEnvNoMem exFiles 0).length = 3 ∧
    readfiles exConfig exReadEnvNoMem exFiles [] emptyMap = some (-1, [], emptyMap) ∧
    emptyMap.recordcnt = 0 := by
  decide

/-- C4 (amended): when every input file decodes to end-of-file and no `Record`
allocation fails, `readfiles` returns 0 and the record map it builds from the
empty map is exactly the records that pass the four tests, in file-list order
and then in-file order: the chain from `first` visits the addresses
`0, 1, ...`, the entry at address `i` carries the file, byte offset, record
length, start time and end time of the `i`-th such record, and `recordcnt` is
their number. -/
theorem readfiles_index (cfg : Config) (env : ReadEnv) (filelist : List Filelink)
    (heof : ∀ f ∈ filelist, (env.decode f.infilename).final = FinalStatus.endoffile)
    (hmalloc : ∀ n, n < (acceptedFrom cfg env filelist 0).length → env.malloc n = true) :
    ∃ h m, readfiles cfg env filelist [] emptyMap = some (0, h, m) ∧
      WellFormed h m (List.range (acceptedFrom cfg env filelist 0).length) ∧
      (∀ (i : Nat) (x : Nat × MSRecord), (acceptedFrom cfg env filelist 0)[i]? = some x →
        ∃ r : Record, h[i]? = some r ∧ entryData r = msrData x) ∧
      m.recordcnt = (acceptedFrom cfg env filelist 0).length := by
  obtain ⟨ret, new, hr, _, hzero, hmal⟩ := readfiles_linked cfg env filelist
  have h0 : ret = 0 := hmal hmalloc heof
  subst h0
  obtain ⟨_, hnew⟩ := hzero rfl
  subst hnew
  refine ⟨_, _, hr, wellFormed_linked _ 0, ?_, by simp [linkedMap]⟩
  intro i x hx
  exact linkedHeap_entryData _ i x hx

/-- Witness of C4 (amended) on the example files. -/
theorem readfiles_index_witness :
    (∀ f ∈ exFiles, (exReadEnv.decode f.infilename).final = FinalStatus.endoffile) ∧
    (∀ n, n < (acceptedFrom exConfig exReadEnv exFiles 0).length →
      exReadEnv.malloc n = true) ∧
    ∃ h m, readfiles exConfig exReadEnv exFiles [] emptyMap = some (0, h, m) ∧
      WellFormed h m (List.range (acceptedFrom exConfig exReadEnv exFiles 0).length) ∧
      (∀ (i : Nat) (x : Nat × MSRecord),
        (acceptedFrom exConfig exReadEnv exFiles 0)[i]? = some x →
        ∃ r : Record, h[i]? = some r ∧ entryData r = msrData x) ∧
      m.recordcnt = (acceptedFrom exConfig exReadEnv exFiles 0).length :=
  ⟨by decide, by decide,
    readfiles_index exConfig exReadEnv exFiles (by decide) (by decide)⟩

/-- C5: the start-time test of `readfiles` lets a record `(start, end)` pass if
and only if the start bound is unset (`HPTERROR`), or `start ≥ bound`, or
`start ≤ bound ≤ end`; a record that fails it is not indexed.  With bound 15
the record (10, 20) passes and the record (10, 14) does not. -/
theorem starttime_filter (cfg : Config) (recstart recend : Int) :
    (skipStarttime cfg recstart recend = false ↔
      (cfg.starttime = HPTERROR ∨ recstart ≥ cfg.starttime ∨
        (recstart ≤ cfg.starttime ∧ cfg.starttime ≤ recend))) ∧
    (∀ (env : ReadEnv) (flp : Nat) (msr : MSRecord) (rest : List MSRecord) (h : Heap)
        (m : RecordMap), skipStarttime cfg msr.starttime msr.endtime = true →
      readRecords cfg env flp (msr :: rest) h m = readRecords cfg env flp rest h m) ∧
    skipStarttime { cfg with starttime := 15 } 10 20 = false ∧
    skipStarttime { cfg with starttime := 15 } 10 14 = true := by
  refine ⟨?_, ?_, by simp [skipStarttime, HPTERROR], by simp [skipStarttime, HPTERROR]⟩
  · unfold skipStarttime
    simp only [Bool.and_eq_false_imp, decide_eq_true_eq, Bool.not_eq_false',
      Bool.and_eq_true, ge_iff_le]
    constructor
    · intro h
      by_cases h1 : cfg.starttime = HPTERROR
      · exact Or.inl h1
      · by_cases h2 : recstart < cfg.starttime
        · exact Or.inr (Or.inr (h h1 h2))
        · exact Or.inr (Or.inl (by omega))
    · rintro (h | h | h) h1 h2
      · exact absurd h h1
      · omega
      · exact h
  · intro env flp msr rest h m hs
    simp [readRecords, hs]

/-- C6: the end-time test of `readfiles` lets a record `(start, end)` pass if
and only if the end bound is unset (`HPTERROR`), or `end ≤ bound`, or
`start ≤ bound ≤ end`; a record that passes the start-time test and fails this
one is not indexed. -/
theorem endtime_filter (cfg : Config) (recstart recend : Int) :
    (skipEndtime cfg recstart recend = false ↔
      (cfg.endtime = HPTERROR ∨ recend ≤ cfg.endtime ∨
        (recstart ≤ cfg.endtime ∧ cfg.endtime ≤ recend))) ∧
    (∀ (env : ReadEnv) (flp : Nat) (msr : MSRecord) (rest : List MSRecord) (h : Heap)
        (m : RecordMap), skipStarttime cfg msr.starttime msr.endtime = false →
      skipEndtime cfg msr.starttime msr.endtime = true →
      readRecords cfg env flp (msr :: rest) h m = readRecords cfg env flp rest h m) := by
  refine ⟨?_, ?_⟩
  · unfold skipEndtime
    simp only [Bool.and_eq_false_imp, decide_eq_true_eq, Bool.not_eq_false',
      Bool.and_eq_true, ge_iff_le, gt_iff_lt]
    constructor
    · intro h
      by_cases h1 : cfg.endtime = HPTERROR
      · exact Or.inl h1
      · by_cases h2 : cfg.endtime < recend
        · exact Or.inr (Or.inr (h h1 h2))
        · exact Or.inr (Or.inl (by omega))
    · rintro (h | h | h) h1 h2
      · exact absurd h h1
      · omega
      · exact h
  · intro env flp msr rest h m hs he
    simp [readRecords, hs, he]

/-- C9 (counterexample): every example file decodes to end-of-file, yet with an
allocator that fails at the third record `readfiles` returns -1. -/
theorem readfiles_status_counterexample :
    (∀ f ∈ exFiles, (exReadEnvLowMem.decode f.infilename).final = FinalStatus.endoffile) ∧
    (acceptedFrom exConfig exReadEnvLowMem exFiles 0).length = 3 ∧
    (readfiles exConfig exReadEnvLowMem exFiles [] emptyMap).map
      (fun r => (r.1, r.2.2.recordcnt)) = some (-1, 2) := by
  decide

/-- C9 (amended): from the empty map `readfiles` returns 0 or -1, and 0 if and
only if the decoder ends every input file with end-of-file and no `Record`
allocation fails.  At the
first file for which the decoder reports another status it returns -1, and
(no allocation failing) the result holds exactly the records accepted up to
that status and is the same whatever files follow.  A run in which every
record is filtered out returns 0 with the empty index. -/
theorem readfiles_status (cfg : Config) (env : ReadEnv) (filelist : List Filelink) :
    ∃ ret h m, readfiles cfg env filelist [] emptyMap = some (ret, h, m) ∧
      (ret = 0 ∨ ret = -1) ∧
      (ret = 0 ↔
        (∀ f ∈ filelist, (env.decode f.infilename).final = FinalStatus.endoffile) ∧
        (∀ n, n < (acceptedFrom cfg env filelist 0).length → env.malloc n = true)) ∧
      (∀ (pre : List Filelink) (f : Filelink) (post : List Filelink) (code : Int),
        filelist = pre ++ f :: post →
        (∀ g ∈ pre, (env.decode g.infilename).final = FinalStatus.endoffile) →
        (env.decode f.infilename).final = FinalStatus.error code →
        ret = -1 ∧
        ((∀ n, n < (acceptedFrom cfg env (pre ++ [f]) 0).length → env.malloc n = true) →
          m.recordcnt = (acceptedFrom cfg env (pre ++ [f]) 0).length ∧
          ∀ post2, readfiles cfg env (pre ++ f :: post2) [] emptyMap = some (-1, h, m))) ∧
      ((∀ f ∈ filelist, (env.decode f.infilename).final = FinalStatus.endoffile) →
        acceptedFrom cfg env filelist 0 = [] → ret = 0 ∧ h = [] ∧ m = emptyMap) := by
  obtain ⟨ret, new, hr, hret, hzero, hmal⟩ := readfiles_linked cfg env filelist
  refine ⟨ret, _, _, hr, hret, ⟨fun h0 => ⟨(hzero h0).1, ?_⟩, fun hc => hmal hc.2 hc.1⟩,
    ?_, ?_⟩
  · intro n hn
    subst h0
    have hr2 := hr
    unfold readfiles at hr2
    rw [emptyMap_eq] at hr2
    exact readFilesFrom_malloc cfg env 0 filelist 0 [] _ _ (by simpa [linkedHeap] using hr2)
      n (by simp) (by simpa using hn)
  · intro pre f post code hfl hpre hfin
    have hne : ret ≠ 0 := by
      intro h0
      have := (hzero h0).1 f (by rw [hfl]; simp)
      rw [hfin] at this
      cases this
    have hm1 : ret = -1 := by
      rcases hret with h | h
      · exact absurd h hne
      · exact h
    refine ⟨hm1, ?_⟩
    intro hall
    have herr := fun post2 => readFilesFrom_error cfg env 0 pre f post2 code 0 [] hpre hfin
      (by simpa using hall)
    have hr2 : readfiles cfg env filelist [] emptyMap =
        some (-1, linkedHeap (acceptedFrom cfg env (pre ++ [f]) 0),
          linkedMap 0 (acceptedFrom cfg env (pre ++ [f]) 0).length) := by
      unfold readfiles
      rw [hfl, emptyMap_eq]
      simpa [linkedHeap] using herr post
    rw [hr2] at hr
    have hinj := Option.some.inj hr
    simp only [Prod.mk.injEq] at hinj
    obtain ⟨_, hh, hmm⟩ := hinj
    rw [← hh, ← hmm]
    refine ⟨by simp [linkedMap], ?_⟩
    intro post2
    unfold readfiles
    rw [emptyMap_eq]
    simpa [linkedHeap] using herr post2
  · intro heof hacc
    have h0 : ret = 0 := hmal (by rw [hacc]; intro n hn; simp at hn) heof
    have hnew := (hzero h0).2
    rw [hacc] at hnew
    subst hnew
    exact ⟨h0, by simp [linkedHeap], by simp [linkedMap, emptyMap]⟩

/-- Witness of C9 (amended): on the example files the run with a decoder error
at the end of `a.mseed` returns -1 with the two records accepted from that
file, and the run without errors returns 0. -/
theorem readfiles_status_witness :
    (readfiles exConfig exReadEnvBad exFiles [] emptyMap).map
      (fun r => (r.1, r.2.2.recordcnt)) = some (-1, 2) ∧
    (∃ h m, readfiles exConfig exReadEnv exFiles [] emptyMap = some (0, h, m)) := by
  obtain ⟨ret, h, m, hr, _, hz, _, _⟩ := readfiles_status exConfig exReadEnv exFiles
  have h0 : ret = 0 := hz.mpr ⟨by decide, by decide⟩
  subst h0
  exact ⟨by decide, h, m, hr⟩

/-! ## `writerecords` -/

theorem fileRecords_append (l1 l2 : List Event) :
    fileRecords (l1 ++ l2) = fileRecords l1 ++ fileRecords l2 := by
  induction l1 with
  | nil => rfl
  | cons e l ih => cases e <;> simp [fileRecords, ih]

theorem sentRecords_append (l1 l2 : List Event) :
    sentRecords (l1 ++ l2) = sentRecords l1 ++ sentRecords l2 := by
  induction l1 with
  | nil => rfl
  | cons e l ih =>
    cases e with
    | send b s t ok => cases ok <;> simp [sentRecords, ih]
    | _ => simp [sentRecords, ih]

theorem setInfp_names (files : List Filelink) (i : Nat) (v : Option Nat) :
    (setInfp files i v).map (fun f => f.infilename) = files.map (fun f => f.infilename) := by
  unfold setInfp
  cases hf : files[i]? with
  | none => rfl
  | some f =>
    apply List.ext_getElem?
    intro j
    simp only [List.getElem?_map]
    by_cases hj : i = j
    · subst hj
      have hlt : i < files.length := by
        by_contra hge
        rw [List.getElem?_eq_none (by omega)] at hf
        cases hf
      simp [List.getElem?_set, hlt, hf]
    · rw [List.getElem?_set_ne hj]

theorem names_getElem? {files : List Filelink} {names : List String}
    (hn : files.map (fun f => f.infilename) = names) (i : Nat) :
    names[i]? = (files[i]?).map (fun f => f.infilename) := by
  rw [← hn, List.getElem?_map]

theorem fetch_ok {env : WriteEnv} {r : Record} {files : List Filelink} {names : List String}
    {buf : List Nat} (hn : files.map (fun f => f.infilename) = names)
    (hs : sourceBytes env names r = some buf) :
    ∃ files1, fetch env r files = some (files1, some buf) ∧
      files1.map (fun f => f.infilename) = names := by
  unfold sourceBytes at hs
  by_cases hb : bufferTooSmall r = true
  · simp [hb] at hs
  · rw [if_neg hb, names_getElem? hn] at hs
    cases hf : files[r.flp]? with
    | none => simp [hf] at hs
    | some f =>
      simp only [hf, Option.map_some'] at hs
      by_cases hseek : env.seekable f.infilename = false ∨ r.offset < 0
      · simp [hseek] at hs
      · rw [if_neg hseek] at hs
        have hc : ¬ (f.infp = none ∧ env.content f.infilename = none) := by
          rintro ⟨_, hc⟩
          rw [hc] at hs
          cases hs
        refine ⟨setInfp files r.flp (some (r.offset.toNat + r.reclen.toNat)), ?_, ?_⟩
        · unfold fetch
          rw [if_neg hb]
          simp only [hf]
          rw [if_neg hc, if_neg hseek, hs]
        · rw [setInfp_names]; exact hn

theorem fetch_fail {env : WriteEnv} {r : Record} {files : List Filelink} {names : List String}
    (hn : files.map (fun f => f.infilename) = names) (hflp : r.flp < names.length)
    (hs : sourceBytes env names r = none) :
    ∃ files1, fetch env r files = some (files1, none) ∧
      files1.map (fun f => f.infilename) = names := by
  unfold sourceBytes at hs
  unfold fetch
  by_cases hb : bufferTooSmall r = true
  · exact ⟨files, by rw [if_pos hb], hn⟩
  · rw [if_neg hb, names_getElem? hn] at hs
    rw [if_neg hb]
    have hlt : r.flp < files.length := by
      rw [← hn] at hflp; simpa using hflp
    have hf : files[r.flp]? = some files[r.flp] := List.getElem?_eq_getElem hlt
    rw [hf] at hs
    simp only [Option.map_some'] at hs
    simp only [hf]
    by_cases hc : files[r.flp].infp = none ∧ env.content files[r.flp].infilename = none
    · exact ⟨files, by rw [if_pos hc], hn⟩
    · rw [if_neg hc]
      by_cases hseek : env.seekable files[r.flp].infilename = false ∨ r.offset < 0
      · exact ⟨_, by rw [if_pos hseek], by rw [setInfp_names]; exact hn⟩
      · rw [if_neg hseek] at hs ⊢
        rw [hs]
        exact ⟨_, rfl, by rw [setInfp_names]; exact hn⟩

theorem quiet_refl (w : World) : Quiet w w [] :=
  ⟨[], by simp, rfl, rfl, rfl, rfl, rfl⟩

theorem quiet_trans {w w1 w2 : World} {s1 s2 : List (List Nat)}
    (a : Quiet w w1 s1) (b : Quiet w1 w2 s2) : Quiet w w2 (s1 ++ s2) := by
  obtain ⟨e1, hl1, hf1, hs1, hfl1, hso1, hfw1⟩ := a
  obtain ⟨e2, hl2, hf2, hs2, hfl2, hso2, hfw2⟩ := b
  refine ⟨e1 ++ e2, by rw [hl2, hl1, List.append_assoc], ?_, ?_, by rw [hfl2, hfl1],
    by rw [hso2, hso1], by rw [hfw2, hfw1]⟩
  · rw [fileRecords_append, hf1, hf2]; rfl
  · rw [sentRecords_append, hs1, hs2]

theorem pace_ok {cfg : Config} (env : WriteEnv) (r : Record) (w : World) (offset : Int)
    (hp : PacingDefined cfg) :
    ∃ w1 offset1, pace cfg env r w offset = some (w1, offset1) ∧ Quiet w w1 [] := by
  unfold pace
  by_cases hd : cfg.streamdelay = true
  · obtain ⟨hnum, hden⟩ := hp hd
    rw [if_pos hd]
    simp only []
    have hu : ¬ (cfg.delayfactor.num ≤ 0 ∨ cfg.delayfactor.den = 0) := by omega
    by_cases hsn : (if offset = HPTERROR then env.gethptime w.clockReads - r.endtime
        else offset) - (env.gethptime w.clockReads - r.endtime) > 0
    · rw [if_pos hsn]
      simp only [usleepArg, if_neg hu]
      exact ⟨_, _, rfl, [Event.usleep _], rfl, rfl, rfl, rfl, rfl, rfl⟩
    · rw [if_neg hsn]
      exact ⟨_, _, rfl, [], by simp, rfl, rfl, rfl, rfl, rfl⟩
  · rw [if_neg hd]
    exact ⟨_, _, rfl, quiet_refl w⟩

theorem reconnect_quiet (env : WriteEnv) (w : World) : Quiet w (reconnect env w) [] := by
  unfold reconnect
  cases hl : w.link <;> cases hc : env.dlconnect w.dlconnects
  · simp only [hc, if_false, Bool.false_eq_true]
    exact ⟨[Event.connect false, Event.sleep 10], rfl, rfl, rfl, rfl, rfl, rfl⟩
  · simp only [hc, if_true, if_false, Bool.false_eq_true]
    exact ⟨[Event.connect true], rfl, rfl, rfl, rfl, rfl, rfl⟩
  · simp only [hc, if_true, if_false, Bool.false_eq_true]
    exact ⟨[Event.disconnect, Event.connect false, Event.sleep 10],
      by simp, rfl, rfl, rfl, rfl, rfl⟩
  · simp only [hc, if_true]
    exact ⟨[Event.disconnect, Event.connect true], by simp, rfl, rfl, rfl, rfl, rfl⟩

theorem reconnect_dlwrites (env : WriteEnv) (w : World) :
    (reconnect env w).dlwrites = w.dlwrites := by
  unfold reconnect
  cases hl : w.link <;> cases hc : env.dlconnect w.dlconnects <;>
    simp only [hc, if_true, if_false, Bool.false_eq_true]

theorem sendLoop_ok (env : WriteEnv) (buf : List Nat) (r : Record) :
    ∀ (fuel : Nat) (w : World), (∃ j, j < fuel ∧ env.dlwrite (w.dlwrites + j) = DlResult.ok) →
      ∃ w1, sendLoop env buf r fuel w = some w1 ∧ Quiet w w1 [buf] := by
  intro fuel
  induction fuel with
  | zero => rintro w ⟨j, hj, _⟩; omega
  | succ f ih =>
    rintro w ⟨j, hj, hok⟩
    cases hres : env.dlwrite w.dlwrites with
    | ok =>
      refine ⟨({ w with dlwrites := w.dlwrites + 1,
                        log := w.log ++ [Event.send buf r.starttime r.endtime true] } : World),
        by simp only [sendLoop, hres], [Event.send buf r.starttime r.endtime true],
        rfl, rfl, rfl, rfl, rfl, rfl⟩
    | failed linkUp =>
      have hj0 : j ≠ 0 := by
        rintro rfl
        rw [Nat.add_zero, hres] at hok
        cases hok
      have hloop : sendLoop env buf r (f + 1) w =
          sendLoop env buf r f (reconnect env (afterFailedSend buf r linkUp w)) := by
        simp only [sendLoop, hres, afterFailedSend]
      have hq := reconnect_quiet env (afterFailedSend buf r linkUp w)
      have hdw := reconnect_dlwrites env (afterFailedSend buf r linkUp w)
      obtain ⟨w1, hs, hq1⟩ := ih (reconnect env (afterFailedSend buf r linkUp w))
        ⟨j - 1, by omega, by
          rw [hdw]
          show env.dlwrite (w.dlwrites + 1 + (j - 1)) = DlResult.ok
          have : w.dlwrites + 1 + (j - 1) = w.dlwrites + j := by omega
          rw [this]; exact hok⟩
      refine ⟨w1, by rw [hloop, hs], ?_⟩
      have hq0 : Quiet w (afterFailedSend buf r linkUp w) [] :=
        ⟨[Event.send buf r.starttime r.endtime false], rfl, rfl, rfl, rfl, rfl, rfl⟩
      simpa using quiet_trans (quiet_trans hq0 hq) hq1

theorem deliver_ok (fuel : Nat) (cfg : Config) {env : WriteEnv} (ofp : Bool) {r : Record}
    {w : World} {names : List String} {buf : List Nat} (offset : Int)
    (hn : w.filelist.map (fun f => f.infilename) = names)
    (hs : sourceBytes env names r = some buf)
    (hw : ofp = true → env.fwriteOk w.fwrites = true)
    (hp : PacingDefined cfg) (hd : cfg.dlconn = true → SendsSucceed env fuel) :
    ∃ w1 offset1, deliver fuel cfg env ofp r w offset = some (true, w1, offset1) ∧
      Delivered names w w1 (if ofp then [buf] else []) (if cfg.dlconn then [buf] else []) := by
  obtain ⟨files1, hf, hn1⟩ := fetch_ok hn hs
  obtain ⟨wp, off1, hpace, evs, hlog, hfr, hsr, hfl, hso, hfw⟩ :=
    pace_ok env r { w with filelist := files1 } offset hp
  have hfw' : wp.fwrites = w.fwrites := hfw
  have hnofail : ¬ (ofp = true ∧ env.fwriteOk wp.fwrites = false) := by
    rintro ⟨ho, hfail⟩
    rw [hfw', hw ho] at hfail
    cases hfail
  -- the world after the write to the output file
  obtain ⟨w2, hw2, hq2, hdw2⟩ : ∃ w2 : World,
      (if ofp = true then
        ({ wp with fwrites := wp.fwrites + 1, log := wp.log ++ [Event.fwrite buf] } : World)
       else wp) = w2 ∧
      Delivered names w w2 (if ofp then [buf] else []) [] ∧ w2.dlwrites = wp.dlwrites := by
    have hlog' : wp.log = w.log ++ evs := hlog
    have hnames : wp.filelist.map (fun f => f.infilename) = names := by
      rw [← hn1]; exact congrArg _ hfl
    have hso' : wp.sinkOpen = w.sinkOpen := hso
    cases ofp with
    | true =>
      refine ⟨({ wp with fwrites := wp.fwrites + 1, log := wp.log ++ [Event.fwrite buf] } : World),
        by simp, ⟨hnames, ?_, ?_, ?_, hso'⟩, rfl⟩
      · show fileRecords (wp.log ++ [Event.fwrite buf]) = _
        rw [hlog', fileRecords_append, fileRecords_append, hfr]
        simp [fileRecords]
      · show sentRecords (wp.log ++ [Event.fwrite buf]) = _
        rw [hlog', sentRecords_append, sentRecords_append, hsr]
        simp [sentRecords]
      · show wp.fwrites + 1 = _
        rw [hfw']; simp
    | false =>
      refine ⟨wp, by simp, ⟨hnames, ?_, ?_, ?_, hso'⟩, rfl⟩
      · simp [hlog', fileRecords_append, hfr]
      · simp [hlog', sentRecords_append, hsr]
      · simp [hfw']
  -- the world after the delivery to the server
  obtain ⟨w3, hw3, hq3⟩ : ∃ w3 : World,
      (if cfg.dlconn = true then sendLoop env buf r fuel w2 else some w2) = some w3 ∧
      Delivered names w w3 (if ofp then [buf] else []) (if cfg.dlconn then [buf] else []) := by
    obtain ⟨h1, h2, h3, h4, h5⟩ := hq2
    cases hdl : cfg.dlconn with
    | true =>
      obtain ⟨j, hj, hok⟩ := hd hdl w2.dlwrites
      obtain ⟨w3, hsend, e3, hl3, hf3, hs3, hfl3, hso3, hfw3⟩ :=
        sendLoop_ok env buf r fuel w2 ⟨j, hj, hok⟩
      refine ⟨w3, by simp [hsend], ?_, ?_, ?_, ?_, ?_⟩
      · rw [hfl3]; exact h1
      · rw [hl3, fileRecords_append, hf3, h2]; simp
      · rw [hl3, sentRecords_append, hs3, h3]; simp
      · rw [hfw3]; exact h4
      · rw [hso3]; exact h5
    | false =>
      exact ⟨w2, by simp, h1, h2, by simpa using h3, h4, h5⟩
  obtain ⟨h1, h2, h3, h4, h5⟩ := hq3
  refine ⟨({ w3 with totalrecsout := (w3.totalrecsout + 1) % 18446744073709551616,
                     totalbytesout :=
                       (((w3.totalbytesout : Int) + r.reclen) % 18446744073709551616).toNat } :
      World), off1, ?_, ?_⟩
  · unfold deliver
    simp only [hf, hpace]
    rw [if_neg hnofail]
    simp only [hw2, hw3]
  · exact ⟨h1, h2, h3, h4, h5⟩

theorem deliver_fetch_fail (fuel : Nat) (cfg : Config) {env : WriteEnv} (ofp : Bool)
    {r : Record} {w : World} {names : List String} (offset : Int)
    (hn : w.filelist.map (fun f => f.infilename) = names) (hflp : r.flp < names.length)
    (hs : sourceBytes env names r = none) :
    ∃ w1 offset1, deliver fuel cfg env ofp r w offset = some (false, w1, offset1) ∧
      Delivered names w w1 [] [] := by
  obtain ⟨files1, hf, hn1⟩ := fetch_fail hn hflp hs
  refine ⟨{ w with filelist := files1 }, offset, ?_, hn1, by simp, by simp, rfl, rfl⟩
  unfold deliver
  simp only [hf]

theorem deliver_fwrite_fail (fuel : Nat) (cfg : Config) {env : WriteEnv}
    {r : Record} {w : World} {names : List String} {buf : List Nat} (offset : Int)
    (hn : w.filelist.map (fun f => f.infilename) = names)
    (hs : sourceBytes env names r = some buf)
    (hw : env.fwriteOk w.fwrites = false) (hp : PacingDefined cfg) :
    ∃ w1 offset1, deliver fuel cfg env true r w offset = some (false, w1, offset1) ∧
      w1.filelist.map (fun f => f.infilename) = names ∧
      fileRecords w1.log = fileRecords w.log ∧ sentRecords w1.log = sentRecords w.log ∧
      w1.sinkOpen = w.sinkOpen := by
  obtain ⟨files1, hf, hn1⟩ := fetch_ok hn hs
  obtain ⟨wp, off1, hpace, evs, hlog, hfr, hsr, hfl, hso, hfw⟩ :=
    pace_ok env r { w with filelist := files1 } offset hp
  have hfw' : wp.fwrites = w.fwrites := hfw
  have hfail : (true = true ∧ env.fwriteOk wp.fwrites = false) := ⟨rfl, by rw [hfw']; exact hw⟩
  refine ⟨{ wp with fwrites := wp.fwrites + 1 }, off1, ?_, ?_, ?_, ?_, hso⟩
  · simp [deliver, hf, hpace, hfail.2]
  · rw [← hn1]; exact congrArg _ hfl
  · show fileRecords wp.log = _
    rw [show wp.log = w.log ++ evs from hlog, fileRecords_append, hfr]; simp
  · show sentRecords wp.log = _
    rw [show wp.log = w.log ++ evs from hlog, sentRecords_append, hsr]; simp

theorem delivered_refl {names : List String} {w : World}
    (hn : w.filelist.map (fun f => f.infilename) = names) : Delivered names w w [] [] :=
  ⟨hn, by simp, by simp, rfl, rfl⟩

theorem delivered_trans {names : List String} {w w1 w2 : World}
    {f1 f2 s1 s2 : List (List Nat)}
    (a : Delivered names w w1 f1 s1) (b : Delivered names w1 w2 f2 s2) :
    Delivered names w w2 (f1 ++ f2) (s1 ++ s2) := by
  obtain ⟨_, a2, a3, a4, a5⟩ := a
  obtain ⟨b1, b2, b3, b4, b5⟩ := b
  refine ⟨b1, by rw [b2, a2, List.append_assoc], by rw [b3, a3, List.append_assoc], ?_,
    by rw [b5, a5]⟩
  rw [b4, a4, List.length_append]; omega

theorem writeLoop_prefix {fuel : Nat} {cfg : Config} {env : WriteEnv} {h : Heap} (ofp : Bool)
    {names : List String} (hp : PacingDefined cfg)
    (hd : cfg.dlconn = true → SendsSucceed env fuel) :
    ∀ (pre : List Nat) (rec q : Option Nat) (w : World) (offset : Int),
      Seg h rec pre q →
      w.filelist.map (fun f => f.infilename) = names →
      (∀ a ∈ pre, (recordBytes env names h a).isSome = true) →
      (ofp = true → ∀ i, i < pre.length → env.fwriteOk (w.fwrites + i) = true) →
      ∃ w1 offset1,
        (∀ k, writeLoop fuel cfg env h ofp (pre.length + k) rec w offset =
          writeLoop fuel cfg env h ofp k q w1 offset1) ∧
        Delivered names w w1 (if ofp then buffersOf env names h pre else [])
          (if cfg.dlconn then buffersOf env names h pre else []) := by
  intro pre
  induction pre with
  | nil =>
    intro rec q w offset hseg hn _ _
    have : rec = q := hseg
    subst this
    refine ⟨w, offset, fun k => by simp, ?_⟩
    simpa [buffersOf] using delivered_refl hn
  | cons a pre ih =>
    intro rec q w offset hseg hn hfetch hwr
    obtain ⟨hrec, r, hr, hrest⟩ := seg_cons.mp hseg
    subst hrec
    have hsome := hfetch a (List.mem_cons_self _ _)
    have hrb : recordBytes env names h a = sourceBytes env names r := by
      simp [recordBytes, hr]
    obtain ⟨buf, hbuf⟩ := Option.isSome_iff_exists.mp hsome
    have hsb : sourceBytes env names r = some buf := by rw [← hrb]; exact hbuf
    obtain ⟨w1, off1, hdel, hD⟩ := deliver_ok fuel cfg ofp
      offset hn hsb (fun ho => by simpa using hwr ho 0 (by simp)) hp hd
    obtain ⟨w2, off2, hloop, hD2⟩ := ih r.next q w1 off1 hrest hD.1
      (fun b hb => hfetch b (List.mem_cons_of_mem _ hb))
      (fun ho i hi => by
        have := hwr ho (i + 1) (by simp only [List.length_cons]; omega)
        have hf : w1.fwrites = w.fwrites + 1 := by
          have := hD.2.2.2.1
          simpa [ho] using this
        rw [hf]
        rw [show w.fwrites + 1 + i = w.fwrites + (i + 1) by omega]
        exact this)
    refine ⟨w2, off2, ?_, ?_⟩
    · intro k
      rw [show (a :: pre).length + k = (pre.length + k) + 1 by
        simp only [List.length_cons]; omega]
      simp only [writeLoop, hr, hdel]
      exact hloop k
    · have hb : buffersOf env names h (a :: pre) = buf :: buffersOf env names h pre := by
        simp [buffersOf, List.filterMap_cons, hbuf]
      have := delivered_trans hD hD2
      rw [hb]
      cases ofp <;> cases hdl : cfg.dlconn <;> simpa [hdl] using this

theorem writeLoop_none (fuel : Nat) (cfg : Config) (env : WriteEnv) (h : Heap) (ofp : Bool)
    (k : Nat) (w : World) (offset : Int) :
    writeLoop fuel cfg env h ofp k none w offset = some (false, w) := by
  cases k <;> simp [writeLoop]

theorem writerecords_opened {fuel : Nat} {cfg : Config} {env : WriteEnv} {h : Heap}
    {m : RecordMap} {w : World}
    (hopen : ∀ name, cfg.outputfile = some name → name = "-" ∨ env.fopenOut name = true) :
    writerecords fuel cfg env h (some m) w =
      (writeLoop fuel cfg env h cfg.outputfile.isSome h.length m.first
          (openedWorld cfg w) HPTERROR).map
        (fun p => (if p.1 then 1 else 0, closeAll cfg.outputfile.isSome p.2)) := by
  have key : ∀ (ofp : Bool) (w0 : World),
      (match writeLoop fuel cfg env h ofp h.length m.first w0 HPTERROR with
        | none => none
        | some (errflag, w1) => some ((if errflag then 1 else 0 : Int), closeAll ofp w1)) =
      (writeLoop fuel cfg env h ofp h.length m.first w0 HPTERROR).map
        (fun p => (if p.1 then 1 else 0, closeAll ofp p.2)) := by
    intro ofp w0
    cases writeLoop fuel cfg env h ofp h.length m.first w0 HPTERROR with
    | none => rfl
    | some p => rfl
  unfold writerecords openedWorld
  cases hout : cfg.outputfile with
  | none => simpa using key false w
  | some name =>
    rcases hopen name hout with h1 | h1
    · simpa [h1] using key true { w with sinkOpen := true }
    · by_cases hn : name = "-"
      · simpa [hn] using key true { w with sinkOpen := true }
      · simpa [hn, h1] using key true { w with sinkOpen := true }

theorem closeAll_spec (ofp : Bool) (w : World) :
    (∀ f ∈ (closeAll ofp w).filelist, f.infp = none) ∧
    (closeAll ofp w).filelist.map (fun f => f.infilename) =
      w.filelist.map (fun f => f.infilename) ∧
    (closeAll ofp w).log = w.log ∧
    (ofp = true → (closeAll ofp w).sinkOpen = false) := by
  refine ⟨?_, ?_, rfl, ?_⟩
  · intro f hf
    simp only [closeAll, List.mem_map] at hf
    obtain ⟨g, _, rfl⟩ := hf
    rfl
  · simp [closeAll]
  · intro ho
    simp [closeAll, ho]

theorem openedWorld_delivered (cfg : Config) (w : World) :
    (openedWorld cfg w).filelist = w.filelist ∧ (openedWorld cfg w).log = w.log ∧
    (openedWorld cfg w).fwrites = w.fwrites := by
  unfold openedWorld
  split <;> exact ⟨rfl, rfl, rfl⟩

theorem chain_length_le {h : Heap} {p : Option Nat} {xs : List Nat} (hl : IsList h p xs) :
    xs.length ≤ h.length :=
  length_le_of_nodup_of_lt (isList_nodup hl) (seg_valid hl)

theorem buffersOf_length {env : WriteEnv} {names : List String} {h : Heap} :
    ∀ {xs : List Nat}, (∀ a ∈ xs, (recordBytes env names h a).isSome = true) →
      (buffersOf env names h xs).length = xs.length := by
  intro xs
  induction xs with
  | nil => intro _; rfl
  | cons b l ih =>
    intro hf
    obtain ⟨v, hv⟩ := Option.isSome_iff_exists.mp (hf b (List.mem_cons_self _ _))
    have := ih (fun a ha => hf a (List.mem_cons_of_mem _ ha))
    unfold buffersOf at this ⊢
    rw [List.filterMap_cons, hv]
    simp only [List.length_cons, this]

theorem writerecords_ok (fuel : Nat) {cfg : Config} {env : WriteEnv} {h : Heap}
    {m : RecordMap} {xs : List Nat} {w : World} {names : List String}
    (hwf : WellFormed h m xs) (hn : w.filelist.map (fun f => f.infilename) = names)
    (hopen : ∀ name, cfg.outputfile = some name → name = "-" ∨ env.fopenOut name = true)
    (hfetch : ∀ a ∈ xs, (recordBytes env names h a).isSome = true)
    (hwrite : cfg.outputfile.isSome = true →
      ∀ i, i < xs.length → env.fwriteOk (w.fwrites + i) = true)
    (hp : PacingDefined cfg) (hd : cfg.dlconn = true → SendsSucceed env fuel) :
    ∃ w1, writerecords fuel cfg env h (some m) w = some (0, w1) ∧
      fileRecords w1.log = fileRecords w.log ++
        (if cfg.outputfile.isSome then buffersOf env names h xs else []) ∧
      sentRecords w1.log = sentRecords w.log ++
        (if cfg.dlconn then buffersOf env names h xs else []) ∧
      (∀ f ∈ w1.filelist, f.infp = none) ∧
      w1.filelist.map (fun f => f.infilename) = names ∧
      (cfg.outputfile.isSome = true → w1.sinkOpen = false) := by
  obtain ⟨hfl, hlog, hfw⟩ := openedWorld_delivered cfg w
  obtain ⟨w1, off1, hloop, hD⟩ := writeLoop_prefix cfg.outputfile.isSome hp hd xs
    m.first none (openedWorld cfg w) HPTERROR hwf.1 (by rw [hfl]; exact hn) hfetch
    (by rw [hfw]; exact hwrite)
  have hlen := chain_length_le hwf.1
  obtain ⟨k, hk⟩ := Nat.exists_eq_add_of_le hlen
  obtain ⟨c1, c2, c3, c4⟩ := closeAll_spec cfg.outputfile.isSome w1
  refine ⟨closeAll cfg.outputfile.isSome w1, ?_, ?_, ?_, c1, by rw [c2]; exact hD.1, c4⟩
  · rw [writerecords_opened hopen, hk, hloop k, writeLoop_none]
    rfl
  · rw [c3, hD.2.1, hlog]
  · rw [c3, hD.2.2.1, hlog]

theorem writerecords_fatal (fuel : Nat) {cfg : Config} {env : WriteEnv} {h : Heap}
    {m : RecordMap} {pre post : List Nat} {a : Nat} {r : Record} {w : World}
    {names : List String}
    (hwf : WellFormed h m (pre ++ a :: post))
    (hn : w.filelist.map (fun f => f.infilename) = names)
    (hopen : ∀ name, cfg.outputfile = some name → name = "-" ∨ env.fopenOut name = true)
    (hfetch : ∀ b ∈ pre, (recordBytes env names h b).isSome = true)
    (hwrite : cfg.outputfile.isSome = true →
      ∀ i, i < pre.length → env.fwriteOk (w.fwrites + i) = true)
    (hr : h[a]? = some r) (hflp : r.flp < names.length)
    (hfatal : sourceBytes env names r = none ∨
      (cfg.outputfile.isSome = true ∧ env.fwriteOk (w.fwrites + pre.length) = false))
    (hp : PacingDefined cfg) (hd : cfg.dlconn = true → SendsSucceed env fuel) :
    ∃ w1, writerecords fuel cfg env h (some m) w = some (1, w1) ∧
      fileRecords w1.log = fileRecords w.log ++
        (if cfg.outputfile.isSome then buffersOf env names h pre else []) ∧
      sentRecords w1.log = sentRecords w.log ++
        (if cfg.dlconn then buffersOf env names h pre else []) ∧
      (∀ f ∈ w1.filelist, f.infp = none) ∧
      w1.filelist.map (fun f => f.infilename) = names ∧
      (cfg.outputfile.isSome = true → w1.sinkOpen = false) := by
  obtain ⟨hfl, hlog, hfw⟩ := openedWorld_delivered cfg w
  obtain ⟨q, hseg, hrest⟩ := seg_split hwf.1
  have hq : q = some a := (seg_cons.mp hrest).1
  subst hq
  obtain ⟨w1, off1, hloop, hD⟩ := writeLoop_prefix cfg.outputfile.isSome hp hd pre
    m.first (some a) (openedWorld cfg w) HPTERROR hseg (by rw [hfl]; exact hn) hfetch
    (by rw [hfw]; exact hwrite)
  have hlen := chain_length_le hwf.1
  simp only [List.length_append, List.length_cons] at hlen
  obtain ⟨k, hk⟩ := Nat.exists_eq_add_of_le hlen
  have hk' : h.length = pre.length + ((post.length + k) + 1) := by omega
  -- the failing delivery
  obtain ⟨w2, hdel, hf2, hs2, hn2, hso2⟩ : ∃ w2,
      (∃ off2, deliver fuel cfg env cfg.outputfile.isSome r w1 off1 = some (false, w2, off2)) ∧
      fileRecords w2.log = fileRecords w1.log ∧ sentRecords w2.log = sentRecords w1.log ∧
      w2.filelist.map (fun f => f.infilename) = names ∧ w2.sinkOpen = w1.sinkOpen := by
    cases hsb : sourceBytes env names r with
    | none =>
      obtain ⟨w2, off2, hdel, d1, d2, d3, _, d5⟩ :=
        deliver_fetch_fail fuel cfg cfg.outputfile.isSome off1 hD.1 hflp hsb
      exact ⟨w2, ⟨off2, hdel⟩, by simpa using d2, by simpa using d3, d1, d5⟩
    | some buf =>
      rcases hfatal with hnone | ⟨ho, hfail⟩
      · rw [hsb] at hnone; cases hnone
      · have hw1 : w1.fwrites = w.fwrites + pre.length := by
          have := hD.2.2.2.1
          rw [hfw] at this
          have hb := buffersOf_length hfetch
          simpa [ho, hb] using this
        obtain ⟨w2, off2, hdel, d1, d2, d3, d4⟩ :=
          deliver_fwrite_fail fuel cfg off1 hD.1 hsb (by rw [hw1]; exact hfail) hp
        exact ⟨w2, ⟨off2, by rw [ho]; exact hdel⟩, d2, d3, d1, d4⟩
  obtain ⟨off2, hdel⟩ := hdel
  obtain ⟨c1, c2, c3, c4⟩ := closeAll_spec cfg.outputfile.isSome w2
  refine ⟨closeAll cfg.outputfile.isSome w2, ?_, ?_, ?_, c1, by rw [c2]; exact hn2, c4⟩
  · rw [writerecords_opened hopen, hk', hloop]
    simp only [writeLoop, hr, hdel]
    rfl
  · rw [c3, hf2, hD.2.1, hlog]
  · rw [c3, hs2, hD.2.2.1, hlog]

theorem eraseNext_sourceBytes (env : WriteEnv) (names : List String) (r : Record) :
    sourceBytes env names (eraseNext r) = sourceBytes env names r := rfl

theorem sameData_recordBytes {h h1 : Heap} (s : SameData h h1) (env : WriteEnv)
    (names : List String) (a : Nat) :
    recordBytes env names h1 a = recordBytes env names h a := by
  have := s.getElem? a
  unfold recordBytes
  cases h1a : h1[a]? with
  | none =>
    cases ha : h[a]? with
    | none => rfl
    | some r => rw [h1a, ha] at this; cases this
  | some r1 =>
    cases ha : h[a]? with
    | none => rw [h1a, ha] at this; cases this
    | some r =>
      rw [h1a, ha] at this
      have e : eraseNext r1 = eraseNext r := Option.some.inj this
      simp only [Option.some_bind]
      rw [← eraseNext_sourceBytes env names r1, e, eraseNext_sourceBytes]

theorem recordBytes_some {env : WriteEnv} {names : List String} {h : Heap} {a : Nat}
    (hs : (recordBytes env names h a).isSome = true) :
    ∃ (r : Record) (name : String) (bytes : List Nat),
      h[a]? = some r ∧ names[r.flp]? = some name ∧ env.content name = some bytes ∧
      recordBytes env names h a = some ((bytes.drop r.offset.toNat).take r.reclen.toNat) ∧
      (((bytes.drop r.offset.toNat).take r.reclen.toNat).length : Int) = r.reclen := by
  have hs0 := hs
  unfold recordBytes at hs
  cases hr : h[a]? with
  | none => rw [hr] at hs; cases hs
  | some r =>
    rw [hr] at hs
    simp only [Option.some_bind] at hs
    unfold sourceBytes at hs
    by_cases hb : bufferTooSmall r = true
    · rw [if_pos hb] at hs; cases hs
    · rw [if_neg hb] at hs
      cases hname : names[r.flp]? with
      | none => rw [hname] at hs; cases hs
      | some name =>
        rw [hname] at hs
        simp only at hs
        by_cases hseek : env.seekable name = false ∨ r.offset < 0
        · rw [if_pos hseek] at hs; cases hs
        · rw [if_neg hseek] at hs
          cases hc : env.content name with
          | none => rw [hc] at hs; cases hs
          | some bytes =>
            rw [hc] at hs
            simp only [Option.some_bind] at hs
            unfold readAt at hs
            by_cases hread : 0 < r.reclen ∧
                ((bytes.drop r.offset.toNat).take r.reclen.toNat).length = r.reclen.toNat
            · refine ⟨r, name, bytes, rfl, hname, hc, ?_, ?_⟩
              · unfold recordBytes sourceBytes
                rw [hr]
                simp only [Option.some_bind]
                rw [if_neg hb, hname]
                simp only
                rw [if_neg hseek, hc]
                simp only [Option.some_bind]
                unfold readAt
                rw [if_pos hread]
              · rw [hread.2]
                exact Int.toNat_of_nonneg (le_of_lt hread.1)
            · rw [if_neg hread] at hs; cases hs

theorem sourceBytes_none_of_fatal {env : WriteEnv} {names : List String} {r : Record}
    (hf : bufferTooSmall r = true ∨
      ∃ name, names[r.flp]? = some name ∧
        (env.content name = none ∨ env.seekable name = false ∨ r.offset < 0 ∨
          ∃ bytes, env.content name = some bytes ∧
            readAt bytes r.offset.toNat r.reclen = none)) :
    sourceBytes env names r = none := by
  unfold sourceBytes
  rcases hf with hb | ⟨name, hname, hrest⟩
  · rw [if_pos hb]
  · by_cases hb : bufferTooSmall r = true
    · rw [if_pos hb]
    · rw [if_neg hb, hname]
      simp only
      by_cases hseek : env.seekable name = false ∨ r.offset < 0
      · rw [if_pos hseek]
      · rw [if_neg hseek]
        rcases hrest with hc | hs | ho | ⟨bytes, hc, hread⟩
        · rw [hc]; rfl
        · exact absurd (Or.inl hs) hseek
        · exact absurd (Or.inr ho) hseek
        · rw [hc]; exact hread

theorem fetch_inv {env : WriteEnv} {r : Record} {files files1 : List Filelink}
    {names : List String} {ob : Option (List Nat)}
    (hn : files.map (fun f => f.infilename) = names)
    (hf : fetch env r files = some (files1, ob)) :
    ob = sourceBytes env names r ∧ files1.map (fun f => f.infilename) = names := by
  unfold fetch at hf
  unfold sourceBytes
  by_cases hb : bufferTooSmall r = true
  · rw [if_pos hb] at hf ⊢
    cases hf
    exact ⟨rfl, hn⟩
  · rw [if_neg hb] at hf ⊢
    rw [names_getElem? hn]
    cases hfl : files[r.flp]? with
    | none => rw [hfl] at hf; cases hf
    | some f =>
      rw [hfl] at hf
      simp only [Option.map_some'] at hf ⊢
      by_cases hc : f.infp = none ∧ env.content f.infilename = none
      · rw [if_pos hc] at hf
        cases hf
        refine ⟨?_, hn⟩
        rw [hc.2]
        split <;> rfl
      · rw [if_neg hc] at hf
        by_cases hseek : env.seekable f.infilename = false ∨ r.offset < 0
        · rw [if_pos hseek] at hf ⊢
          cases hf
          exact ⟨rfl, by rw [setInfp_names]; exact hn⟩
        · rw [if_neg hseek] at hf ⊢
          cases hread : (env.content f.infilename).bind
              (fun bytes => readAt bytes r.offset.toNat r.reclen) with
          | none =>
            rw [hread] at hf
            cases hf
            exact ⟨rfl, by rw [setInfp_names]; exact hn⟩
          | some buf =>
            rw [hread] at hf
            cases hf
            exact ⟨rfl, by rw [setInfp_names]; exact hn⟩

theorem pace_inv {cfg : Config} {env : WriteEnv} {r : Record} {w w1 : World}
    {offset offset1 : Int} (hp : pace cfg env r w offset = some (w1, offset1)) :
    Quiet w w1 [] := by
  unfold pace at hp
  by_cases hd : cfg.streamdelay = true
  · rw [if_pos hd] at hp
    simp only [] at hp
    by_cases hsn : (if offset = HPTERROR then env.gethptime w.clockReads - r.endtime
        else offset) - (env.gethptime w.clockReads - r.endtime) > 0
    · rw [if_pos hsn] at hp
      cases hu : usleepArg cfg.delayfactor ((if offset = HPTERROR then
          env.gethptime w.clockReads - r.endtime else offset) -
          (env.gethptime w.clockReads - r.endtime)) with
      | none => rw [hu] at hp; cases hp
      | some us =>
        rw [hu] at hp
        cases hp
        exact ⟨[Event.usleep us], rfl, rfl, rfl, rfl, rfl, rfl⟩
    · rw [if_neg hsn] at hp
      cases hp
      exact ⟨[], by simp, rfl, rfl, rfl, rfl, rfl⟩
  · rw [if_neg hd] at hp
    cases hp
    exact quiet_refl w

theorem sendLoop_inv (env : WriteEnv) (buf : List Nat) (r : Record) :
    ∀ (fuel : Nat) (w w1 : World), sendLoop env buf r fuel w = some w1 → Quiet w w1 [buf] := by
  intro fuel
  induction fuel with
  | zero => intro w w1 hs; simp [sendLoop] at hs
  | succ f ih =>
    intro w w1 hs
    cases hres : env.dlwrite w.dlwrites with
    | ok =>
      simp only [sendLoop, hres] at hs
      cases hs
      exact ⟨[Event.send buf r.starttime r.endtime true], rfl, rfl, rfl, rfl, rfl, rfl⟩
    | failed linkUp =>
      have hloop : sendLoop env buf r (f + 1) w =
          sendLoop env buf r f (reconnect env (afterFailedSend buf r linkUp w)) := by
        simp only [sendLoop, hres, afterFailedSend]
      rw [hloop] at hs
      have hq1 := ih _ _ hs
      have hq := reconnect_quiet env (afterFailedSend buf r linkUp w)
      have hq0 : Quiet w (afterFailedSend buf r linkUp w) [] :=
        ⟨[Event.send buf r.starttime r.endtime false], rfl, rfl, rfl, rfl, rfl, rfl⟩
      simpa using quiet_trans (quiet_trans hq0 hq) hq1

theorem deliver_inv {fuel : Nat} {cfg : Config} {env : WriteEnv} {ofp : Bool} {r : Record}
    {w w1 : World} {names : List String} {offset offset1 : Int} {ok : Bool}
    (hn : w.filelist.map (fun f => f.infilename) = names)
    (hdel : deliver fuel cfg env ofp r w offset = some (ok, w1, offset1)) :
    (ok = true → ∃ buf, sourceBytes env names r = some buf ∧
      (ofp = true → env.fwriteOk w.fwrites = true) ∧
      Delivered names w w1 (if ofp then [buf] else []) (if cfg.dlconn then [buf] else [])) ∧
    (ok = false →
      (sourceBytes env names r = none ∨ (ofp = true ∧ env.fwriteOk w.fwrites = false)) ∧
      w1.filelist.map (fun f => f.infilename) = names ∧
      fileRecords w1.log = fileRecords w.log ∧ sentRecords w1.log = sentRecords w.log ∧
      w1.sinkOpen = w.sinkOpen) := by
  unfold deliver at hdel
  cases hf : fetch env r w.filelist with
  | none => rw [hf] at hdel; cases hdel
  | some res =>
    obtain ⟨files1, ob⟩ := res
    obtain ⟨hob, hn1⟩ := fetch_inv hn hf
    rw [hf] at hdel
    cases ob with
    | none =>
      simp only at hdel
      cases hdel
      exact ⟨(fun h => by cases h), fun _ => ⟨Or.inl hob.symm, hn1, rfl, rfl, rfl⟩⟩
    | some buf =>
      simp only at hdel
      cases hpace : pace cfg env r { w with filelist := files1 } offset with
      | none => rw [hpace] at hdel; cases hdel
      | some pr =>
        obtain ⟨wp, off1⟩ := pr
        rw [hpace] at hdel
        simp only at hdel
        obtain ⟨evs, hlog, hfr, hsr, hfl, hso, hfw⟩ := pace_inv hpace
        have hlog' : wp.log = w.log ++ evs := hlog
        have hnames : wp.filelist.map (fun f => f.infilename) = names := by
          rw [← hn1]; exact congrArg _ hfl
        have hso' : wp.sinkOpen = w.sinkOpen := hso
        have hfw' : wp.fwrites = w.fwrites := hfw
        by_cases hfail : ofp = true ∧ env.fwriteOk wp.fwrites = false
        · rw [if_pos hfail] at hdel
          cases hdel
          refine ⟨(fun h => by cases h), fun _ => ⟨Or.inr ⟨hfail.1, by rw [← hfw']; exact hfail.2⟩,
            hnames, ?_, ?_, hso'⟩⟩
          · show fileRecords wp.log = _
            simp [hlog', fileRecords_append, hfr]
          · show sentRecords wp.log = _
            simp [hlog', sentRecords_append, hsr]
        · rw [if_neg hfail] at hdel
          have hwok : ofp = true → env.fwriteOk w.fwrites = true := by
            intro ho
            rw [← hfw']
            cases hv : env.fwriteOk wp.fwrites with
            | true => rfl
            | false => exact absurd ⟨ho, hv⟩ hfail
          -- the world after the write to the output file
          obtain ⟨w2, hw2, hD2⟩ : ∃ w2 : World,
              (if ofp = true then
                ({ wp with fwrites := wp.fwrites + 1,
                           log := wp.log ++ [Event.fwrite buf] } : World)
               else wp) = w2 ∧
              Delivered names w w2 (if ofp then [buf] else []) [] := by
            cases ofp with
            | true =>
              refine ⟨({ wp with fwrites := wp.fwrites + 1,
                                 log := wp.log ++ [Event.fwrite buf] } : World),
                by simp, ⟨hnames, ?_, ?_, ?_, hso'⟩⟩
              · show fileRecords (wp.log ++ [Event.fwrite buf]) = _
                rw [hlog', fileRecords_append, fileRecords_append, hfr]
                simp [fileRecords]
              · show sentRecords (wp.log ++ [Event.fwrite buf]) = _
                rw [hlog', sentRecords_append, sentRecords_append, hsr]
                simp [sentRecords]
              · show wp.fwrites + 1 = _
                rw [hfw']; simp
            | false =>
              refine ⟨wp, by simp, ⟨hnames, ?_, ?_, ?_, hso'⟩⟩
              · simp [hlog', fileRecords_append, hfr]
              · simp [hlog', sentRecords_append, hsr]
              · simp [hfw']
          simp only [hw2] at hdel
          obtain ⟨h1, h2, h3, h4, h5⟩ := hD2
          cases hdl : cfg.dlconn with
          | true =>
            simp only [hdl, if_true] at hdel
            cases hsend : sendLoop env buf r fuel w2 with
            | none => rw [hsend] at hdel; cases hdel
            | some w3 =>
              rw [hsend] at hdel
              simp only at hdel
              cases hdel
              obtain ⟨e3, hl3, hf3, hs3, hfl3, hso3, hfw3⟩ := sendLoop_inv env buf r fuel w2 w3 hsend
              refine ⟨fun _ => ⟨buf, hob.symm, hwok, ?_, ?_, ?_, ?_, ?_⟩, fun h => by cases h⟩
              · show w3.filelist.map _ = _
                rw [hfl3]; exact h1
              · show fileRecords w3.log = _
                rw [hl3, fileRecords_append, hf3, h2]; simp
              · show sentRecords w3.log = _
                rw [hl3, sentRecords_append, hs3, h3]; simp
              · show w3.fwrites = _
                rw [hfw3]; exact h4
              · show w3.sinkOpen = _
                rw [hso3]; exact h5
          | false =>
            simp only [hdl, Bool.false_eq_true, if_false] at hdel
            cases hdel
            exact ⟨fun _ => ⟨buf, hob.symm, hwok, h1, h2, by simpa using h3, h4, h5⟩,
              fun h => by cases h⟩

theorem writeLoop_inv {fuel : Nat} {cfg : Config} {env : WriteEnv} {h : Heap} (ofp : Bool)
    {names : List String} :
    ∀ (xs : List Nat) (n : Nat) (rec : Option Nat) (w : World) (offset : Int) (e : Bool)
      (w1 : World),
      IsList h rec xs → w.filelist.map (fun f => f.infilename) = names →
      writeLoop fuel cfg env h ofp n rec w offset = some (e, w1) →
      (e = false →
        (∀ a ∈ xs, (recordBytes env names h a).isSome = true) ∧
        (ofp = true → ∀ i, i < xs.length → env.fwriteOk (w.fwrites + i) = true) ∧
        Delivered names w w1 (if ofp then buffersOf env names h xs else [])
          (if cfg.dlconn then buffersOf env names h xs else [])) ∧
      (e = true →
        ∃ (pre : List Nat) (a : Nat) (post : List Nat) (r : Record),
          xs = pre ++ a :: post ∧ h[a]? = some r ∧
          (∀ b ∈ pre, (recordBytes env names h b).isSome = true) ∧
          (sourceBytes env names r = none ∨
            (ofp = true ∧ env.fwriteOk (w.fwrites + pre.length) = false)) ∧
          w1.filelist.map (fun f => f.infilename) = names ∧
          fileRecords w1.log = fileRecords w.log ++
            (if ofp then buffersOf env names h pre else []) ∧
          sentRecords w1.log = sentRecords w.log ++
            (if cfg.dlconn then buffersOf env names h pre else []) ∧
          w1.sinkOpen = w.sinkOpen) := by
  intro xs
  induction xs with
  | nil =>
    intro n rec w offset e w1 hl hn hloop
    have hrec : rec = none := hl
    subst hrec
    rw [writeLoop_none] at hloop
    cases hloop
    refine ⟨fun _ => ⟨(fun a ha => by simp at ha), (fun _ i hi => by simp at hi), ?_⟩,
      fun he => by cases he⟩
    simpa [buffersOf] using delivered_refl hn
  | cons a xs ih =>
    intro n rec w offset e w1 hl hn hloop
    obtain ⟨hrec, r, hr, hrest⟩ := seg_cons.mp hl
    subst hrec
    have hrb : recordBytes env names h a = sourceBytes env names r := by
      simp [recordBytes, hr]
    cases n with
    | zero => simp [writeLoop] at hloop
    | succ k =>
      simp only [writeLoop, hr] at hloop
      cases hdel : deliver fuel cfg env ofp r w offset with
      | none => rw [hdel] at hloop; cases hloop
      | some res =>
        obtain ⟨ok, w2, off2⟩ := res
        obtain ⟨hok, hbad⟩ := deliver_inv hn hdel
        rw [hdel] at hloop
        cases ok with
        | false =>
          simp only at hloop
          cases hloop
          obtain ⟨hf, hn2, hfr, hsr, hso⟩ := hbad rfl
          refine ⟨(fun he => by cases he), fun _ => ⟨[], a, xs, r, rfl, hr,
            (fun b hb => by simp at hb), by simpa using hf, hn2, ?_, ?_, hso⟩⟩
          · simp [buffersOf, hfr]
          · simp [buffersOf, hsr]
        | true =>
          simp only at hloop
          obtain ⟨buf, hsb, hwok, hD⟩ := hok rfl
          have hbuf : recordBytes env names h a = some buf := by rw [hrb]; exact hsb
          have hb : ∀ l, buffersOf env names h (a :: l) = buf :: buffersOf env names h l := by
            intro l
            simp [buffersOf, List.filterMap_cons, hbuf]
          obtain ⟨ihok, ihbad⟩ := ih k r.next w2 off2 e w1 hrest hD.1 hloop
          have hfw2 : ofp = true → w2.fwrites = w.fwrites + 1 := by
            intro ho
            have := hD.2.2.2.1
            simpa [ho] using this
          refine ⟨?_, ?_⟩
          · intro he
            obtain ⟨i1, i2, i3⟩ := ihok he
            refine ⟨?_, ?_, ?_⟩
            · intro b hb'
              rcases List.mem_cons.mp hb' with rfl | hb'
              · rw [hbuf]; rfl
              · exact i1 b hb'
            · intro ho i hi
              cases i with
              | zero => simpa using hwok ho
              | succ j =>
                have := i2 ho j (by simp only [List.length_cons] at hi; omega)
                rw [hfw2 ho] at this
                rw [show w.fwrites + (j + 1) = w.fwrites + 1 + j by omega]
                exact this
            · have := delivered_trans hD i3
              rw [hb]
              cases ofp <;> cases hdl : cfg.dlconn <;> simpa [hdl] using this
          · intro he
            obtain ⟨pre, a2, post, r2, hxs, hr2, hpre, hf, hn1, hfr, hsr, hso⟩ := ihbad he
            refine ⟨a :: pre, a2, post, r2, by rw [hxs]; rfl, hr2, ?_, ?_, hn1, ?_, ?_, ?_⟩
            · intro b hb'
              rcases List.mem_cons.mp hb' with rfl | hb'
              · rw [hbuf]; rfl
              · exact hpre b hb'
            · rcases hf with hf | ⟨ho, hf⟩
              · exact Or.inl hf
              · refine Or.inr ⟨ho, ?_⟩
                rw [hfw2 ho] at hf
                rw [show w.fwrites + (a :: pre).length = w.fwrites + 1 + pre.length by
                  simp only [List.length_cons]; omega]
                exact hf
            · rw [hfr, hD.2.1, hb]
              cases ofp <;> simp
            · rw [hsr, hD.2.2.1, hb]
              cases hdl : cfg.dlconn <;> simp
            · rw [hso, hD.2.2.2.2]

theorem writerecords_open_fails {fuel : Nat} {cfg : Config} {env : WriteEnv} {h : Heap}
    {m : RecordMap} {w : World} (ho : OpenFails cfg env) :
    writerecords fuel cfg env h (some m) w = some (1, w) := by
  obtain ⟨name, hout, hne, hfail⟩ := ho
  simp [writerecords, hout, hne, hfail]

theorem openFails_or (cfg : Config) (env : WriteEnv) :
    OpenFails cfg env ∨
      ∀ name, cfg.outputfile = some name → name = "-" ∨ env.fopenOut name = true := by
  by_cases ho : OpenFails cfg env
  · exact Or.inl ho
  · right
    intro name hout
    by_cases hn : name = "-"
    · exact Or.inl hn
    · right
      cases hf : env.fopenOut name with
      | true => rfl
      | false => exact absurd ⟨name, hout, hn, hf⟩ ho

theorem writerecords_inv {fuel : Nat} {cfg : Config} {env : WriteEnv} {h : Heap}
    {m : RecordMap} {xs : List Nat} {w w1 : World} {ret : Int}
    (hwf : WellFormed h m xs)
    (hopen : ∀ name, cfg.outputfile = some name → name = "-" ∨ env.fopenOut name = true)
    (hr : writerecords fuel cfg env h (some m) w = some (ret, w1)) :
    (ret = 0 ∨ ret = 1) ∧
    (∀ f ∈ w1.filelist, f.infp = none) ∧
    w1.filelist.map (fun f => f.infilename) = w.filelist.map (fun f => f.infilename) ∧
    (cfg.outputfile.isSome = true → w1.sinkOpen = false) ∧
    (ret = 0 →
      (∀ a ∈ xs, (recordBytes env (w.filelist.map (fun f => f.infilename)) h a).isSome = true) ∧
      (cfg.outputfile.isSome = true →
        ∀ i, i < xs.length → env.fwriteOk (w.fwrites + i) = true) ∧
      fileRecords w1.log = fileRecords w.log ++
        (if cfg.outputfile.isSome then
          buffersOf env (w.filelist.map (fun f => f.infilename)) h xs else []) ∧
      sentRecords w1.log = sentRecords w.log ++
        (if cfg.dlconn then
          buffersOf env (w.filelist.map (fun f => f.infilename)) h xs else [])) ∧
    (ret = 1 →
      ∃ (pre : List Nat) (a : Nat) (post : List Nat) (r : Record),
        xs = pre ++ a :: post ∧ h[a]? = some r ∧
        (∀ b ∈ pre,
          (recordBytes env (w.filelist.map (fun f => f.infilename)) h b).isSome = true) ∧
        (sourceBytes env (w.filelist.map (fun f => f.infilename)) r = none ∨
          (cfg.outputfile.isSome = true ∧ env.fwriteOk (w.fwrites + pre.length) = false)) ∧
        fileRecords w1.log = fileRecords w.log ++
          (if cfg.outputfile.isSome then
            buffersOf env (w.filelist.map (fun f => f.infilename)) h pre else []) ∧
        sentRecords w1.log = sentRecords w.log ++
          (if cfg.dlconn then
            buffersOf env (w.filelist.map (fun f => f.infilename)) h pre else [])) := by
  obtain ⟨hfl, hlog, hfw⟩ := openedWorld_delivered cfg w
  rw [writerecords_opened hopen] at hr
  cases hloop : writeLoop fuel cfg env h cfg.outputfile.isSome h.length m.first
      (openedWorld cfg w) HPTERROR with
  | none => rw [hloop] at hr; cases hr
  | some res =>
    obtain ⟨e, w2⟩ := res
    rw [hloop] at hr
    simp only [Option.map_some', Option.some.injEq, Prod.mk.injEq] at hr
    obtain ⟨hret, hw1⟩ := hr
    obtain ⟨c1, c2, c3, c4⟩ := closeAll_spec cfg.outputfile.isSome w2
    obtain ⟨hok, hbad⟩ := writeLoop_inv cfg.outputfile.isSome xs h.length m.first
      (openedWorld cfg w) HPTERROR e w2 hwf.1 (by rw [hfl]) hloop
    subst hw1
    cases e with
    | false =>
      have hret0 : ret = 0 := by rw [← hret]; rfl
      obtain ⟨i1, i2, i3⟩ := hok rfl
      refine ⟨Or.inl hret0, c1, by rw [c2]; exact i3.1, c4, ?_, ?_⟩
      · intro _
        refine ⟨i1, by rw [← hfw]; exact i2, ?_, ?_⟩
        · rw [c3, i3.2.1, hlog]
        · rw [c3, i3.2.2.1, hlog]
      · intro h1
        rw [hret0] at h1
        cases h1
    | true =>
      have hret1 : ret = 1 := by rw [← hret]; rfl
      obtain ⟨pre, a, post, r, hxs, hra, hpre, hf, hn1, hfr, hsr, _⟩ := hbad rfl
      refine ⟨Or.inr hret1, c1, by rw [c2]; exact hn1, c4, ?_, ?_⟩
      · intro h0
        rw [hret1] at h0
        cases h0
      · intro _
        refine ⟨pre, a, post, r, hxs, hra, hpre, by rw [← hfw]; exact hf, ?_, ?_⟩
        · rw [c3, hfr, hlog]
        · rw [c3, hsr, hlog]

/-! ## `writerecords`: output and status -/

/-- C7: for a well-formed record map with chain `xs` and a configured output
file: whenever `writerecords` returns 0, that is, every entry was opened,
sought, read and written successfully, the records it appended to the output
file are exactly the buffers of `xs` in chain order, the bytes appended are
their concatenation, and each buffer is the `reclen` bytes at the entry's
offset in its source file.  It does return 0 when the output file opens, every
entry fits the buffer and can be opened, sought and read, every `fwrite`
succeeds, the pacing sleep is defined and every DataLink retry loop ends.
When the heap and map are what `sortrecmap` returned, the chain is a
permutation of the chain before sorting, in non-decreasing end-time order,
holding the same bytes. -/
theorem writerecords_output (fuel : Nat) (cfg : Config) (env : WriteEnv) (h : Heap)
    (m : RecordMap) (xs : List Nat) (w : World) (name : String)
    (hwf : WellFormed h m xs) (hout : cfg.outputfile = some name) :
    (∀ w1, writerecords fuel cfg env h (some m) w = some (0, w1) →
      fileRecords w1.log = fileRecords w.log ++ buffersOf env (namesOf w.filelist) h xs ∧
      fileSink w1.log =
        fileSink w.log ++ (buffersOf env (namesOf w.filelist) h xs).flatten ∧
      ∀ a ∈ xs, ∃ (r : Record) (fname : String) (bytes : List Nat),
        h[a]? = some r ∧ (namesOf w.filelist)[r.flp]? = some fname ∧
        env.content fname = some bytes ∧
        recordBytes env (namesOf w.filelist) h a =
          some ((bytes.drop r.offset.toNat).take r.reclen.toNat) ∧
        (((bytes.drop r.offset.toNat).take r.reclen.toNat).length : Int) = r.reclen) ∧
    ((name = "-" ∨ env.fopenOut name = true) →
      (∀ a ∈ xs, (recordBytes env (namesOf w.filelist) h a).isSome = true) →
      (∀ i, i < xs.length → env.fwriteOk (w.fwrites + i) = true) →
      PacingDefined cfg → (cfg.dlconn = true → SendsSucceed env fuel) →
      ∃ w1, writerecords fuel cfg env h (some m) w = some (0, w1)) ∧
    (∀ h0 m0 xs0, WellFormed h0 m0 xs0 → sortrecmap h0 (some m0) = some (0, h, some m) →
      xs.Perm xs0 ∧ List.Chain' (fun a b => endtimeOf h a ≤ endtimeOf h b) xs ∧
      ∀ a, recordBytes env (namesOf w.filelist) h a =
        recordBytes env (namesOf w.filelist) h0 a) := by
  have hsome : cfg.outputfile.isSome = true := by rw [hout]; rfl
  refine ⟨?_, ?_, ?_⟩
  · intro w1 hr
    rcases openFails_or cfg env with hfail | hopen
    · rw [writerecords_open_fails hfail] at hr
      simp at hr
    · obtain ⟨_, _, _, _, h0, _⟩ := writerecords_inv hwf hopen hr
      obtain ⟨hfetch, _, hf, _⟩ := h0 rfl
      rw [hsome] at hf
      have hf' : fileRecords w1.log =
          fileRecords w.log ++ buffersOf env (namesOf w.filelist) h xs := by
        simpa [namesOf] using hf
      refine ⟨hf', ?_, fun a ha => recordBytes_some (hfetch a ha)⟩
      unfold fileSink
      rw [hf']
      simp
  · intro hopen hfetch hwrite hp hd
    obtain ⟨w1, hr, _⟩ := writerecords_ok fuel hwf
      (show w.filelist.map (fun f => f.infilename) = namesOf w.filelist from rfl)
      (fun n hn => by
        rw [hout] at hn
        cases hn
        exact hopen)
      hfetch (fun _ => hwrite) hp hd
    exact ⟨w1, hr⟩
  · intro h0 m0 xs0 hwf0 hs
    obtain ⟨_, m1, hm1, _, ys, hl, _, hperm, hsorted, _, hsd⟩ := sortrecmap_spec hwf0 hs
    cases hm1
    have hxy : ys = xs := isList_unique hl hwf.1
    subst hxy
    refine ⟨hperm, ?_, fun a => sameData_recordBytes hsd env _ a⟩
    rw [sameData_endtimeOf_eq hsd]
    exact sortedBy_chain' hsorted

/-- Witness of C7: the example index, sorted by `sortrecmap` and then written,
gives the bytes of the third, first and second record. -/
theorem writerecords_output_witness :
    sortrecmap exIndex (some exIndexMap) = some (0, exSortedIndex, some exSortedMap) ∧
    WellFormed exSortedIndex exSortedMap [2, 0, 1] ∧
    ∃ w1, writerecords 0 exConfig exWriteEnv exSortedIndex (some exSortedMap)
        (initWorld exFiles) = some (0, w1) ∧
      fileSink w1.log = [12, 13, 1, 2, 5, 6, 7] := by
  have hwf : WellFormed exSortedIndex exSortedMap [2, 0, 1] := by decide
  obtain ⟨hout, hret, _⟩ :=
    writerecords_output 0 exConfig exWriteEnv exSortedIndex exSortedMap [2, 0, 1]
      (initWorld exFiles) "out.mseed" hwf rfl
  obtain ⟨w1, hr⟩ := hret (Or.inr rfl) (by decide) (fun _ _ => rfl)
    (fun hsd => absurd hsd (by decide)) (fun hdl => absurd hdl (by decide))
  obtain ⟨_, hs, _⟩ := hout w1 hr
  refine ⟨by decide, hwf, w1, hr, ?_⟩
  rw [hs]
  decide

/-- C10: for a well-formed record map with chain `xs` and an output file that
opens.  If the entries before the `k`-th are delivered and the `k`-th hits a
fatal condition (record larger than the buffer, file cannot be opened, seek
failure, short read, or output write failure), `writerecords` returns 1 and
the output file and the DataLink server hold exactly the records before the
`k`-th; when all entries are delivered it returns 0 (any DataLink retry loop
ending and the pacing sleep defined, in both cases).  On every return the
status is 0 or 1, every file of the file list has its read handle closed and
the output file is closed; and after status 1 the sinks hold exactly the
records before some entry of the chain. -/
theorem writerecords_status (fuel : Nat) (cfg : Config) (env : WriteEnv) (h : Heap)
    (m : RecordMap) (xs : List Nat) (w : World)
    (hwf : WellFormed h m xs)
    (hopen : ∀ name, cfg.outputfile = some name → name = "-" ∨ env.fopenOut name = true) :
    (PacingDefined cfg → (cfg.dlconn = true → SendsSucceed env fuel) →
      ∀ (pre : List Nat) (a : Nat) (post : List Nat) (r : Record),
      xs = pre ++ a :: post → h[a]? = some r → r.flp < (namesOf w.filelist).length →
      (∀ b ∈ pre, (recordBytes env (namesOf w.filelist) h b).isSome = true) →
      (cfg.outputfile.isSome = true →
        ∀ i, i < pre.length → env.fwriteOk (w.fwrites + i) = true) →
      (bufferTooSmall r = true ∨
        (∃ fname, (namesOf w.filelist)[r.flp]? = some fname ∧
          (env.content fname = none ∨ env.seekable fname = false ∨ r.offset < 0 ∨
            ∃ bytes, env.content fname = some bytes ∧
              readAt bytes r.offset.toNat r.reclen = none)) ∨
        (cfg.outputfile.isSome = true ∧ env.fwriteOk (w.fwrites + pre.length) = false)) →
      ∃ w1, writerecords fuel cfg env h (some m) w = some (1, w1) ∧
        fileRecords w1.log = fileRecords w.log ++
          (if cfg.outputfile.isSome then buffersOf env (namesOf w.filelist) h pre else []) ∧
        sentRecords w1.log = sentRecords w.log ++
          (if cfg.dlconn then buffersOf env (namesOf w.filelist) h pre else [])) ∧
    (PacingDefined cfg → (cfg.dlconn = true → SendsSucceed env fuel) →
      (∀ a ∈ xs, (recordBytes env (namesOf w.filelist) h a).isSome = true) →
      (cfg.outputfile.isSome = true →
        ∀ i, i < xs.length → env.fwriteOk (w.fwrites + i) = true) →
      ∃ w1, writerecords fuel cfg env h (some m) w = some (0, w1)) ∧
    (∀ ret w1, writerecords fuel cfg env h (some m) w = some (ret, w1) →
      (ret = 0 ∨ ret = 1) ∧
      (∀ f ∈ w1.filelist, f.infp = none) ∧
      namesOf w1.filelist = namesOf w.filelist ∧
      (cfg.outputfile.isSome = true → w1.sinkOpen = false) ∧
      (ret = 1 → ∃ (pre : List Nat) (a : Nat) (post : List Nat), xs = pre ++ a :: post ∧
        fileRecords w1.log = fileRecords w.log ++
          (if cfg.outputfile.isSome then buffersOf env (namesOf w.filelist) h pre else []) ∧
        sentRecords w1.log = sentRecords w.log ++
          (if cfg.dlconn then buffersOf env (namesOf w.filelist) h pre else []))) := by
  have hn : w.filelist.map (fun f => f.infilename) = namesOf w.filelist := rfl
  refine ⟨?_, ?_, ?_⟩
  · intro hp hd pre a post r hxs hr hflp hfetch hwrite hfatal
    subst hxs
    have hf : sourceBytes env (namesOf w.filelist) r = none ∨
        (cfg.outputfile.isSome = true ∧ env.fwriteOk (w.fwrites + pre.length) = false) := by
      rcases hfatal with hb | hsrc | hw
      · exact Or.inl (sourceBytes_none_of_fatal (Or.inl hb))
      · exact Or.inl (sourceBytes_none_of_fatal (Or.inr hsrc))
      · exact Or.inr hw
    obtain ⟨w1, hret, hfr, hsr, _⟩ :=
      writerecords_fatal fuel hwf hn hopen hfetch hwrite hr hflp hf hp hd
    exact ⟨w1, hret, hfr, hsr⟩
  · intro hp hd hfetch hwrite
    obtain ⟨w1, hr, _⟩ := writerecords_ok fuel hwf hn hopen hfetch hwrite hp hd
    exact ⟨w1, hr⟩
  · intro ret w1 hr
    obtain ⟨hret, hc, hnm, hso, _, h1⟩ := writerecords_inv hwf hopen hr
    refine ⟨hret, hc, hnm, hso, ?_⟩
    intro hr1
    obtain ⟨pre, a, post, _, hxs, _, _, _, hfr, hsr⟩ := h1 hr1
    exact ⟨pre, a, post, hxs, hfr, hsr⟩

/-- Witness of C10: with the second `fwrite` failing, the run on the example
index returns 1 after writing the first record only, with all handles closed;
with every call succeeding it returns 0 with all handles closed. -/
theorem writerecords_status_witness :
    WellFormed exIndex exIndexMap [0, 1, 2] ∧
    (∃ w1, writerecords 0 exConfig exWriteEnvFull exIndex (some exIndexMap)
        (initWorld exFiles) = some (1, w1) ∧
      fileRecords w1.log = [[1, 2]] ∧ (∀ f ∈ w1.filelist, f.infp = none) ∧
      w1.sinkOpen = false) ∧
    (∃ w1, writerecords 0 exConfig exWriteEnv exIndex (some exIndexMap)
        (initWorld exFiles) = some (0, w1) ∧
      (∀ f ∈ w1.filelist, f.infp = none) ∧ w1.sinkOpen = false) := by
  have hwf : WellFormed exIndex exIndexMap [0, 1, 2] := by decide
  obtain ⟨hfat, _, hall⟩ := writerecords_status 0 exConfig exWriteEnvFull exIndex exIndexMap
    [0, 1, 2] (initWorld exFiles) hwf (fun _ _ => Or.inr rfl)
  obtain ⟨_, hok, hall2⟩ := writerecords_status 0 exConfig exWriteEnv exIndex exIndexMap
    [0, 1, 2] (initWorld exFiles) hwf (fun _ _ => Or.inr rfl)
  obtain ⟨w1, hr, hf, _⟩ := hfat
    (fun hsd => absurd hsd (by decide)) (fun hdl => absurd hdl (by decide)) [0] 1 [2]
    { flp := 0, offset := 4, reclen := 3, starttime := 30, endtime := 40,
      prev := some 0, next := some 2 }
    rfl rfl (by decide) (by decide) (by decide) (Or.inr (Or.inr (by decide)))
  obtain ⟨w2, hr2⟩ := hok
    (fun hsd => absurd hsd (by decide)) (fun hdl => absurd hdl (by decide))
    (by decide) (fun _ _ _ => rfl)
  obtain ⟨_, hc, _, hso, _⟩ := hall 1 w1 hr
  obtain ⟨_, hc2, _, hso2, _⟩ := hall2 0 w2 hr2
  refine ⟨hwf, ⟨w1, hr, ?_, hc, hso rfl⟩, ⟨w2, hr2, hc2, hso2 rfl⟩⟩
  rw [hf]
  decide

/-! ## `sendrecord`: retry after a failed write -/

theorem sendCalls_append (l1 l2 : List Event) :
    sendCalls (l1 ++ l2) = sendCalls l1 ++ sendCalls l2 := by
  induction l1 with
  | nil => rfl
  | cons e l ih => cases e <;> simp [sendCalls, ih]

theorem reconnect_log (env : WriteEnv) (w : World) :
    ∃ evs, (reconnect env w).log = w.log ++ evs ∧ sendCalls evs = [] ∧
      fileRecords evs = [] ∧ sentRecords evs = [] ∧
      (reconnect env w).totalrecsout = w.totalrecsout ∧
      (reconnect env w).fwrites = w.fwrites ∧
      (reconnect env w).filelist = w.filelist := by
  cases hl : w.link <;> cases hc : env.dlconnect w.dlconnects
  · exact ⟨[Event.connect false, Event.sleep 10], by simp [reconnect, hl, hc], rfl, rfl, rfl,
      by simp [reconnect, hl, hc], by simp [reconnect, hl, hc], by simp [reconnect, hl, hc]⟩
  · exact ⟨[Event.connect true], by simp [reconnect, hl, hc], rfl, rfl, rfl,
      by simp [reconnect, hl, hc], by simp [reconnect, hl, hc], by simp [reconnect, hl, hc]⟩
  · exact ⟨[Event.disconnect, Event.connect false, Event.sleep 10],
      by simp [reconnect, hl, hc], rfl, rfl, rfl,
      by simp [reconnect, hl, hc], by simp [reconnect, hl, hc], by simp [reconnect, hl, hc]⟩
  · exact ⟨[Event.disconnect, Event.connect true], by simp [reconnect, hl, hc], rfl, rfl, rfl,
      by simp [reconnect, hl, hc], by simp [reconnect, hl, hc], by simp [reconnect, hl, hc]⟩

/-- The retry loop when the first `n` calls of `dl_write` fail and the next
one succeeds: `n + 1` calls of `sendrecord`, the last one successful. -/
theorem sendLoop_retry (env : WriteEnv) (buf : List Nat) (r : Record) :
    ∀ (n fuel : Nat) (w : World), n < fuel →
      (∀ j, j < n → env.dlwrite (w.dlwrites + j) ≠ DlResult.ok) →
      env.dlwrite (w.dlwrites + n) = DlResult.ok →
      ∃ w1 evs, sendLoop env buf r fuel w = some w1 ∧ w1.log = w.log ++ evs ∧
        sendCalls evs = List.replicate n (buf, false) ++ [(buf, true)] ∧
        fileRecords evs = [] ∧ sentRecords evs = [buf] ∧
        w1.dlwrites = w.dlwrites + (n + 1) ∧ w1.totalrecsout = w.totalrecsout ∧
        w1.fwrites = w.fwrites ∧ w1.filelist = w.filelist := by
  intro n
  induction n with
  | zero =>
    intro fuel w hf _ hok
    obtain ⟨f, rfl⟩ : ∃ f, fuel = f + 1 := ⟨fuel - 1, by omega⟩
    rw [Nat.add_zero] at hok
    exact ⟨({ w with dlwrites := w.dlwrites + 1,
                     log := w.log ++ [Event.send buf r.starttime r.endtime true] } : World),
      [Event.send buf r.starttime r.endtime true], by simp only [sendLoop, hok],
      rfl, rfl, rfl, rfl, rfl, rfl, rfl, rfl⟩
  | succ n ih =>
    intro fuel w hf hfail hok
    obtain ⟨f, rfl⟩ : ∃ f, fuel = f + 1 := ⟨fuel - 1, by omega⟩
    cases hres : env.dlwrite w.dlwrites with
    | ok => exact absurd hres (by simpa using hfail 0 (by omega))
    | failed linkUp =>
      have hloop : sendLoop env buf r (f + 1) w =
          sendLoop env buf r f (reconnect env (afterFailedSend buf r linkUp w)) := by
        simp only [sendLoop, hres, afterFailedSend]
      have hdw := reconnect_dlwrites env (afterFailedSend buf r linkUp w)
      obtain ⟨evs0, hl0, hc0, hf0, hs0, ht0, hw0, hfl0⟩ :=
        reconnect_log env (afterFailedSend buf r linkUp w)
      have hdw' : (reconnect env (afterFailedSend buf r linkUp w)).dlwrites =
          w.dlwrites + 1 := hdw
      obtain ⟨w1, evs, hs, hl, hc, hfr, hsr, hd, ht, hw, hfl⟩ :=
        ih f (reconnect env (afterFailedSend buf r linkUp w)) (by omega)
          (fun j hj => by
            rw [hdw', Nat.add_assoc, Nat.add_comm 1 j]
            exact hfail (j + 1) (by omega))
          (by
            rw [hdw', Nat.add_assoc, Nat.add_comm 1 n]
            exact hok)
      refine ⟨w1, Event.send buf r.starttime r.endtime false :: (evs0 ++ evs),
        by rw [hloop, hs], ?_, ?_, ?_, ?_, ?_, ?_, ?_, ?_⟩
      · rw [hl, hl0]
        simp [afterFailedSend]
      · simp only [sendCalls, sendCalls_append, hc0, hc, List.nil_append,
          List.replicate_succ, List.cons_append]
      · simp only [fileRecords, fileRecords_append, hf0, hfr, List.append_nil]
      · simp only [sentRecords, sentRecords_append, hs0, hsr, List.nil_append]
      · rw [hd, hdw']; omega
      · rw [ht, ht0]; rfl
      · rw [hw, hw0]; rfl
      · rw [hfl, hfl0]; rfl

/-- What a successful `pace` does: nothing without pacing; with pacing it reads
the clock once, fixes the offset when it is still unset, and requests one
sleep exactly when the record is ahead of the clock. -/
theorem pace_cases {cfg : Config} {env : WriteEnv} {r : Record} {w w1 : World}
    {offset offset1 : Int} (hp : pace cfg env r w offset = some (w1, offset1)) :
    (cfg.streamdelay = false ∧ w1 = w ∧ offset1 = offset) ∨
    (cfg.streamdelay = true ∧
      offset1 = (if offset = HPTERROR then env.gethptime w.clockReads - r.endtime
        else offset) ∧
      ((offset1 - (env.gethptime w.clockReads - r.endtime) ≤ 0 ∧
          w1 = { w with clockReads := w.clockReads + 1 }) ∨
        (0 < offset1 - (env.gethptime w.clockReads - r.endtime) ∧
          ∃ us, usleepArg cfg.delayfactor
              (offset1 - (env.gethptime w.clockReads - r.endtime)) = some us ∧
            w1 = { w with clockReads := w.clockReads + 1,
                          log := w.log ++ [Event.usleep us] }))) := by
  unfold pace at hp
  by_cases hd : cfg.streamdelay = true
  · rw [if_pos hd] at hp
    simp only [] at hp
    right
    by_cases hsn : (if offset = HPTERROR then env.gethptime w.clockReads - r.endtime
        else offset) - (env.gethptime w.clockReads - r.endtime) > 0
    · rw [if_pos hsn] at hp
      cases hu : usleepArg cfg.delayfactor
          ((if offset = HPTERROR then env.gethptime w.clockReads - r.endtime
            else offset) - (env.gethptime w.clockReads - r.endtime)) with
      | none => rw [hu] at hp; cases hp
      | some us =>
        rw [hu] at hp
        simp only [Option.some.injEq, Prod.mk.injEq] at hp
        obtain ⟨hw, ho⟩ := hp
        subst ho
        exact ⟨hd, rfl, Or.inr ⟨hsn, us, hu, hw.symm⟩⟩
    · rw [if_neg hsn] at hp
      simp only [Option.some.injEq, Prod.mk.injEq] at hp
      obtain ⟨hw, ho⟩ := hp
      subst ho
      exact ⟨hd, rfl, Or.inl ⟨by omega, hw.symm⟩⟩
  · rw [if_neg hd] at hp
    simp only [Option.some.injEq, Prod.mk.injEq] at hp
    exact Or.inl ⟨by simpa using hd, hp.1.symm, hp.2.symm⟩

theorem pace_log {cfg : Config} {env : WriteEnv} {r : Record} {w w1 : World}
    {offset offset1 : Int} (hp : pace cfg env r w offset = some (w1, offset1)) :
    ∃ evs, w1.log = w.log ++ evs ∧ sendCalls evs = [] ∧ fileRecords evs = [] ∧
      sentRecords evs = [] ∧ w1.dlwrites = w.dlwrites ∧ w1.fwrites = w.fwrites ∧
      w1.totalrecsout = w.totalrecsout ∧ w1.filelist = w.filelist := by
  rcases pace_cases hp with ⟨_, hw, _⟩ | ⟨_, _, ⟨_, hw⟩ | ⟨_, us, _, hw⟩⟩
  · subst hw
    exact ⟨[], by simp, rfl, rfl, rfl, rfl, rfl, rfl, rfl⟩
  · subst hw
    exact ⟨[], by simp, rfl, rfl, rfl, rfl, rfl, rfl, rfl⟩
  · subst hw
    exact ⟨[Event.usleep us], rfl, rfl, rfl, rfl, rfl, rfl, rfl, rfl⟩

/-- C11: a failed write to the DataLink server neither ends the delivery nor
drops or repeats a record.  For a record that is read into the buffer and
paced, with a DataLink server configured: when the first `n` calls of
`dl_write` for it fail and call `n + 1` succeeds, the loop body of
`writerecords` returns with the error flag unset after exactly `n + 1` calls
of `sendrecord` for this record, `n` failures followed by the one success; the
record reaches the server once and the output file (if used) once, with one
`fwrite` call; `totalrecsout` grows by one; and the loop then goes on with the
next record. -/
theorem sendrecord_retry (fuel : Nat) (cfg : Config) (env : WriteEnv) (ofp : Bool)
    (r : Record) (w w1 : World) (files : List Filelink) (buf : List Nat)
    (offset offset1 : Int) (n : Nat)
    (hdl : cfg.dlconn = true)
    (hfetch : fetch env r w.filelist = some (files, some buf))
    (hpace : pace cfg env r { w with filelist := files } offset = some (w1, offset1))
    (hwrite : ofp = true → env.fwriteOk w.fwrites = true)
    (hfail : ∀ j, j < n → env.dlwrite (w.dlwrites + j) ≠ DlResult.ok)
    (hok : env.dlwrite (w.dlwrites + n) = DlResult.ok)
    (hfuel : n < fuel) :
    ∃ w2 evs, deliver fuel cfg env ofp r w offset = some (true, w2, offset1) ∧
      w2.log = w.log ++ evs ∧
      sendCalls evs = List.replicate n (buf, false) ++ [(buf, true)] ∧
      sentRecords evs = [buf] ∧
      fileRecords evs = (if ofp then [buf] else []) ∧
      w2.dlwrites = w.dlwrites + (n + 1) ∧
      w2.fwrites = w.fwrites + (if ofp then 1 else 0) ∧
      w2.totalrecsout = (w.totalrecsout + 1) % 18446744073709551616 ∧
      ∀ (h : Heap) (a k : Nat), h[a]? = some r →
        writeLoop fuel cfg env h ofp (k + 1) (some a) w offset =
          writeLoop fuel cfg env h ofp k r.next w2 offset1 := by
  obtain ⟨evp, hlp, hcp, hfp, hsp, hdp, hwp, htp, _⟩ := pace_log hpace
  have hdp' : w1.dlwrites = w.dlwrites := hdp
  have hwp' : w1.fwrites = w.fwrites := hwp
  have htp' : w1.totalrecsout = w.totalrecsout := htp
  have hlp' : w1.log = w.log ++ evp := hlp
  have hnofail : ¬ (ofp = true ∧ env.fwriteOk w1.fwrites = false) := by
    rintro ⟨ho, hf⟩
    rw [hwp', hwrite ho] at hf
    cases hf
  -- the world after the write to the output file
  obtain ⟨wf, hwf, hlf, hdf, hff, htf⟩ : ∃ wf : World,
      (if ofp = true then
        ({ w1 with fwrites := w1.fwrites + 1, log := w1.log ++ [Event.fwrite buf] } : World)
       else w1) = wf ∧
      wf.log = w1.log ++ (if ofp then [Event.fwrite buf] else []) ∧
      wf.dlwrites = w1.dlwrites ∧ wf.fwrites = w1.fwrites + (if ofp then 1 else 0) ∧
      wf.totalrecsout = w1.totalrecsout := by
    cases ofp
    · exact ⟨w1, by simp, by simp, rfl, by simp, rfl⟩
    · exact ⟨({ w1 with fwrites := w1.fwrites + 1, log := w1.log ++ [Event.fwrite buf] } : World),
        by simp, by simp, rfl, by simp, rfl⟩
  obtain ⟨ws, evs, hs, hls, hcs, hfs, hss, hds, hts, hws, _⟩ :=
    sendLoop_retry env buf r n fuel wf hfuel
      (fun j hj => by rw [hdf, hdp']; exact hfail j hj) (by rw [hdf, hdp']; exact hok)
  have hdel : deliver fuel cfg env ofp r w offset =
      some (true,
        { ws with totalrecsout := (ws.totalrecsout + 1) % 18446744073709551616,
                  totalbytesout :=
                    (((ws.totalbytesout : Int) + r.reclen) % 18446744073709551616).toNat },
        offset1) := by
    unfold deliver
    rw [hfetch]
    dsimp only
    rw [hpace]
    dsimp only
    rw [if_neg hnofail, hwf, if_pos hdl, hs]
  refine ⟨_, evp ++ (if ofp then [Event.fwrite buf] else []) ++ evs, hdel, ?_, ?_, ?_, ?_, ?_,
    ?_, ?_, ?_⟩
  · show ws.log = _
    rw [hls, hlf, hlp']
    simp only [List.append_assoc]
  · rw [sendCalls_append, sendCalls_append, hcp, hcs]
    cases ofp <;> simp [sendCalls]
  · rw [sentRecords_append, sentRecords_append, hsp, hss]
    cases ofp <;> simp [sentRecords]
  · rw [fileRecords_append, fileRecords_append, hfp, hfs]
    cases ofp <;> simp [fileRecords]
  · show ws.dlwrites = _
    rw [hds, hdf, hdp']
  · show ws.fwrites = _
    rw [hws, hff, hwp']
  · show (ws.totalrecsout + 1) % 18446744073709551616 = _
    rw [hts, htf, htp']
  · intro h a k ha
    simp only [writeLoop, ha, hdel]

/-- Witness of C11: the first record of the example index, with a DataLink
server whose first `dl_write` fails and whose second succeeds; and the whole
run on the example index in that world returns 0 with every record delivered
once to the server and once to the output file. -/
theorem sendrecord_retry_witness :
    (∃ w2 evs,
      deliver 2 exConfigDl exWriteEnvRetry true
        { flp := 0, offset := 0, reclen := 2, starttime := 10, endtime := 20,
          prev := none, next := some 1 } (initWorld exFiles) HPTERROR =
        some (true, w2, HPTERROR) ∧
      w2.log = (initWorld exFiles).log ++ evs ∧
      sendCalls evs = [([1, 2], false), ([1, 2], true)] ∧
      sentRecords evs = [[1, 2]] ∧ fileRecords evs = [[1, 2]]) ∧
    (∃ w3, writerecords 2 exConfigDl exWriteEnvRetry exIndex (some exIndexMap)
        (initWorld exFiles) = some (0, w3) ∧
      sendCalls w3.log =
        [([1, 2], false), ([1, 2], true), ([5, 6, 7], true), ([12, 13], true)] ∧
      sentRecords w3.log = [[1, 2], [5, 6, 7], [12, 13]] ∧
      fileRecords w3.log = [[1, 2], [5, 6, 7], [12, 13]] ∧ w3.totalrecsout = 3) := by
  obtain ⟨w2, evs, hd, hl, hc, hs, hf, _⟩ :=
    sendrecord_retry 2 exConfigDl exWriteEnvRetry true
      { flp := 0, offset := 0, reclen := 2, starttime := 10, endtime := 20,
        prev := none, next := some 1 } (initWorld exFiles)
      { initWorld exFiles with
        filelist := [ { infilename := "a.mseed", infp := some 2 },
                      { infilename := "b.mseed", infp := none } ] }
      [ { infilename := "a.mseed", infp := some 2 }, { infilename := "b.mseed", infp := none } ]
      [1, 2] HPTERROR HPTERROR 1 rfl (by decide) (by decide) (fun _ => rfl)
      (fun j hj => by
        have hj0 : j = 0 := by omega
        subst hj0
        decide)
      (by decide) (by decide)
  refine ⟨⟨w2, evs, hd, hl, hc, hs, hf⟩, ?_⟩
  have hrun : (writerecords 2 exConfigDl exWriteEnvRetry exIndex (some exIndexMap)
      (initWorld exFiles)).isSome = true := by decide
  obtain ⟨p, hp⟩ := Option.isSome_iff_exists.mp hrun
  have h1 : (writerecords 2 exConfigDl exWriteEnvRetry exIndex (some exIndexMap)
      (initWorld exFiles)).map (fun p => p.1) = some 0 := by decide
  have h2 : (writerecords 2 exConfigDl exWriteEnvRetry exIndex (some exIndexMap)
      (initWorld exFiles)).map (fun p => sendCalls p.2.log) =
      some [([1, 2], false), ([1, 2], true), ([5, 6, 7], true), ([12, 13], true)] := by decide
  have h3 : (writerecords 2 exConfigDl exWriteEnvRetry exIndex (some exIndexMap)
      (initWorld exFiles)).map (fun p => sentRecords p.2.log) =
      some [[1, 2], [5, 6, 7], [12, 13]] := by decide
  have h4 : (writerecords 2 exConfigDl exWriteEnvRetry exIndex (some exIndexMap)
      (initWorld exFiles)).map (fun p => fileRecords p.2.log) =
      some [[1, 2], [5, 6, 7], [12, 13]] := by decide
  have h5 : (writerecords 2 exConfigDl exWriteEnvRetry exIndex (some exIndexMap)
      (initWorld exFiles)).map (fun p => p.2.totalrecsout) = some 3 := by decide
  rw [hp] at h1 h2 h3 h4 h5
  obtain ⟨ret, w3⟩ := p
  simp only [Option.map_some', Option.some.injEq] at h1 h2 h3 h4 h5
  subst h1
  exact ⟨w3, hp, h2, h3, h4, h5⟩

/-! ## Pacing -/

/-- The sleep argument is defined for every positive delay factor. -/
theorem usleepArg_isSome {df : DelayFactor} (hnum : 0 < df.num) (hden : 0 < df.den)
    (snooze : Int) : (usleepArg df snooze).isSome = true := by
  have hu : ¬ (df.num ≤ 0 ∨ df.den = 0) := by omega
  simp only [usleepArg, if_neg hu, Option.isSome_some]

set_option maxRecDepth 4000 in
/-- The sleep arguments computed in `double` for the delay factor 4.4 and the
waits 11 and 33. -/
theorem usleepArg_delay44 :
    usleepArg exDelay44 11 = some 3 ∧ usleepArg exDelay44 33 = some 7 := by
  decide

/-- A record met while the offset is unset captures the offset and is written
without a sleep. -/
theorem pace_unset (cfg : Config) (env : WriteEnv) (r : Record) (w : World)
    (hsd : cfg.streamdelay = true) :
    pace cfg env r w HPTERROR =
      some ({ w with clockReads := w.clockReads + 1 },
        env.gethptime w.clockReads - r.endtime) := by
  unfold pace
  rw [if_pos hsd]
  simp

/-- A record met with the offset set to a value other than `HPTERROR`: the
offset is kept, and a sleep is requested exactly when the intended wait is
positive. -/
theorem pace_set (cfg : Config) (env : WriteEnv) (r : Record) (w : World)
    (firstEnd now0 : Int) (hsd : cfg.streamdelay = true) (hoff : now0 - firstEnd ≠ HPTERROR) :
    pace cfg env r w (now0 - firstEnd) =
      if 0 < specWait firstEnd now0 r.endtime (env.gethptime w.clockReads) then
        (usleepArg cfg.delayfactor
            (specWait firstEnd now0 r.endtime (env.gethptime w.clockReads))).map
          (fun us => ({ w with clockReads := w.clockReads + 1,
                               log := w.log ++ [Event.usleep us] }, now0 - firstEnd))
      else some ({ w with clockReads := w.clockReads + 1 }, now0 - firstEnd) := by
  have hwait : now0 - firstEnd - (env.gethptime w.clockReads - r.endtime) =
      specWait firstEnd now0 r.endtime (env.gethptime w.clockReads) := by
    unfold specWait; ring
  unfold pace
  rw [if_pos hsd]
  dsimp only
  rw [if_neg hoff, hwait]
  by_cases hpos : 0 < specWait firstEnd now0 r.endtime (env.gethptime w.clockReads)
  · rw [if_pos hpos, if_pos hpos]
    cases usleepArg cfg.delayfactor
        (specWait firstEnd now0 r.endtime (env.gethptime w.clockReads)) <;> rfl
  · rw [if_neg hpos, if_neg hpos]

/-- C12 (evaluation): two records whose end times are 2145916800000000 and
2000000 later, with the clock at 0 for both readings and delay factor 1.
`writerecords` captures the offset whenever it holds `HPTERROR`, the value that
marks it unset.  The offset captured at the first record,
`0 - 2145916800000000`, is that value, so the second record is met with the
offset unset and captures it again: its intended wait is 2000000, yet the run
returns 0 without requesting a sleep.  With end times 100 and 2000100 the
offset is captured once and the run requests one sleep, of 2000000 for delay
factor 1 and of 1000000 for delay factor 2.  In general a record met with the
offset unset captures it and is not slept for, and a record met with a captured
offset other than `HPTERROR` keeps it and is slept for exactly when its
intended wait is positive, the sleep being the value that the `double`
computation `(unsigned long)(wait / delayfactor + 0.5)` gives.  That value
need not be the nearest integer to the quotient: for the delay factor 4.4 and
the wait 11 the quotient is below 2.5 and the sleep is 3; for the wait 33 the
sleep is 7. -/
theorem pacing_offset_recaptured :
    (∀ (cfg : Config) (env : WriteEnv) (r : Record) (w : World),
      cfg.streamdelay = true →
      pace cfg env r w HPTERROR =
        some ({ w with clockReads := w.clockReads + 1 },
          env.gethptime w.clockReads - r.endtime)) ∧
    (∀ (cfg : Config) (env : WriteEnv) (r : Record) (w : World) (firstEnd now0 : Int),
      cfg.streamdelay = true → now0 - firstEnd ≠ HPTERROR →
      pace cfg env r w (now0 - firstEnd) =
        if 0 < specWait firstEnd now0 r.endtime (env.gethptime w.clockReads) then
          (usleepArg cfg.delayfactor
              (specWait firstEnd now0 r.endtime (env.gethptime w.clockReads))).map
            (fun us => ({ w with clockReads := w.clockReads + 1,
                                 log := w.log ++ [Event.usleep us] }, now0 - firstEnd))
        else some ({ w with clockReads := w.clockReads + 1 }, now0 - firstEnd)) ∧
    WellFormed (exPair 2145916800000000) exPairMap [0, 1] ∧
    (0 : Int) - 2145916800000000 = HPTERROR ∧
    specWait 2145916800000000 0 (2145916800000000 + 2000000) 0 = 2000000 ∧
    (writerecords 0 (exConfigPaced 1) exWriteEnv (exPair 2145916800000000) (some exPairMap)
        (initWorld exFiles)).map (fun p => (p.1, usleeps p.2.log)) = some (0, []) ∧
    WellFormed (exPair 100) exPairMap [0, 1] ∧
    specWait 100 0 (100 + 2000000) 0 = 2000000 ∧
    (writerecords 0 (exConfigPaced 1) exWriteEnv (exPair 100) (some exPairMap)
        (initWorld exFiles)).map (fun p => (p.1, usleeps p.2.log)) = some (0, [2000000]) ∧
    (writerecords 0 (exConfigPaced 2) exWriteEnv (exPair 100) (some exPairMap)
        (initWorld exFiles)).map (fun p => (p.1, usleeps p.2.log)) = some (0, [1000000]) ∧
    2 * (11 * exDelay44.den) < 5 * exDelay44.num.toNat ∧
    usleepArg exDelay44 11 = some 3 ∧
    usleepArg exDelay44 33 = some 7 :=
  ⟨pace_unset, pace_set, by decide, by decide, by decide, by decide, by decide, by decide,
    by decide, by decide, by decide, usleepArg_delay44.1, usleepArg_delay44.2⟩

/-! ## Termination of `sortrecmap` -/

/-- One pass of the outer loop of `sortrecmap` over a chain `xs`: the pass ends,
having performed `numMerges insize xs` merges, the list is closed at `tail`,
and the loop returns when that number is at most one and otherwise goes on
with twice the run length. -/
theorem sortLoop_step (f : Nat) {h : Heap} {top : Option Nat} {insize : Nat} {xs : List Nat}
    (hi : 0 < insize) (hl : IsList h top xs) (hne : xs ≠ []) (hbig : xs.length ≤ 2 ^ 31) :
    ∃ s t h1,
      passLoop insize h.length { h := h, p := top, top := none, tail := none, nmerges := 0 } =
        some s ∧
      s.nmerges = numMerges insize xs ∧ s.tail = some t ∧ setNext s.h t none = some h1 ∧
      IsList h1 s.top (mergePass (endtimeOf h) insize xs) ∧
      sortLoop (f + 1) h top insize =
        (if s.nmerges ≤ 1 then some (h1, s.top, s.tail)
         else if insize * 2 > INT_MAX then none
         else sortLoop f h1 s.top (insize * 2)) := by
  have hnd : xs.Nodup := isList_nodup hl
  have hlen : xs.length ≤ h.length := length_le_of_nodup_of_lt hnd (seg_valid hl)
  have h2n := two_numMerges_le hi xs.length xs (le_refl _)
  rcases passLoop_spec hi h.length
      { h := h, p := top, top := none, tail := none, nmerges := 0 } [] xs
      (by simpa using hnd) (out_nil h) hl hlen with ⟨hov, _⟩ | ⟨s, hs, ho, hn, hsd⟩
  · exfalso
    have : INT_MAX < 0 + numMerges insize xs := hov
    have e : (2:Nat) ^ 31 = 2147483648 := by norm_num
    unfold INT_MAX at this
    omega
  · have ho' : Out s.h s.top s.tail (mergePass (endtimeOf h) insize xs) := by
      simpa using ho
    have hn' : s.nmerges = numMerges insize xs := by simpa using hn
    have hperm := mergePass_perm (endtimeOf h) insize xs.length xs (le_refl _)
    have hne' : mergePass (endtimeOf h) insize xs ≠ [] := by
      intro h0
      rw [h0] at hperm
      exact hne (List.Perm.nil_eq hperm).symm
    obtain ⟨t, h2, ht, hset, hl2, _, _⟩ :=
      out_close ho' hne' (hperm.nodup_iff.mpr hnd)
    refine ⟨s, t, h2, hs, hn', ht, hset, hl2, ?_⟩
    simp only [sortLoop, hs, ht, hset]

/-- C17: `sortrecmap` returns 0 for every well-formed record map of fewer than
`2 ^ 30` entries.  Each pass of its outer loop over the chain ends; a pass
whose run length is at least the number of entries performs at most one merge
and returns from the loop; a pass that performs more than one merge is
followed by a pass with twice the run length, which does not overflow.  For a
record map with `first` or `last` empty it returns 0 at once and leaves the map
as it is, and for the `NULL` record map it returns -1. -/
theorem sortrecmap_terminates (h : Heap) (m : RecordMap) (xs : List Nat)
    (hwf : WellFormed h m xs) (hn : xs.length < 2 ^ 30) :
    (∃ h1 m1, sortrecmap h (some m) = some (0, h1, some m1)) ∧
    (∀ (f : Nat) (h2 : Heap) (top : Option Nat) (insize : Nat) (ys : List Nat),
      0 < insize → IsList h2 top ys → ys ≠ [] → ys.length = xs.length →
      ∃ s t h3,
        passLoop insize h2.length
            { h := h2, p := top, top := none, tail := none, nmerges := 0 } = some s ∧
        s.tail = some t ∧ setNext s.h t none = some h3 ∧
        (xs.length ≤ insize →
          s.nmerges ≤ 1 ∧ sortLoop (f + 1) h2 top insize = some (h3, s.top, s.tail)) ∧
        (1 < s.nmerges →
          insize * 2 ≤ INT_MAX ∧
            sortLoop (f + 1) h2 top insize = sortLoop f h3 s.top (insize * 2))) ∧
    (m.first = none ∨ m.last = none → sortrecmap h (some m) = some (0, h, some m)) ∧
    sortrecmap h (some emptyMap) = some (0, h, some emptyMap) ∧
    sortrecmap h none = some (-1, h, none) := by
  have e30 : (2:Nat) ^ 30 = 1073741824 := by norm_num
  have e31 : (2:Nat) ^ 31 = 2147483648 := by norm_num
  refine ⟨sortrecmap_total hwf (by omega), ?_, ?_, ?_, rfl⟩
  · intro f h2 top insize ys hi hl hne hlen
    obtain ⟨s, t, h3, hs, hnm, ht, hset, _, hloop⟩ :=
      sortLoop_step f hi hl hne (by omega)
    refine ⟨s, t, h3, hs, ht, hset, ?_, ?_⟩
    · intro hle
      have h1 : s.nmerges ≤ 1 := by
        rw [hnm]
        exact numMerges_of_le (by omega)
      exact ⟨h1, by rw [hloop, if_pos h1]⟩
    · intro hgt
      have hlt : 2 * insize < ys.length := by
        by_contra hle
        have := @numMerges_of_le insize ys (by omega)
        omega
      have hov : ¬ insize * 2 > INT_MAX := by
        unfold INT_MAX
        omega
      refine ⟨by omega, ?_⟩
      rw [hloop, if_neg (by omega), if_neg hov]
  · intro hc
    simp [sortrecmap, hc]
  · simp [sortrecmap, emptyMap]

/-- Witness of C17: the five-record example index. -/
theorem sortrecmap_terminates_witness :
    WellFormed exHeap5 exMap5 [0, 1, 2, 3, 4] ∧
    ∃ h1 m1, sortrecmap exHeap5 (some exMap5) = some (0, h1, some m1) :=
  ⟨by decide,
    (sortrecmap_terminates exHeap5 exMap5 [0, 1, 2, 3, 4] (by decide) (by norm_num)).1⟩

/-! ## The record index stays a doubly linked list while it is built -/

theorem appendRecords_linked (c : Int) :
    ∀ (recs acc : List (Nat × MSRecord)),
      appendRecords recs (linkedHeap acc) (linkedMap c acc.length) =
        some (linkedHeap (acc ++ recs), linkedMap c (acc ++ recs).length) := by
  intro recs
  induction recs with
  | nil => intro acc; simp [appendRecords]
  | cons x xs ih =>
    intro acc
    obtain ⟨flp, msr⟩ := x
    simp only [appendRecords, appendRecord_linked]
    rw [ih (acc ++ [(flp, msr)])]
    simp

theorem indexInvariant_linked (acc : List (Nat × MSRecord)) :
    IndexInvariant (linkedHeap acc) (linkedMap 0 acc.length) := by
  constructor
  · intro h0
    have hn : acc.length = 0 := by
      simp only [linkedMap] at h0
      omega
    simp [linkedMap, hn]
  · intro hne
    have hn : acc.length ≠ 0 := by
      intro h0
      apply hne
      simp [linkedMap, h0]
    have hpos : 0 < acc.length := Nat.pos_of_ne_zero hn
    have hlast : acc.length - 1 < acc.length := by omega
    obtain ⟨hl, hlst⟩ := wellFormed_linked acc 0
    refine ⟨List.range acc.length, 0, acc.length - 1,
      linkedRecord acc.length 0 acc[0], linkedRecord acc.length (acc.length - 1)
        acc[acc.length - 1],
      by simp [linkedMap, hn], by simp [linkedMap, hn], ?_, by simp [linkedRecord], ?_, ?_,
      hl, ?_, by simp [linkedMap], ?_⟩
    · rw [linkedHeap_getElem?, List.getElem?_eq_getElem hpos]; rfl
    · rw [linkedHeap_getElem?, List.getElem?_eq_getElem hlast]; rfl
    · have : ¬ (acc.length - 1 + 1 < acc.length) := by omega
      simp [linkedRecord, this]
    · rw [← hlst]; simp [linkedMap, hn]
    · intro i hi ri j hri hnext
      have hi' : i < acc.length := List.mem_range.mp hi
      rw [linkedHeap_getElem?, List.getElem?_eq_getElem hi'] at hri
      have hri' : ri = linkedRecord acc.length i acc[i] := (Option.some.inj hri).symm
      subst hri'
      have hj : i + 1 < acc.length ∧ j = i + 1 := by
        by_cases hlt : i + 1 < acc.length
        · simp only [linkedRecord, if_pos hlt, Option.some.injEq] at hnext
          exact ⟨hlt, hnext.symm⟩
        · simp [linkedRecord, hlt] at hnext
      obtain ⟨hlt, rfl⟩ := hj
      refine ⟨linkedRecord acc.length (i + 1) acc[i + 1], ?_, by simp [linkedRecord]⟩
      rw [linkedHeap_getElem?, List.getElem?_eq_getElem hlt]; rfl

/-- C18: the append step of `readfiles` keeps the invariant of the record
index.  From the empty map, any number of appends succeeds and leaves a heap
and map with the invariant and a count equal to the number of appends; one
more append from such a state keeps the invariant and adds one to the count;
and whatever `readfiles` returns from the empty map, with either status,
satisfies the invariant. -/
theorem append_invariant :
    (∀ recs : List (Nat × MSRecord), ∃ h m,
      appendRecords recs [] emptyMap = some (h, m) ∧ IndexInvariant h m ∧
        m.recordcnt = recs.length) ∧
    (∀ (recs : List (Nat × MSRecord)) (h : Heap) (m : RecordMap) (flp : Nat) (msr : MSRecord),
      appendRecords recs [] emptyMap = some (h, m) →
      ∃ h1 m1, appendRecord h m flp msr = some (h1, m1) ∧ IndexInvariant h1 m1 ∧
        m1.recordcnt = m.recordcnt + 1) ∧
    (∀ (cfg : Config) (env : ReadEnv) (filelist : List Filelink) (ret : Int) (h : Heap)
        (m : RecordMap),
      readfiles cfg env filelist [] emptyMap = some (ret, h, m) → IndexInvariant h m) ∧
    IndexInvariant [] emptyMap := by
  have hrun : ∀ recs : List (Nat × MSRecord),
      appendRecords recs [] emptyMap =
        some (linkedHeap recs, linkedMap 0 recs.length) := by
    intro recs
    have := appendRecords_linked 0 recs []
    rw [emptyMap_eq]
    simpa [linkedHeap] using this
  refine ⟨?_, ?_, ?_, ?_⟩
  · intro recs
    exact ⟨_, _, hrun recs, indexInvariant_linked recs, by simp [linkedMap]⟩
  · intro recs h m flp msr hr
    rw [hrun recs] at hr
    simp only [Option.some.injEq, Prod.mk.injEq] at hr
    obtain ⟨rfl, rfl⟩ := hr
    refine ⟨_, _, appendRecord_linked recs 0 flp msr, indexInvariant_linked _, ?_⟩
    simp [linkedMap]
  · intro cfg env filelist ret h m hr
    obtain ⟨ret1, new, hr1, _⟩ := readfiles_linked cfg env filelist
    rw [hr1] at hr
    simp only [Option.some.injEq, Prod.mk.injEq] at hr
    obtain ⟨_, rfl, rfl⟩ := hr
    exact indexInvariant_linked new
  · have := indexInvariant_linked []
    simpa [linkedHeap, linkedMap, emptyMap] using this

/-! ## The time tests of `readfiles` as an interval overlap -/

/-- C19: for a record with `start ≤ end`, the start-time and end-time tests of
`readfiles` together let the record pass exactly when its interval overlaps
the selected window: with both bounds set, if and only if `end ≥ startbound`
and `start ≤ endbound`; with only the start bound set, if and only if
`end ≥ startbound`; with only the end bound set, if and only if
`start ≤ endbound`; with no bound set, always.  Without match and reject
expressions such a record is indexed exactly in these cases. -/
theorem time_filters_overlap (cfg : Config) (recstart recend : Int)
    (hle : recstart ≤ recend) :
    (cfg.starttime ≠ HPTERROR → cfg.endtime ≠ HPTERROR →
      ((skipStarttime cfg recstart recend = false ∧ skipEndtime cfg recstart recend = false) ↔
        (recend ≥ cfg.starttime ∧ recstart ≤ cfg.endtime))) ∧
    (cfg.starttime ≠ HPTERROR → cfg.endtime = HPTERROR →
      ((skipStarttime cfg recstart recend = false ∧ skipEndtime cfg recstart recend = false) ↔
        recend ≥ cfg.starttime)) ∧
    (cfg.starttime = HPTERROR → cfg.endtime ≠ HPTERROR →
      ((skipStarttime cfg recstart recend = false ∧ skipEndtime cfg recstart recend = false) ↔
        recstart ≤ cfg.endtime)) ∧
    (cfg.starttime = HPTERROR → cfg.endtime = HPTERROR →
      skipStarttime cfg recstart recend = false ∧ skipEndtime cfg recstart recend = false) ∧
    (∀ msr : MSRecord, msr.starttime = recstart → msr.endtime = recend →
      cfg.matchRegex = none → cfg.rejectRegex = none →
      (accepts cfg msr = true ↔
        ((cfg.starttime = HPTERROR ∨ recend ≥ cfg.starttime) ∧
          (cfg.endtime = HPTERROR ∨ recstart ≤ cfg.endtime)))) := by
  have hs : skipStarttime cfg recstart recend = false ↔
      (cfg.starttime = HPTERROR ∨ recend ≥ cfg.starttime) := by
    unfold skipStarttime
    simp only [Bool.and_eq_false_imp, decide_eq_true_eq, Bool.not_eq_false',
      Bool.and_eq_true, ge_iff_le]
    constructor
    · intro h
      by_cases h1 : cfg.starttime = HPTERROR
      · exact Or.inl h1
      · by_cases h2 : recstart < cfg.starttime
        · exact Or.inr (h h1 h2).2
        · exact Or.inr (by omega)
    · rintro (h | h) h1 h2
      · exact absurd h h1
      · exact ⟨by omega, h⟩
  have he : skipEndtime cfg recstart recend = false ↔
      (cfg.endtime = HPTERROR ∨ recstart ≤ cfg.endtime) := by
    unfold skipEndtime
    simp only [Bool.and_eq_false_imp, decide_eq_true_eq, Bool.not_eq_false',
      Bool.and_eq_true, ge_iff_le, gt_iff_lt]
    constructor
    · intro h
      by_cases h1 : cfg.endtime = HPTERROR
      · exact Or.inl h1
      · by_cases h2 : cfg.endtime < recend
        · exact Or.inr (h h1 h2).1
        · exact Or.inr (by omega)
    · rintro (h | h) h1 h2
      · exact absurd h h1
      · exact ⟨h, by omega⟩
  refine ⟨?_, ?_, ?_, ?_, ?_⟩
  · intro h1 h2
    rw [hs, he]
    simp [h1, h2]
  · intro h1 h2
    rw [hs, he]
    simp [h1, h2]
  · intro h1 h2
    rw [hs, he]
    simp [h1, h2]
  · intro h1 h2
    rw [hs, he]
    simp [h1, h2]
  · intro msr hst hen hm hr
    rw [accepts_eq_true, hst, hen, hs, he]
    simp [skipMatch, skipReject, hm, hr]

/-- Witness of C19: the window from 15 to 30 and the record from 10 to 20. -/
theorem time_filters_overlap_witness :
    (10 : Int) ≤ 20 ∧
    ((skipStarttime { exConfig with starttime := 15, endtime := 30 } 10 20 = false ∧
      skipEndtime { exConfig with starttime := 15, endtime := 30 } 10 20 = false) ↔
      ((20 : Int) ≥ 15 ∧ (10 : Int) ≤ 30)) :=
  ⟨by decide,
    (time_filters_overlap { exConfig with starttime := 15, endtime := 30 } 10 20
      (by decide)).1 (by decide) (by decide)⟩

/-! ## `readregexfile` -/

theorem isspace_newline : isspace newline = true := by decide

theorem newline_ne_NUL : newline ≠ NUL := by decide

theorem cstr_eq_self {l : List Char} (h : NUL ∉ l) : cstr l = l := by
  unfold cstr
  rw [List.takeWhile_eq_self_iff]
  intro c hc
  simp only [bne_iff_ne, ne_eq]
  rintro rfl
  exact h hc

theorem takeWhile_append_newline (l : List Char) :
    (l ++ [newline]).takeWhile (fun d => !isspace d) = l.takeWhile (fun d => !isspace d) := by
  induction l with
  | nil => simp [List.takeWhile, isspace_newline]
  | cons c l ih =>
    simp only [List.cons_append, List.takeWhile_cons, ih]

/-- The token `sscanf` reads from a buffer without `NUL` is the specified
token of the buffer. -/
theorem scanToken_eq_specToken {l : List Char} (h : NUL ∉ l) : scanToken l = specToken l := by
  unfold scanToken specToken
  rw [cstr_eq_self h]
  cases hd : l.dropWhile isspace with
  | nil => simp
  | cons c t =>
    have hc : isspace c = false := by
      have := List.head_dropWhile_not isspace l (by rw [hd]; simp)
      simpa [hd] using this
    simp [List.takeWhile_cons, hc]

theorem specToken_append_newline (l : List Char) :
    specToken (l ++ [newline]) = specToken l := by
  induction l with
  | nil => simp [specToken, List.dropWhile, isspace_newline]
  | cons c l ih =>
    by_cases hc : isspace c = true
    · have h1 : specToken (c :: (l ++ [newline])) = specToken (l ++ [newline]) := by
        simp [specToken, List.dropWhile_cons, hc]
      have h2 : specToken (c :: l) = specToken l := by
        simp [specToken, List.dropWhile_cons, hc]
      rw [List.cons_append, h1, h2, ih]
    · simp [specToken, List.dropWhile_cons, hc, takeWhile_append_newline]

theorem fgetsAux_line : ∀ (n : Nat) (l rest : List Char), newline ∉ l → l.length < n →
    fgetsAux n (l ++ newline :: rest) = (l ++ [newline], rest) := by
  intro n l
  induction l generalizing n with
  | nil =>
    intro rest _ hn
    obtain ⟨k, rfl⟩ : ∃ k, n = k + 1 := ⟨n - 1, by simp at hn; omega⟩
    simp [fgetsAux]
  | cons c l ih =>
    intro rest hnl hn
    obtain ⟨k, rfl⟩ : ∃ k, n = k + 1 := ⟨n - 1, by simp at hn; omega⟩
    have hc : c ≠ newline := fun h => hnl (by simp [h])
    have hl : newline ∉ l := fun h => hnl (by simp [h])
    have e := ih k rest hl (by simp at hn; omega)
    show fgetsAux (k + 1) (c :: (l ++ newline :: rest)) = _
    simp only [fgetsAux, if_neg hc, e, List.cons_append]

theorem fgetsAux_last : ∀ (n : Nat) (l : List Char), newline ∉ l → l.length ≤ n →
    fgetsAux n l = (l, []) := by
  intro n l
  induction l generalizing n with
  | nil => intro _ _; cases n <;> simp [fgetsAux]
  | cons c l ih =>
    intro hnl hn
    obtain ⟨k, rfl⟩ : ∃ k, n = k + 1 := ⟨n - 1, by simp at hn; omega⟩
    have hc : c ≠ newline := fun h => hnl (by simp [h])
    have hl : newline ∉ l := fun h => hnl (by simp [h])
    simp only [fgetsAux, if_neg hc]
    rw [ih k hl (by simp at hn; omega)]

theorem fgetsAux_full : ∀ (n : Nat) (l rest : List Char), newline ∉ l → l.length = n →
    fgetsAux n (l ++ rest) = (l, rest) := by
  intro n l
  induction l generalizing n with
  | nil =>
    intro rest _ hn
    simp only [List.length_nil] at hn
    subst hn
    simp [fgetsAux]
  | cons c l ih =>
    intro rest hnl hn
    obtain ⟨k, rfl⟩ : ∃ k, n = k + 1 := ⟨n - 1, by simp at hn; omega⟩
    have hc : c ≠ newline := fun h => hnl (by simp [h])
    have hl : newline ∉ l := fun h => hnl (by simp [h])
    have e := ih k rest hl (by simp at hn; omega)
    show fgetsAux (k + 1) (c :: (l ++ rest)) = _
    simp only [fgetsAux, if_neg hc, e]

theorem textLines_last : ∀ (l : List Char), newline ∉ l → l ≠ [] → textLines l = [l] := by
  intro l
  induction l with
  | nil => intro _ h; exact absurd rfl h
  | cons c l ih =>
    intro hnl _
    have hc : c ≠ newline := fun h => hnl (by simp [h])
    have hl : newline ∉ l := fun h => hnl (by simp [h])
    by_cases hl0 : l = []
    · subst hl0
      simp [textLines, hc]
    · simp [textLines, hc, ih hl hl0]

theorem textLines_line : ∀ (l rest : List Char), newline ∉ l →
    textLines (l ++ newline :: rest) = l :: textLines rest := by
  intro l
  induction l with
  | nil => intro rest _; simp [textLines]
  | cons c l ih =>
    intro rest hnl
    have hc : c ≠ newline := fun h => hnl (by simp [h])
    have hl : newline ∉ l := fun h => hnl (by simp [h])
    simp [textLines, hc, ih rest hl]

theorem split_at_newline : ∀ (s : List Char),
    newline ∉ s ∨ ∃ l rest, s = l ++ newline :: rest ∧ newline ∉ l := by
  intro s
  induction s with
  | nil => exact Or.inl (by simp)
  | cons c s ih =>
    by_cases hc : c = newline
    · exact Or.inr ⟨[], s, by simp [hc], by simp⟩
    · rcases ih with h | ⟨l, rest, hs, hl⟩
      · exact Or.inl (by simp [hc, h, Ne.symm hc])
      · exact Or.inr ⟨c :: l, rest, by simp [hs], by simp [hl, Ne.symm hc]⟩

theorem pieces_fuel (n : Nat) (hn : 0 < n) : ∀ (f g : Nat) (l : List Char),
    l.length ≤ f → l.length ≤ g → pieces n f l = pieces n g l := by
  intro f
  induction f with
  | zero =>
    intro g l hf _
    have hl : l.length ≤ n := by omega
    cases g with
    | zero => rfl
    | succ g => simp only [pieces, if_pos hl]
  | succ f ih =>
    intro g l hf hg
    cases g with
    | zero =>
      have hl : l.length ≤ n := by omega
      simp only [pieces, if_pos hl]
    | succ g =>
      by_cases hl : l.length ≤ n
      · simp only [pieces, if_pos hl]
      · simp only [pieces, if_neg hl]
        rw [ih g (l.drop n) (by rw [List.length_drop]; omega) (by rw [List.length_drop]; omega)]

theorem linePieces_short {l : List Char} (hl : l.length ≤ 1023) : linePieces l = [l] := by
  unfold linePieces
  cases l.length with
  | zero => rfl
  | succ k => simp only [pieces, if_pos hl]

theorem linePieces_long {l : List Char} (hl : 1023 < l.length) :
    linePieces l = l.take 1023 :: linePieces (l.drop 1023) := by
  unfold linePieces
  obtain ⟨k, hk⟩ : ∃ k, l.length = k + 1 := ⟨l.length - 1, by omega⟩
  rw [hk]
  simp only [pieces, if_neg (not_le.mpr hl)]
  rw [pieces_fuel 1023 (by decide) k (l.drop 1023).length (l.drop 1023)
    (by rw [List.length_drop]; omega) (le_refl _)]

theorem specToken_nil : specToken [] = none := rfl

/-- The tokens of the pieces of a line of at least 1023 characters: the token
of its first 1023 characters, then the tokens of the pieces of the rest. -/
theorem linePieces_tokens {l : List Char} (hl : 1023 ≤ l.length) :
    (linePieces l).filterMap specToken =
      (l.take 1023 :: linePieces (l.drop 1023)).filterMap specToken := by
  by_cases he : l.length = 1023
  · have hd : l.drop 1023 = [] := List.drop_eq_nil_of_le (by omega)
    have ht : l.take 1023 = l := List.take_of_length_le (by omega)
    rw [linePieces_short (by omega), hd, ht, linePieces_short (by simp)]
    cases h : specToken l <;> simp [List.filterMap_cons, h, specToken_nil]
  · rw [linePieces_long (by omega)]

/-- The tokens scanned from the buffers that `fgets` fills, with a buffer of
1024 characters, are the specified tokens of the pieces of the lines. -/
theorem fgetsLines_tokens : ∀ (fuel : Nat) (content : List Char), content.length ≤ fuel →
    NUL ∉ content →
    (fgetsLines 1024 fuel content).filterMap scanToken =
      (((textLines content).map linePieces).flatten).filterMap specToken := by
  intro fuel
  induction fuel with
  | zero =>
    intro content hlen _
    have : content = [] := List.length_eq_zero.mp (by omega)
    subst this
    simp [fgetsLines, textLines]
  | succ f ih =>
    intro content hlen hnul
    by_cases h0 : content = []
    · subst h0
      simp [fgetsLines, textLines]
    · have hend : ∀ g, fgetsLines 1024 g ([] : List Char) = [] := by
        intro g; cases g <;> simp [fgetsLines]
      rcases split_at_newline content with hnl | ⟨l, rest, hs, hl⟩
      · have htl := textLines_last content hnl h0
        rw [htl]
        simp only [List.map_cons, List.map_nil, List.flatten_cons, List.flatten_nil,
          List.append_nil]
        by_cases hlen1 : content.length ≤ 1023
        · simp only [fgetsLines, if_neg h0, Nat.add_one_sub_one]
          rw [fgetsAux_last 1023 content hnl hlen1, hend, linePieces_short hlen1]
          simp only [List.filterMap_cons, List.filterMap_nil, scanToken_eq_specToken hnul]
        · have hsplit : content.take 1023 ++ content.drop 1023 = content :=
            List.take_append_drop 1023 content
          have hnlu : newline ∉ content.take 1023 := fun h => hnl (List.mem_of_mem_take h)
          have hnlv : newline ∉ content.drop 1023 := fun h => hnl (List.mem_of_mem_drop h)
          have hnulu : NUL ∉ content.take 1023 := fun h => hnul (List.mem_of_mem_take h)
          have hnulv : NUL ∉ content.drop 1023 := fun h => hnul (List.mem_of_mem_drop h)
          have hulen : (content.take 1023).length = 1023 := by
            rw [List.length_take]; omega
          have hv0 : content.drop 1023 ≠ [] := by
            intro h
            have := congrArg List.length h
            rw [List.length_drop] at this
            simp at this
            omega
          have hfg : fgetsAux 1023 content = (content.take 1023, content.drop 1023) := by
            have := fgetsAux_full 1023 (content.take 1023) (content.drop 1023) hnlu hulen
            rwa [hsplit] at this
          have hih := ih (content.drop 1023) (by rw [List.length_drop]; omega) hnulv
          rw [textLines_last _ hnlv hv0] at hih
          simp only [List.map_cons, List.map_nil, List.flatten_cons, List.flatten_nil,
            List.append_nil] at hih
          simp only [fgetsLines, if_neg h0, Nat.add_one_sub_one]
          rw [hfg, linePieces_tokens (by omega)]
          simp only [List.filterMap_cons, scanToken_eq_specToken hnulu, hih]
      · subst hs
        have htl := textLines_line l rest hl
        have hnul2 : NUL ∉ rest := fun h => hnul (by simp [h])
        have hnull : NUL ∉ l := fun h => hnul (by simp [h])
        rw [htl]
        simp only [List.map_cons, List.flatten_cons, List.filterMap_append]
        by_cases hlen1 : l.length < 1023
        · have hnul1 : NUL ∉ l ++ [newline] := by
            intro hmem
            rcases List.mem_append.mp hmem with h | h
            · exact hnull h
            · simp only [List.mem_singleton] at h
              exact newline_ne_NUL h.symm
          simp only [fgetsLines, if_neg h0]
          simp only [Nat.add_one_sub_one]
          rw [fgetsAux_line 1023 l rest hl hlen1, linePieces_short (by omega)]
          simp only [List.filterMap_cons, List.filterMap_nil]
          rw [scanToken_eq_specToken hnul1, specToken_append_newline,
            ih rest (by simp at hlen; omega) hnul2]
          cases specToken l <;> simp
        · have hsplit : l.take 1023 ++ l.drop 1023 = l := List.take_append_drop 1023 l
          have hnlu : newline ∉ l.take 1023 := fun h => hl (List.mem_of_mem_take h)
          have hnlv : newline ∉ l.drop 1023 := fun h => hl (List.mem_of_mem_drop h)
          have hnulu : NUL ∉ l.take 1023 := fun h => hnull (List.mem_of_mem_take h)
          have hulen : (l.take 1023).length = 1023 := by
            rw [List.length_take]; omega
          have hfg : fgetsAux 1023 (l ++ newline :: rest) =
              (l.take 1023, l.drop 1023 ++ newline :: rest) := by
            have := fgetsAux_full 1023 (l.take 1023) (l.drop 1023 ++ newline :: rest)
              hnlu hulen
            rwa [← List.append_assoc, hsplit] at this
          have hnul3 : NUL ∉ l.drop 1023 ++ newline :: rest := by
            intro hmem
            rcases List.mem_append.mp hmem with h | h
            · exact hnull (List.mem_of_mem_drop h)
            · rcases List.mem_cons.mp h with h | h
              · exact newline_ne_NUL h.symm
              · exact hnul2 h
          have hih := ih (l.drop 1023 ++ newline :: rest)
            (by
              simp only [List.length_append, List.length_cons, List.length_drop] at hlen ⊢
              omega) hnul3
          rw [textLines_line _ rest hnlv] at hih
          simp only [List.map_cons, List.flatten_cons, List.filterMap_append] at hih
          simp only [fgetsLines, if_neg h0, Nat.add_one_sub_one]
          rw [hfg, linePieces_tokens (by omega)]
          simp only [List.filterMap_cons, scanToken_eq_specToken hnulu, hih]
          cases specToken (l.take 1023) <;> simp

/-- A file whose lines have at most 1023 characters has its lines as pieces. -/
theorem piecePatterns_short {content : List Char}
    (hshort : ∀ l ∈ textLines content, l.length ≤ 1023) :
    piecePatterns content = specPatterns content := by
  unfold piecePatterns specPatterns
  have h : ∀ ls : List (List Char), (∀ l ∈ ls, l.length ≤ 1023) →
      (ls.map linePieces).flatten = ls := by
    intro ls
    induction ls with
    | nil => intro _; rfl
    | cons l ls ih =>
      intro hs
      simp only [List.map_cons, List.flatten_cons, linePieces_short (hs l (by simp))]
      rw [ih (fun x hx => hs x (by simp [hx]))]
      rfl
  rw [h _ hshort]

theorem specCompound_cons (t : List Char) (ts : List (List Char)) :
    specCompound (t :: ts) =
      ('(' :: t ++ [')']) ++ (ts.map (fun u => '|' :: '(' :: u ++ [')'])).flatten := by
  induction ts generalizing t with
  | nil => simp [specCompound, List.intercalate]
  | cons u us ih =>
    have h := ih u
    simp only [specCompound, List.intercalate, List.map_cons, List.intersperse_cons_cons,
      List.flatten_cons] at h ⊢
    rw [h]
    simp

/-- The loop of `readregexfile` once a pattern `p` is there: every further
pattern is appended as `|(pattern)`. -/
theorem regexLoop_some (alloc : Nat → Bool) :
    ∀ (lines : List (List Char)) (p : List Char) (cnt : Nat),
      (∀ n, cnt ≤ n →
        n < cnt + ((lines.filterMap scanToken).filter (fun t => t.head? != some '#')).length →
        alloc n = true) →
      (p ++ ((((lines.filterMap scanToken).filter (fun t => t.head? != some '#')).map
        (fun u => '|' :: '(' :: u ++ [')'])).flatten)).length < INT_MAX →
      regexLoop alloc lines (some p) cnt =
        some (((cnt +
            ((lines.filterMap scanToken).filter (fun t => t.head? != some '#')).length : Nat) : Int),
          some (p ++ ((((lines.filterMap scanToken).filter
            (fun t => t.head? != some '#')).map (fun u => '|' :: '(' :: u ++ [')'])).flatten))) := by
  intro lines
  induction lines with
  | nil => intro p cnt _ _; simp [regexLoop]
  | cons line rest ih =>
    intro p cnt halloc hlen
    cases ht : scanToken line with
    | none =>
      simp only [List.filterMap_cons, ht] at halloc hlen ⊢
      simp only [regexLoop, ht]
      exact ih p cnt halloc hlen
    | some tok =>
      simp only [List.filterMap_cons, ht] at halloc hlen ⊢
      by_cases hcom : tok.head? = some '#'
      · have hf : (tok.head? != some '#') = false := by simp [hcom]
        simp only [List.filter_cons, hf] at halloc hlen ⊢
        simp only [regexLoop, ht, if_pos hcom]
        exact ih p cnt halloc hlen
      · have hf : (tok.head? != some '#') = true := by simp [hcom]
        simp only [List.filter_cons, hf, if_true, List.length_cons, List.map_cons,
          List.flatten_cons] at halloc hlen ⊢
        have hguard : ¬ (p.length + (tok.length + 4) > INT_MAX) := by
          simp only [List.length_append, List.length_cons, List.length_nil] at hlen
          omega
        have ha : alloc cnt = true := halloc cnt (le_refl _) (by omega)
        simp only [regexLoop, ht, if_neg hcom, if_neg hguard, ha, if_true]
        rw [ih (p ++ ('|' :: '(' :: tok ++ [')'])) (cnt + 1)
          (fun n h1 h2 => halloc n (by omega) (by omega))
          (by simpa [List.append_assoc] using hlen)]
        simp only [List.append_assoc]
        congr 3
        omega

/-- The loop of `readregexfile` from the start: it returns the number of
patterns and the compound pattern, `NULL` when there is none. -/
theorem regexLoop_none (alloc : Nat → Bool) :
    ∀ (lines : List (List Char)),
      (∀ n, n < ((lines.filterMap scanToken).filter (fun t => t.head? != some '#')).length →
        alloc n = true) →
      (specCompound ((lines.filterMap scanToken).filter
        (fun t => t.head? != some '#'))).length < INT_MAX →
      regexLoop alloc lines none 0 =
        some ((((lines.filterMap scanToken).filter (fun t => t.head? != some '#')).length : Int),
          if (lines.filterMap scanToken).filter (fun t => t.head? != some '#') = [] then none
          else some (specCompound ((lines.filterMap scanToken).filter
            (fun t => t.head? != some '#')))) := by
  intro lines
  induction lines with
  | nil => intro _ _; simp [regexLoop]
  | cons line rest ih =>
    intro halloc hlen
    cases ht : scanToken line with
    | none =>
      simp only [List.filterMap_cons, ht] at halloc hlen ⊢
      simp only [regexLoop, ht]
      exact ih halloc hlen
    | some tok =>
      simp only [List.filterMap_cons, ht] at halloc hlen ⊢
      by_cases hcom : tok.head? = some '#'
      · have hf : (tok.head? != some '#') = false := by simp [hcom]
        simp only [List.filter_cons, hf] at halloc hlen ⊢
        simp only [regexLoop, ht, if_pos hcom]
        exact ih halloc hlen
      · have hf : (tok.head? != some '#') = true := by simp [hcom]
        simp only [List.filter_cons, hf, if_true, List.length_cons] at halloc hlen ⊢
        rw [specCompound_cons] at hlen ⊢
        have ha : alloc 0 = true := halloc 0 (by omega)
        simp only [regexLoop, ht, if_neg hcom, ha, if_true]
        rw [regexLoop_some alloc rest ('(' :: tok ++ [')']) 1
          (fun n h1 h2 => halloc n (by omega)) hlen]
        simp only [List.cons_ne_nil, if_false, reduceCtorEq]
        congr 3
        omega
/-- A buffer that is one word is its own token. -/
theorem token_of_word {l : List Char} (hne : l ≠ [])
    (hw : ∀ c ∈ l, isspace c = false ∧ c ≠ NUL) :
    scanToken l = some l ∧ specToken l = some l := by
  have hnul : NUL ∉ l := fun h => (hw NUL h).2 rfl
  have hspec : specToken l = some l := by
    cases l with
    | nil => exact absurd rfl hne
    | cons c t =>
      have hc : isspace c = false := (hw c (by simp)).1
      have ht : t.takeWhile (fun d => !isspace d) = t := by
        rw [List.takeWhile_eq_self_iff]
        intro d hd
        simp [(hw d (by simp [hd])).1]
      simp [specToken, List.dropWhile_cons, hc, ht]
  exact ⟨by rw [scanToken_eq_specToken hnul, hspec], hspec⟩

/-- A pattern file that is one line of more than 1023 characters, without
white space: `fgets` hands it to `readregexfile` in two pieces, which become two
patterns. -/
theorem readregexfile_long_line (env : ParamEnv) (name : String) (u v : List Char)
    (hu : u.length = 1023) (hv : v ≠ []) (hvlen : v.length ≤ 1023)
    (hword : ∀ c ∈ u ++ v, isspace c = false ∧ c ≠ NUL ∧ c ≠ newline)
    (hhu : u.head? ≠ some '#') (hhv : v.head? ≠ some '#')
    (hopen : env.fopen name = some (u ++ v))
    (h0 : env.allocPattern 0 = true) (h1 : env.allocPattern 1 = true) :
    textLines (u ++ v) = [u ++ v] ∧ specPatterns (u ++ v) = [u ++ v] ∧
    readregexfile env (some name) =
      some (2, some (('(' :: u ++ [')']) ++ ('|' :: '(' :: v ++ [')']))) := by
  have hune : u ≠ [] := by
    intro h
    rw [h] at hu
    simp at hu
  have huv : u ++ v ≠ [] := by simp [hune]
  have hnl : newline ∉ u ++ v := fun h => (hword _ h).2.2 rfl
  have hnlu : newline ∉ u := fun h => hnl (List.mem_append_left v h)
  have hnlv : newline ∉ v := fun h => hnl (List.mem_append_right u h)
  have hwu : ∀ c ∈ u, isspace c = false ∧ c ≠ NUL := fun c hc =>
    ⟨(hword c (List.mem_append_left v hc)).1, (hword c (List.mem_append_left v hc)).2.1⟩
  have hwv : ∀ c ∈ v, isspace c = false ∧ c ≠ NUL := fun c hc =>
    ⟨(hword c (List.mem_append_right u hc)).1, (hword c (List.mem_append_right u hc)).2.1⟩
  have hwuv : ∀ c ∈ u ++ v, isspace c = false ∧ c ≠ NUL := fun c hc =>
    ⟨(hword c hc).1, (hword c hc).2.1⟩
  have hlines : textLines (u ++ v) = [u ++ v] := textLines_last _ hnl huv
  have hhuv : (u ++ v).head? ≠ some '#' := by
    cases u with
    | nil => exact absurd rfl hune
    | cons c t => simpa using hhu
  have hspec : specPatterns (u ++ v) = [u ++ v] := by
    unfold specPatterns
    rw [hlines]
    simp only [List.filterMap_cons, List.filterMap_nil, (token_of_word huv hwuv).2]
    have hb : ((u ++ v).head? != some '#') = true := by simpa using hhuv
    simp only [List.filter_cons, hb, if_true, List.filter_nil]
  refine ⟨hlines, hspec, ?_⟩
  have hend : ∀ g, fgetsLines 1024 g ([] : List Char) = [] := by
    intro g; cases g <;> simp [fgetsLines]
  have hfg : fgetsLines 1024 (u ++ v).length (u ++ v) = [u, v] := by
    obtain ⟨k, hk⟩ : ∃ k, (u ++ v).length = k + 2 := by
      have : 0 < v.length := List.length_pos.mpr hv
      exact ⟨(u ++ v).length - 2, by simp only [List.length_append]; omega⟩
    rw [hk]
    simp only [fgetsLines, if_neg huv, if_neg hv, Nat.add_one_sub_one]
    rw [fgetsAux_full 1023 u v hnlu hu]
    simp only [if_neg hv]
    rw [fgetsAux_last 1023 v hnlv hvlen, hend]
  have hg : ¬ (('(' :: u ++ [')']).length + (v.length + 4) > INT_MAX) := by
    simp only [List.length_cons, List.length_append, List.length_nil, hu, INT_MAX]
    omega
  simp only [readregexfile, hopen, hfg, regexLoop, (token_of_word hune hwu).1,
    (token_of_word hv hwv).1, if_neg hhu, if_neg hhv, h0, h1, if_true, if_neg hg]
  rfl

/-- C16 (counterexample): a pattern file that is one line of 1024 letters.  Its
one line yields one pattern, the line itself; `readregexfile` reads the line
in two pieces of 1023 and 1 letters and returns 2 with the compound pattern of
the two pieces. -/
theorem readregexfile_compound_counterexample :
    exParamEnv.fopen "long.re" = some exLongLine ∧
    exLongLine.length = 1024 ∧
    textLines exLongLine = [exLongLine] ∧
    specPatterns exLongLine = [exLongLine] ∧
    readregexfile exParamEnv (some "long.re") =
      some (2, some (('(' :: List.replicate 1023 'a' ++ [')']) ++ ['|', '(', 'a', ')'])) := by
  have hopen : exParamEnv.fopen "long.re" = some exLongLine := by
    simp [exParamEnv]
  have hword : ∀ c ∈ List.replicate 1023 'a' ++ ['a'],
      isspace c = false ∧ c ≠ NUL ∧ c ≠ newline := by
    intro c hc
    have hca : c = 'a' := by
      rcases List.mem_append.mp hc with h | h
      · exact List.eq_of_mem_replicate h
      · exact List.mem_singleton.mp h
    rw [hca]
    decide
  have hhu : (List.replicate 1023 'a').head? ≠ some '#' := by
    rw [List.head?_replicate]
    decide
  obtain ⟨h1, h2, h3⟩ := readregexfile_long_line exParamEnv "long.re"
    (List.replicate 1023 'a') ['a'] (List.length_replicate 1023 'a') (by decide) (by decide)
    hword hhu (by decide) hopen rfl rfl
  exact ⟨hopen, by simp only [exLongLine, List.length_append, List.length_replicate,
    List.length_cons, List.length_nil], h1, h2, h3⟩

/-- C16 (amended): for a pattern file that can be opened and holds no `NUL`
character, whose compound pattern is shorter than `INT_MAX` and for which no
allocation fails.  `readregexfile` reads the file through a buffer of 1024
characters, so a line reaches it in pieces of at most 1023 characters, a line
of at most 1023 characters in one piece.  If the pieces yield the patterns
`p1 .. pn` (the first white-space-delimited token of each piece, without blank
pieces and pieces whose token starts with `#`), `readregexfile` returns `n`,
and the output pattern is `(p1)|(p2)|...|(pn)` in file order for `n ≥ 1` and is
left empty for `n = 0`.  When no line of the file has more than 1023
characters, these patterns are the patterns of the lines. -/
theorem readregexfile_compound (env : ParamEnv) (name : String) (content : List Char)
    (hopen : env.fopen name = some content)
    (hnul : NUL ∉ content)
    (halloc : ∀ n, n < (piecePatterns content).length → env.allocPattern n = true)
    (hint : (specCompound (piecePatterns content)).length < INT_MAX) :
    readregexfile env (some name) =
      some (((piecePatterns content).length : Int),
        if piecePatterns content = [] then none
        else some (specCompound (piecePatterns content))) ∧
    ((∀ l ∈ textLines content, l.length ≤ 1023) →
      piecePatterns content = specPatterns content) := by
  refine ⟨?_, piecePatterns_short⟩
  have htok := fgetsLines_tokens content.length content (le_refl _) hnul
  unfold piecePatterns at halloc hint ⊢
  rw [← htok] at halloc hint ⊢
  simp only [readregexfile, hopen]
  exact regexLoop_none env.allocPattern _ halloc hint

/-- Witness of C16 (amended): the example pattern file, whose lines are short,
gives the two patterns `^XX_STA` and `YY_.*` and the compound pattern
`(^XX_STA)|(YY_.*)`. -/
theorem readregexfile_compound_witness :
    specPatterns exPatternFile = ["^XX_STA".data, "YY_.*".data] ∧
    specCompound (specPatterns exPatternFile) = "(^XX_STA)|(YY_.*)".data ∧
    readregexfile exParamEnv (some "patterns.re") = some (2, some "(^XX_STA)|(YY_.*)".data) ∧
    (readregexfile exParamEnv (some "patterns.re") =
        some (((piecePatterns exPatternFile).length : Int),
          if piecePatterns exPatternFile = [] then none
          else some (specCompound (piecePatterns exPatternFile))) ∧
      ((∀ l ∈ textLines exPatternFile, l.length ≤ 1023) →
        piecePatterns exPatternFile = specPatterns exPatternFile)) :=
  ⟨by decide, by decide, by decide,
    readregexfile_compound exParamEnv "patterns.re" exPatternFile (by decide) (by decide)
      (fun _ _ => rfl) (by decide)⟩

/-! ## `processparam` and `main` -/

/-- After the argument loop has returned 0, a missing input file or a missing
output makes `processparam` end the process with exit status 0. -/
theorem processparam_of_missing {env : ParamEnv} {argv : List String} {s : ParamState}
    (hp : parseArgs env (argv.drop 1) ParamState.init = Outcome.returned (0, s))
    (hm : s.filelist = [] ∨ (s.outputfile = none ∧ s.dladdress = none)) :
    processparam env argv = Outcome.exited 0 := by
  unfold processparam
  rw [hp]
  simp only [ne_eq, not_true_eq_false, if_false]
  by_cases hf : s.filelist = []
  · rw [if_pos hf]
  · rw [if_neg hf]
    rcases hm with h | h
    · exact absurd h hf
    · rw [if_pos h]

/-- An argument that does not start with `-` or `@` is added to the file
list. -/
theorem parseStep_file (env : ParamEnv) (arg : String) (rest : List String) (s : ParamState)
    (h1 : arg.data.head? ≠ some '-') (h2 : arg.data.head? ≠ some '@') :
    (addfile env arg s.filelist = none → parseStep env arg rest s = ArgStep.exit 1) ∧
    (∀ files, addfile env arg s.filelist = some files →
      parseStep env arg rest s = ArgStep.next { s with filelist := files }) := by
  have hne : ∀ l : String, l.data.head? = some '-' → arg ≠ l := by
    intro l hl h
    rw [h] at h1
    exact h1 hl
  have hv : arg.data.take 2 ≠ ['-', 'v'] := by
    intro h
    apply h1
    cases hd : arg.data with
    | nil => rw [hd] at h; cases h
    | cons c t =>
      rw [hd] at h
      change c :: List.take 1 t = ['-', 'v'] at h
      injection h with hc _
      rw [hc]
      rfl
  have hopt : ¬ (arg.data.head? = some '-' ∧ arg.data.length > 1) := fun h => h1 h.1
  constructor
  · intro ha
    unfold parseStep
    simp only [if_neg (hne "-V" rfl), if_neg (hne "-h" rfl), if_neg hv,
      if_neg (hne "-sum" rfl), if_neg (hne "-s" rfl), if_neg (hne "-ts" rfl),
      if_neg (hne "-te" rfl), if_neg (hne "-M" rfl), if_neg (hne "-R" rfl),
      if_neg (hne "-sd" rfl), if_neg (hne "-df" rfl), if_neg (hne "-o" rfl),
      if_neg (hne "-dl" rfl), if_neg hopt, if_neg h2, ha]
  · intro files ha
    unfold parseStep
    simp only [if_neg (hne "-V" rfl), if_neg (hne "-h" rfl), if_neg hv,
      if_neg (hne "-sum" rfl), if_neg (hne "-s" rfl), if_neg (hne "-ts" rfl),
      if_neg (hne "-te" rfl), if_neg (hne "-M" rfl), if_neg (hne "-R" rfl),
      if_neg (hne "-sd" rfl), if_neg (hne "-df" rfl), if_neg (hne "-o" rfl),
      if_neg (hne "-dl" rfl), if_neg hopt, if_neg h2, ha]

/-- C14 (evaluation): a command line without input file, or without output
file and DataLink server, makes `processparam` end the process with exit
status 0, not with a nonzero status.  This holds for the command line that is
the program name alone, for one that names only an input file, for one that
names only an output file, and whenever the argument loop ends normally with
an empty file list or with neither `-o` nor `-dl` seen. -/
theorem processparam_missing_exit (env : ParamEnv) :
    (∀ prog : String, processparam env [prog] = Outcome.exited 0) ∧
    (∀ prog : String, processparam env [prog, "-o", "out.mseed"] = Outcome.exited 0) ∧
    (env.allocFile 0 = true →
      ∀ prog : String, processparam env [prog, "a.mseed"] = Outcome.exited 0) ∧
    (∀ (argv : List String) (s : ParamState),
      parseArgs env (argv.drop 1) ParamState.init = Outcome.returned (0, s) →
      (s.filelist = [] ∨ (s.outputfile = none ∧ s.dladdress = none)) →
      processparam env argv = Outcome.exited 0) ∧
    processparam exParamEnv ["mseedrtstream"] = Outcome.exited 0 ∧
    processparam exParamEnv ["mseedrtstream", "a.mseed"] = Outcome.exited 0 ∧
    processparam exParamEnv ["mseedrtstream", "-o", "out.mseed"] = Outcome.exited 0 ∧
    processparam exParamEnv ["mseedrtstream", "@empty.list", "-o", "out.mseed"] =
      Outcome.exited 0 := by
  refine ⟨?_, ?_, ?_, ?_, ?_, ?_, ?_, ?_⟩
  · intro prog
    exact processparam_of_missing (s := ParamState.init) rfl (Or.inl rfl)
  · intro prog
    exact processparam_of_missing
      (s := { ParamState.init with outputfile := some "out.mseed" }) rfl (Or.inl rfl)
  · intro ha prog
    refine processparam_of_missing
      (s := { ParamState.init with
              filelist := [{ infilename := "a.mseed", infp := none }] }) ?_
      (Or.inr ⟨rfl, rfl⟩)
    show parseArgs env ["a.mseed"] ParamState.init = _
    have hadd : addfile env "a.mseed" ParamState.init.filelist =
        some [{ infilename := "a.mseed", infp := none }] := by
      simp [addfile, ParamState.init, ha]
    have hs := (parseStep_file env "a.mseed" [] ParamState.init (by decide) (by decide)).2 _ hadd
    simp only [parseArgs, hs]
  · intro argv s hp hm
    exact processparam_of_missing hp hm
  · decide
  · decide
  · decide
  · decide
/-- `getoptval` takes any next argument that does not start with `-`. -/
theorem getoptval_value (opt v : String) (rest : List String)
    (hv : v.data.head? ≠ some '-') : getoptval opt (v :: rest) = some v := by
  unfold getoptval
  by_cases h : (opt = "-o" ∨ opt = "-s") ∧ v = "-"
  · simp only [if_pos h]
  · simp only [if_neg h, if_pos hv]

/-- The option `-df` stores whatever `strtod` returns for its value. -/
theorem parseStep_df (env : ParamEnv) (v : String) (rest : List String) (s : ParamState)
    (hv : v.data.head? ≠ some '-') :
    parseStep env "-df" (v :: rest) s =
      ArgStep.next2 { s with streamdelay := true, delayfactor := env.strtod v } := by
  unfold parseStep
  rw [getoptval_value "-df" v rest hv]
  rfl

/-- C15 (evaluation): `processparam` does not validate the delay factor.  For
any value `v` that does not start with `-`, the command line
`-df v -o out.mseed a.mseed` makes it return 0 with `delayfactor` set to what
`strtod` returns for `v`; with the value `0` it returns 0 with a delay factor
of 0.  With pacing enabled and a delay factor that is not positive, the
division `snooze / delayfactor` in `writerecords` is reached for any record
that is ahead of the clock, and the sleep argument is undefined; this happens
at the second record of the sorted example file `a.mseed`, where the same
command line with the value `2` sleeps twice and returns 0. -/
theorem processparam_df_unchecked (env : ParamEnv) :
    (∀ prog v : String, v.data.head? ≠ some '-' → env.allocFile 0 = true →
      processparam env [prog, "-df", v, "-o", "out.mseed", "a.mseed"] =
        Outcome.returned (0,
          { ParamState.init with
            streamdelay := true, delayfactor := env.strtod v,
            outputfile := some "out.mseed",
            filelist := [{ infilename := "a.mseed", infp := none }] })) ∧
    processparam exParamEnv ["mseedrtstream", "-df", "0", "-o", "out.mseed", "a.mseed"] =
      Outcome.returned (0,
        { ParamState.init with
          streamdelay := true, delayfactor := { num := 0, den := 1 },
          outputfile := some "out.mseed",
          filelist := [{ infilename := "a.mseed", infp := none }] }) ∧
    (∀ (cfg : Config) (wenv : WriteEnv) (r : Record) (w : World) (offset : Int),
      cfg.streamdelay = true → cfg.delayfactor.num ≤ 0 → offset ≠ HPTERROR →
      0 < offset - (wenv.gethptime w.clockReads - r.endtime) →
      pace cfg wenv r w offset = none) ∧
    main 0 exMainEnv ["mseedrtstream", "-df", "0", "-o", "out.mseed", "a.mseed"] = none ∧
    (main 0 exMainEnv ["mseedrtstream", "-df", "2", "-o", "out.mseed", "a.mseed"]).map
        (Outcome.map (fun p => (p.1, usleeps p.2.log))) =
      some (Outcome.returned (0, [3, 13])) := by
  refine ⟨?_, by decide, ?_, by decide, by decide⟩
  · intro prog v hv ha
    have hadd : addfile env "a.mseed" ParamState.init.filelist =
        some [{ infilename := "a.mseed", infp := none }] := by
      simp [addfile, ParamState.init, ha]
    have h1 := parseStep_df env v ["-o", "out.mseed", "a.mseed"] ParamState.init hv
    have h2 : ∀ s : ParamState, parseStep env "-o" ["out.mseed", "a.mseed"] s =
        ArgStep.next2 { s with outputfile := some "out.mseed" } := fun _ => rfl
    have h3 := fun (s : ParamState) (hs : s.filelist = []) =>
      (parseStep_file env "a.mseed" [] s (by decide) (by decide)).2
        [{ infilename := "a.mseed", infp := none }] (by rw [hs]; exact hadd)
    unfold processparam
    simp only [List.drop_succ_cons, List.drop_zero, parseArgs, h1, h2]
    rw [h3 _ rfl]
    simp [ParamState.init, expandPattern]
  · intro cfg wenv r w offset hsd hnum hoff hpos
    unfold pace
    rw [if_pos hsd]
    simp only [if_neg hoff]
    rw [if_pos hpos]
    have hu : cfg.delayfactor.num ≤ 0 ∨ cfg.delayfactor.den = 0 := Or.inl hnum
    simp [usleepArg, hu]
/-- The argument loop of `processparam` returns 0 or -1. -/
theorem parseArgs_ret (env : ParamEnv) :
    ∀ (n : Nat) (args : List String) (s s1 : ParamState) (r : Int), args.length ≤ n →
      parseArgs env args s = Outcome.returned (r, s1) → r = 0 ∨ r = -1 := by
  intro n
  induction n with
  | zero =>
    intro args s s1 r hlen hp
    have : args = [] := List.length_eq_zero.mp (by omega)
    subst this
    simp only [parseArgs, Outcome.returned.injEq, Prod.mk.injEq] at hp
    exact Or.inl hp.1.symm
  | succ n ih =>
    intro args s s1 r hlen hp
    cases args with
    | nil =>
      simp only [parseArgs, Outcome.returned.injEq, Prod.mk.injEq] at hp
      exact Or.inl hp.1.symm
    | cons arg rest =>
      simp only [List.length_cons] at hlen
      rw [parseArgs] at hp
      cases hst : parseStep env arg rest s with
      | exit status => rw [hst] at hp; cases hp
      | fail s2 =>
        rw [hst] at hp
        simp only [Outcome.returned.injEq, Prod.mk.injEq] at hp
        exact Or.inr hp.1.symm
      | next s2 =>
        rw [hst] at hp
        exact ih rest s2 s1 r (by omega) hp
      | next2 s2 =>
        rw [hst] at hp
        cases rest with
        | nil =>
          simp only [Outcome.returned.injEq, Prod.mk.injEq] at hp
          exact Or.inl hp.1.symm
        | cons v rest1 =>
          simp only [List.length_cons] at hlen
          exact ih rest1 s2 s1 r (by omega) hp

/-- `processparam` returns 0 or -1. -/
theorem processparam_ret {env : ParamEnv} {argv : List String} {ret : Int} {s : ParamState}
    (hp : processparam env argv = Outcome.returned (ret, s)) : ret = 0 ∨ ret = -1 := by
  unfold processparam at hp
  cases hpa : parseArgs env (argv.drop 1) ParamState.init with
  | exited st => rw [hpa] at hp; cases hp
  | returned q =>
    obtain ⟨r0, s0⟩ := q
    rw [hpa] at hp
    dsimp only at hp
    have hr := parseArgs_ret env _ _ _ _ _ (le_refl _) hpa
    by_cases hr0 : r0 = 0
    · subst hr0
      simp only [ne_eq, not_true_eq_false, if_false] at hp
      split_ifs at hp
      cases hm : expandPattern env s0.matchpattern with
      | none => rw [hm] at hp; cases hp
      | some mp =>
        rw [hm] at hp
        dsimp only at hp
        cases hrj : expandPattern env s0.rejectpattern with
        | none => rw [hrj] at hp; cases hp
        | some rp =>
          rw [hrj] at hp
          dsimp only at hp
          split_ifs at hp
          simp only [Outcome.returned.injEq, Prod.mk.injEq] at hp
          exact Or.inl hp.1.symm
    · rw [if_pos hr0] at hp
      simp only [Outcome.returned.injEq, Prod.mk.injEq] at hp
      rw [← hp.1]
      exact hr

/-- C13 (evaluation): the return value of `main`.  When `processparam` has
returned 0 with a DataLink server given and the first `dl_connect` fails,
`main` returns -1, not 1; so it does on the example command line with a
server that refuses the connection.  Otherwise: it returns 1 when
`processparam` returns a negative value and when `readfiles` or `writerecords`
return a nonzero value (`sortrecmap` cannot fail on the record map of `main`);
any value it returns is 0, 1 or -1; it returns -1 only after the failed
connect, and 0 exactly when `processparam`, the connect, `readfiles`,
`sortrecmap` and `writerecords` have all succeeded. -/
theorem main_status (fuel : Nat) (env : MainEnv) (argv : List String) :
    (∀ s : ParamState, processparam env.param argv = Outcome.returned (0, s) →
      s.dladdress.isSome = true → env.write.dlconnect 0 = false →
      ∃ w, main fuel env argv = some (Outcome.returned (-1, w))) ∧
    (∀ (ret : Int) (s : ParamState), processparam env.param argv = Outcome.returned (ret, s) →
      ret < 0 → ∃ w, main fuel env argv = some (Outcome.returned (1, w))) ∧
    (∀ (v : Int) (w : World), main fuel env argv = some (Outcome.returned (v, w)) →
      (v = 0 ∨ v = 1 ∨ v = -1) ∧
      (v = -1 → ∃ s, processparam env.param argv = Outcome.returned (0, s) ∧
        s.dladdress.isSome = true ∧ env.write.dlconnect 0 = false) ∧
      (v = 0 → ∃ s h m h1 m1 w1 w2,
        processparam env.param argv = Outcome.returned (0, s) ∧
        (s.dladdress.isSome = true → env.write.dlconnect 0 = true) ∧
        readfiles (configOf env.param s) env.read s.filelist [] emptyMap = some (0, h, m) ∧
        sortrecmap h (some m) = some (0, h1, some m1) ∧
        writerecords fuel (configOf env.param s) env.write h1 (some m1) w1 = some (0, w2))) ∧
    (∀ (s : ParamState) (h h1 : Heap) (m : RecordMap) (om : Option RecordMap) (w2 : World),
      processparam env.param argv = Outcome.returned (0, s) →
      (s.dladdress.isSome = true → env.write.dlconnect 0 = true) →
      readfiles (configOf env.param s) env.read s.filelist [] emptyMap = some (0, h, m) →
      sortrecmap h (some m) = some (0, h1, om) →
      writerecords fuel (configOf env.param s) env.write h1 om
          (if (configOf env.param s).dlconn = true then
            { ({ initWorld s.filelist with link := false } : World) with
              dlconnects := 1, link := true, log := [Event.connect true] }
           else ({ initWorld s.filelist with link := false } : World)) = some (0, w2) →
      ∃ w, main fuel env argv = some (Outcome.returned (0, w))) ∧
    main 3 exMainEnvDown ["mseedrtstream", "-dl", "localhost:16000", "a.mseed", "b.mseed"] =
      some (Outcome.returned (-1,
        { initWorld exFiles with
          link := false, dlconnects := 1, log := [Event.connect false] })) ∧
    (main 3 exMainEnv ["mseedrtstream", "-dl", "localhost:16000", "a.mseed", "b.mseed"]).map
        (Outcome.map (fun p => p.1)) = some (Outcome.returned 0) ∧
    (main 3 exMainEnv ["mseedrtstream", "-o", "out.mseed", "a.mseed", "c.mseed"]).map
        (Outcome.map (fun p => p.1)) = some (Outcome.returned 1) := by
  refine ⟨?_, ?_, ?_, ?_, by decide, by decide, by decide⟩
  · intro s hp hdl hc
    have hcond : (configOf env.param s).dlconn = true ∧ env.write.dlconnect 0 = false :=
      ⟨by simpa [configOf] using hdl, hc⟩
    refine ⟨{ ({ initWorld s.filelist with link := false } : World) with
              dlconnects := 1, log := [Event.connect false] }, ?_⟩
    unfold main
    rw [hp]
    simp only [lt_self_iff_false, if_false, if_pos hcond]
  · intro ret s hp hneg
    refine ⟨({ initWorld s.filelist with link := false } : World), ?_⟩
    unfold main
    rw [hp]
    simp only [if_pos hneg]
  · intro v w hm
    unfold main at hm
    cases hp : processparam env.param argv with
    | exited status => rw [hp] at hm; simp at hm
    | returned p =>
      obtain ⟨ret, s⟩ := p
      rw [hp] at hm
      dsimp only at hm
      by_cases hneg : ret < 0
      · rw [if_pos hneg] at hm
        simp only [Option.some.injEq, Outcome.returned.injEq, Prod.mk.injEq] at hm
        obtain ⟨hv, _⟩ := hm
        subst hv
        exact ⟨Or.inr (Or.inl rfl), (fun h => by cases h), (fun h => by cases h)⟩
      · rw [if_neg hneg] at hm
        have hret : ret = 0 := by
          rcases processparam_ret hp with h | h
          · exact h
          · omega
        subst hret
        have hdlc : (configOf env.param s).dlconn = s.dladdress.isSome := rfl
        by_cases hconn : (configOf env.param s).dlconn = true ∧ env.write.dlconnect 0 = false
        · rw [if_pos hconn] at hm
          simp only [Option.some.injEq, Outcome.returned.injEq, Prod.mk.injEq] at hm
          obtain ⟨hv, _⟩ := hm
          subst hv
          exact ⟨Or.inr (Or.inr rfl), (fun _ => ⟨s, rfl, by rw [← hdlc]; exact hconn.1,
            hconn.2⟩), (fun h => by cases h)⟩
        · rw [if_neg hconn] at hm
          have hok : s.dladdress.isSome = true → env.write.dlconnect 0 = true := by
            intro hd
            by_contra hc
            exact hconn ⟨by rw [hdlc]; exact hd, by simpa using hc⟩
          cases hrf : readfiles (configOf env.param s) env.read s.filelist [] emptyMap with
          | none => rw [hrf] at hm; cases hm
          | some res =>
            obtain ⟨rret, h, m⟩ := res
            rw [hrf] at hm
            dsimp only at hm
            by_cases hr : rret ≠ 0
            · rw [if_pos hr] at hm
              simp only [Option.some.injEq, Outcome.returned.injEq, Prod.mk.injEq] at hm
              obtain ⟨hv, _⟩ := hm
              subst hv
              exact ⟨Or.inr (Or.inl rfl), (fun h => by cases h), (fun h => by cases h)⟩
            · rw [if_neg hr] at hm
              have hr0 : rret = 0 := by simpa using hr
              subst hr0
              cases hso : sortrecmap h (some m) with
              | none => rw [hso] at hm; cases hm
              | some res =>
                obtain ⟨sret, h1, om⟩ := res
                rw [hso] at hm
                dsimp only at hm
                by_cases hs0 : sret ≠ 0
                · rw [if_pos hs0] at hm
                  simp only [Option.some.injEq, Outcome.returned.injEq, Prod.mk.injEq] at hm
                  obtain ⟨hv, _⟩ := hm
                  subst hv
                  exact ⟨Or.inr (Or.inl rfl), (fun h => by cases h), (fun h => by cases h)⟩
                · rw [if_neg hs0] at hm
                  have hs00 : sret = 0 := by simpa using hs0
                  subst hs00
                  cases hw : writerecords fuel (configOf env.param s) env.write h1 om
                      (if (configOf env.param s).dlconn = true then
                        { ({ initWorld s.filelist with link := false } : World) with
                          dlconnects := 1, link := true, log := [Event.connect true] }
                       else ({ initWorld s.filelist with link := false } : World)) with
                  | none => rw [hw] at hm; cases hm
                  | some res =>
                    obtain ⟨wret, w2⟩ := res
                    rw [hw] at hm
                    dsimp only at hm
                    by_cases hw0 : wret ≠ 0
                    · rw [if_pos hw0] at hm
                      simp only [Option.some.injEq, Outcome.returned.injEq,
                        Prod.mk.injEq] at hm
                      obtain ⟨hv, _⟩ := hm
                      subst hv
                      exact ⟨Or.inr (Or.inl rfl), (fun h => by cases h),
                        (fun h => by cases h)⟩
                    · rw [if_neg hw0] at hm
                      have hw00 : wret = 0 := by simpa using hw0
                      subst hw00
                      simp only [Option.some.injEq, Outcome.returned.injEq,
                        Prod.mk.injEq] at hm
                      obtain ⟨hv, _⟩ := hm
                      subst hv
                      have hom : ∃ m1, om = some m1 := by
                        unfold sortrecmap at hso
                        dsimp only at hso
                        split_ifs at hso
                        · simp only [Option.some.injEq, Prod.mk.injEq] at hso
                          exact ⟨m, hso.2.2.symm⟩
                        · cases hsl : sortLoop 32 h m.first 1 with
                          | none => rw [hsl] at hso; cases hso
                          | some t =>
                            obtain ⟨h2, top, tail⟩ := t
                            rw [hsl] at hso
                            simp only [Option.some.injEq, Prod.mk.injEq] at hso
                            exact ⟨_, hso.2.2.symm⟩
                      obtain ⟨m1, hm1⟩ := hom
                      subst hm1
                      exact ⟨Or.inl rfl, (fun h => by cases h),
                        (fun _ => ⟨s, h, m, h1, m1, _, w2, rfl, hok, hrf, hso, hw⟩)⟩
  · intro s h h1 m om w2 hp hc hrf hso hw
    have hconn : ¬ ((configOf env.param s).dlconn = true ∧ env.write.dlconnect 0 = false) := by
      rintro ⟨hd, hf⟩
      rw [hc hd] at hf
      cases hf
    refine ⟨if (configOf env.param s).dlconn = true ∧ w2.link = true then
        { w2 with link := false, log := w2.log ++ [Event.disconnect] }
      else w2, ?_⟩
    unfold main
    rw [hp]
    dsimp only
    rw [if_neg (by decide), if_neg hconn, hrf]
    dsimp only
    rw [if_neg (by decide), hso]
    dsimp only
    rw [if_neg (by decide), hw]
    dsimp only
    rw [if_neg (by decide)]

end Mseedrtstream
